import Mathlib

/-!
# Score stores and the benchmark estimate (package `scores`, `cmd/benchmark`)

A shallow embedding of the three in-memory stores of `hw1-go`
(`solution1.go`, `solution2.go`, `linked_list_plus.go`, `store.go`), of
`estimateNextTime` and of the data-point step of `runBenchmarks`
(`cmd/benchmark/eval.go`), with the properties of these functions.

Conventions of the embedding

* A Go slice is a `List`; `uint32` ids and `uint8` scores are natural
  numbers (the code only compares and copies them, so no wrap-around is
  involved); Go `int` values that may hold the terminal `-1` are `Int`.
* `Search` returns `[]int`, here `List Int`.
* Loops are recursive functions on a counter that bounds the number of
  iterations left.  For `sort.Search`, the tie-skipping loops, the capacity
  growth loop and the in-place reversal this counter is the loop's own
  variant, so the counter reaches zero only when the loop condition is
  false.  The chain traversal of `Solution2.Search` has no variant for an
  arbitrary state, so there the counter is an explicit argument and running
  out of it is a distinct outcome.
* Index expressions of `Solution2` and of `estimateNextTime` that are not
  guarded by a length test are checked: an index outside the slice is the
  outcome `indexOutOfRange`.
* `Solution1.capacity` is a natural number in the embedding of `Insert`;
  `ensureCapacityInt` is the same method on 64-bit `int` values with
  wrap-around and with the refusal of `make` to allocate more than
  `maxAlloc` bytes; the capacities of the two are proved to agree for
  `capacity ≥ 0`.
* A `time.Duration` is its number of nanoseconds, an `Int`.  The `float64`
  operations of `estimateNextTime` are parameters (`FloatOps`); `binary64Ops`
  is the arithmetic of the code, IEEE 754 binary64 rounding on rationals;
  `exactOps`, exact rational arithmetic, is a second instance.
* The durations that `runBenchmarks` measures are inputs of `benchPoint`.
-/

namespace Scores

/-! ## store.go -/

/-- The constant `MaxID = 1 << 20`. -/
def MaxID : Nat := 1 <<< 20

/-! ## Go library functions used by the stores -/

/-- The loop of Go `sort.Search`: `for i < j { h := int(uint(i+j) >> 1);
if !f(h) { i = h + 1 } else { j = h } }; return i`.  The first argument
bounds `j - i`. -/
def sortSearchLoop (f : Nat → Bool) : Nat → Nat → Nat → Nat
  | 0, i, _ => i
  | fuel + 1, i, j =>
    if i < j then
      let h := (i + j) / 2
      if !f h then sortSearchLoop f fuel (h + 1) j
      else sortSearchLoop f fuel i h
    else i

/-- Go `sort.Search(n, f)`: `i, j := 0, n` followed by the loop. -/
def sortSearch (n : Nat) (f : Nat → Bool) : Nat :=
  sortSearchLoop f n 0 n

/-- Go builtin `copy(dst, src)`: the first `min(len(dst), len(src))`
elements of `dst` are overwritten by those of `src` (as read before the
copy, so overlapping slices behave like `memmove`).  Returns the new contents
of `dst`. -/
def goCopy {α : Type} (dst src : List α) : List α :=
  src.take dst.length ++ dst.drop src.length

/-- The three statements `s = append(s, zero); copy(s[pos+1:], s[pos:]);
s[pos] = x` shared by both sorted stores. -/
def shiftInsert {α : Type} (zero : α) (xs : List α) (pos : Nat) (x : α) : List α :=
  let a := xs ++ [zero]
  let b := a.take (pos + 1) ++ goCopy (a.drop (pos + 1)) (a.drop pos)
  b.set pos x

/-- The loop `for pos < n && key(pos) == id { pos++ }`; the first argument
bounds `n - pos`. -/
def skipEqual (key : Nat → Nat) (n id : Nat) : Nat → Nat → Nat
  | 0, pos => pos
  | fuel + 1, pos =>
    if pos < n ∧ key pos = id then skipEqual key n id fuel (pos + 1) else pos

/-! ## solution1.go -/

/-- The struct `record`. -/
structure record where
  id : Nat
  score : Nat
deriving DecidableEq, Repr

/-- The zero value `record{}`. -/
def record.zero : record := { id := 0, score := 0 }

/-- The struct `Solution1`. -/
structure Solution1 where
  data : List record
  capacity : Nat
deriving DecidableEq, Repr

/-- The constructor `NewSolution1`. -/
def NewSolution1 : Solution1 := { data := [], capacity := 1 }

/-- The largest `int`, `int(^uint(0)>>1)`, on a 64-bit platform. -/
def maxInt : Nat := 2 ^ 63 - 1

/-- The growth loop of `ensureCapacity`:
`for needed > newCap { if newCap > maxInt/10 { newCap = needed; break }; newCap *= 10 }`.
The first counter argument bounds `needed - newCap`. -/
def growLoop (needed : Nat) : Nat → Nat → Nat
  | 0, newCap => newCap
  | fuel + 1, newCap =>
    if needed > newCap then
      if newCap > maxInt / 10 then needed
      else growLoop needed fuel (newCap * 10)
    else newCap

/-- The method `Solution1.ensureCapacity`. -/
def Solution1.ensureCapacity (s : Solution1) (extra : Nat) : Solution1 :=
  let needed := s.data.length + extra
  if needed ≤ s.capacity then s
  else
    let newCap := if s.capacity = 0 then 1 else s.capacity
    let newCap := growLoop needed (needed - newCap) newCap
    { data := goCopy (List.replicate s.data.length record.zero) s.data, capacity := newCap }

/-- The method `Solution1.Insert`. -/
def Solution1.Insert (s : Solution1) (id score : Nat) : Solution1 :=
  let rec_ : record := { id := id, score := score }
  let s := s.ensureCapacity 1
  let pos := sortSearch s.data.length (fun i => decide ((s.data.getD i record.zero).id ≥ id))
  let pos := skipEqual (fun i => (s.data.getD i record.zero).id) s.data.length id
    (s.data.length - pos) pos
  { s with data := shiftInsert record.zero s.data pos rec_ }

/-- The method `Solution1.Search`. -/
def Solution1.Search (s : Solution1) (id : Nat) : List Int :=
  let start := sortSearch s.data.length (fun i => decide ((s.data.getD i record.zero).id ≥ id))
  if start = s.data.length ∨ (s.data.getD start record.zero).id ≠ id then [-1]
  else
    let stop := skipEqual (fun i => (s.data.getD i record.zero).id) s.data.length id
      (s.data.length - start) start
    (List.range (stop - start)).map
      (fun k => Int.ofNat (s.data.getD (start + k) record.zero).score)

/-- A sequence of `Insert(id, score)` calls applied in order. -/
def Solution1.insertAll (s : Solution1) (calls : List (Nat × Nat)) : Solution1 :=
  calls.foldl (fun t c => t.Insert c.1 c.2) s

/-! ## solution2.go -/

/-- The result of running code that may index a slice out of range or,
for a loop without a variant, use up its iteration bound. -/
inductive Outcome (α : Type) where
  | done (a : α)
  | indexOutOfRange
  | outOfFuel
deriving DecidableEq, Repr

/-- The struct `linkNode`. -/
structure linkNode where
  score : Nat
  next : Int
deriving DecidableEq, Repr

/-- The struct `Solution2`. -/
structure Solution2 where
  heads : List Int
  nodes : List linkNode
deriving DecidableEq, Repr

/-- The constructor `NewSolution2`: `MaxID+1` heads, all `-1`, and no nodes. -/
def NewSolution2 : Solution2 :=
  { heads := List.replicate (MaxID + 1) (-1), nodes := [] }

/-- The method `Solution2.Insert`. -/
def Solution2.Insert (s : Solution2) (id score : Nat) : Outcome Solution2 :=
  if id = 0 ∨ id > MaxID then .done s
  else
    let idx := id
    let nodeIndex := s.nodes.length
    match s.heads.get? idx with
    | none => .indexOutOfRange
    | some h =>
      .done { heads := s.heads.set idx (Int.ofNat nodeIndex),
              nodes := s.nodes ++ [{ score := score, next := h }] }

/-- The traversal loop of `Solution2.Search`:
`for current != -1 { node := s.nodes[current]; scores = append(scores, int(node.score));
current = node.next }`. -/
def collectChain (nodes : List linkNode) : Nat → Int → List Int → Outcome (List Int)
  | fuel, current, scores =>
    if current = -1 then .done scores
    else
      match fuel with
      | 0 => .outOfFuel
      | fuel + 1 =>
        if current < 0 then .indexOutOfRange
        else
          match nodes.get? current.toNat with
          | none => .indexOutOfRange
          | some node => collectChain nodes fuel node.next (scores ++ [Int.ofNat node.score])

/-- The reversal loop of `Solution2.Search`:
`for i, j := 0, len(scores)-1; i < j; i, j = i+1, j-1 { scores[i], scores[j] = scores[j], scores[i] }`.
The first argument bounds `j - i`. -/
def swapLoop (scores : List Int) : Nat → Nat → Nat → List Int
  | 0, _, _ => scores
  | fuel + 1, i, j =>
    if i < j then
      swapLoop ((scores.set i (scores.getD j 0)).set j (scores.getD i 0)) fuel (i + 1) (j - 1)
    else scores

/-- The method `Solution2.Search`; `fuel` bounds the iterations of the
traversal loop. -/
def Solution2.Search (fuel : Nat) (s : Solution2) (id : Nat) : Outcome (List Int) :=
  if id = 0 ∨ id > MaxID then .done [-1]
  else
    let idx := id
    match s.heads.get? idx with
    | none => .indexOutOfRange
    | some current =>
      if current = -1 then .done [-1]
      else
        match collectChain s.nodes fuel current [] with
        | .done scores =>
          if scores.length = 0 then .done [-1]
          else .done (swapLoop scores (scores.length - 1) 0 (scores.length - 1))
        | .indexOutOfRange => .indexOutOfRange
        | .outOfFuel => .outOfFuel

/-- A sequence of `Insert(id, score)` calls applied in order; it stops at
the first call that fails. -/
def Solution2.insertAll : Solution2 → List (Nat × Nat) → Outcome Solution2
  | s, [] => .done s
  | s, c :: rest =>
    match s.Insert c.1 c.2 with
    | .done t => Solution2.insertAll t rest
    | .indexOutOfRange => .indexOutOfRange
    | .outOfFuel => .outOfFuel

/-! ## linked_list_plus.go -/

/-- The struct `node`. -/
structure node where
  id : Nat
  score : Nat
  next : Int
deriving DecidableEq, Repr

/-- The zero value `node{}`. -/
def node.zero : node := { id := 0, score := 0, next := 0 }

/-- The struct `LinkedListPlus`. -/
structure LinkedListPlus where
  nodes : List node
  head : Int
deriving DecidableEq, Repr

/-- The constructor `NewLinkedListPlus`: a nil slice and `head: -1`. -/
def NewLinkedListPlus : LinkedListPlus := { nodes := [], head := -1 }

/-- The loop of `rebuildLinks` from index `i` on, `n` being `len(l.nodes)`:
`if i+1 < len(l.nodes) { l.nodes[i].next = i + 1 } else { l.nodes[i].next = -1 }`. -/
def relinkFrom (n : Nat) : Nat → List node → List node
  | _, [] => []
  | i, nd :: rest =>
    { nd with next := if i + 1 < n then Int.ofNat (i + 1) else -1 } :: relinkFrom n (i + 1) rest

/-- The method `LinkedListPlus.rebuildLinks`. -/
def LinkedListPlus.rebuildLinks (l : LinkedListPlus) : LinkedListPlus :=
  if l.nodes.length = 0 then { l with head := -1 }
  else { head := 0, nodes := relinkFrom l.nodes.length 0 l.nodes }

/-- The method `LinkedListPlus.Insert`. -/
def LinkedListPlus.Insert (l : LinkedListPlus) (id score : Nat) : LinkedListPlus :=
  if id = 0 ∨ id > MaxID then l
  else
    let pos := sortSearch l.nodes.length (fun i => decide ((l.nodes.getD i node.zero).id ≥ id))
    let pos := skipEqual (fun i => (l.nodes.getD i node.zero).id) l.nodes.length id
      (l.nodes.length - pos) pos
    let l : LinkedListPlus :=
      { l with nodes := shiftInsert node.zero l.nodes pos { id := id, score := score, next := -1 } }
    l.rebuildLinks

/-- The method `LinkedListPlus.Search`. -/
def LinkedListPlus.Search (l : LinkedListPlus) (id : Nat) : List Int :=
  let start := sortSearch l.nodes.length (fun i => decide ((l.nodes.getD i node.zero).id ≥ id))
  if start = l.nodes.length ∨ (l.nodes.getD start node.zero).id ≠ id then [-1]
  else
    let stop := skipEqual (fun i => (l.nodes.getD i node.zero).id) l.nodes.length id
      (l.nodes.length - start) start
    (List.range (stop - start)).map
      (fun k => Int.ofNat (l.nodes.getD (start + k) node.zero).score)

/-- A sequence of `Insert(id, score)` calls applied in order. -/
def LinkedListPlus.insertAll (l : LinkedListPlus) (calls : List (Nat × Nat)) : LinkedListPlus :=
  calls.foldl (fun t c => t.Insert c.1 c.2) l

/-- Following `next` from index `current`: the indices visited, in order,
and whether the terminal `-1` was reached within `fuel` steps
(`for cur := l.head; cur != -1; cur = l.nodes[cur].next`). -/
def followLinks (nodes : List node) : Nat → Int → List Nat → Outcome (List Nat)
  | fuel, current, visited =>
    if current = -1 then .done visited
    else
      match fuel with
      | 0 => .outOfFuel
      | fuel + 1 =>
        if current < 0 then .indexOutOfRange
        else
          match nodes.get? current.toNat with
          | none => .indexOutOfRange
          | some nd => followLinks nodes fuel nd.next (visited ++ [current.toNat])

/-! ## Definitions used to state the properties -/

/-- The record sequence is sorted in non-decreasing order of id. -/
def SortedById (xs : List record) : Prop :=
  List.Pairwise (fun a b => a.id ≤ b.id) xs

/-- The scores of the calls `Insert(q, _)` in a call sequence, in call order. -/
def scoresOf (calls : List (Nat × Nat)) (q : Nat) : List Nat :=
  (calls.filter (fun c => decide (c.1 = q))).map (fun c => c.2)

/-- The scores stored under id `q` in a record sequence, in sequence order. -/
def storedScores (xs : List record) (q : Nat) : List Nat :=
  (xs.filter (fun r => decide (r.id = q))).map (fun r => r.score)

/-- The `(id, score)` projection of a `node`. -/
def node.toRecord (nd : node) : record := { id := nd.id, score := nd.score }

/-- The index `sort.Search` is asked for in `Insert` and `Search`. -/
def lowerPos (xs : List record) (q : Nat) : Nat :=
  sortSearch xs.length (fun i => decide ((xs.getD i record.zero).id ≥ q))

/-- The index at which the tie-skipping loop started at `lowerPos` stops. -/
def upperPos (xs : List record) (q : Nat) : Nat :=
  skipEqual (fun i => (xs.getD i record.zero).id) xs.length q
    (xs.length - lowerPos xs q) (lowerPos xs q)

/-- The scores on the chain that starts at index `current`, most recent
first; every link points to a strictly smaller index. -/
inductive ChainOf (nodes : List linkNode) : Int → List Nat → Prop where
  | nil : ChainOf nodes (-1) []
  | cons (k : Nat) (nd : linkNode) (rest : List Nat) :
      nodes.get? k = some nd → nd.next < Int.ofNat k → ChainOf nodes nd.next rest →
      ChainOf nodes (Int.ofNat k) (nd.score :: rest)

/-- The state of a `Solution2` holds the calls made so far: `MaxID + 1`
heads, and for every valid id the chain from its head lists the scores
inserted under it, most recent first. -/
def Solution2.Represents (s : Solution2) (calls : List (Nat × Nat)) : Prop :=
  s.heads.length = MaxID + 1 ∧
  ∀ q, 1 ≤ q → q ≤ MaxID →
    ∃ h, s.heads.get? q = some h ∧ ChainOf s.nodes h (scoresOf calls q).reverse

/-- The calls that `Solution2.Insert` and `LinkedListPlus.Insert` do not
ignore. -/
def validCalls (calls : List (Nat × Nat)) : List (Nat × Nat) :=
  calls.filter (fun c => decide (¬ (c.1 = 0 ∨ c.1 > MaxID)))

/-- The `(id, score)` projection of the nodes of a `LinkedListPlus`. -/
def LinkedListPlus.records (l : LinkedListPlus) : List record :=
  l.nodes.map node.toRecord

/-- The node sequence is sorted in non-decreasing order of id. -/
def SortedNodes (xs : List node) : Prop :=
  List.Pairwise (fun a b => a.id ≤ b.id) xs

/-- The link invariant of `LinkedListPlus`: `head` is `-1` for an empty
store and `0` otherwise, and the node at index `i` links to `i + 1`, the
last one to `-1`. -/
def LinksOk (l : LinkedListPlus) : Prop :=
  l.head = (if l.nodes.length = 0 then -1 else 0) ∧
  ∀ i nd, l.nodes.get? i = some nd →
    nd.next = if i + 1 < l.nodes.length then Int.ofNat (i + 1) else -1

/-- The record built from a call `Insert(id, score)`. -/
def callRecords (calls : List (Nat × Nat)) : List record :=
  calls.map (fun c => ({ id := c.1, score := c.2 } : record))

/-- Stable sort by id, ascending: insertion sort in which each record,
taken from the right, is put before the first record already placed whose
id is not smaller, so records with equal ids keep their order. -/
def stableSortById (xs : List record) : List record :=
  List.insertionSort (fun a b => a.id ≤ b.id) xs

/-- Chain well-formedness of a `Solution2`: every head is `-1` or an
index into `nodes`, and every `next` is `-1` or an index strictly below the
node's own index. -/
def Solution2.WellFormed (s : Solution2) : Prop :=
  (∀ i h, s.heads.get? i = some h → h = -1 ∨ (0 ≤ h ∧ h < Int.ofNat s.nodes.length)) ∧
  (∀ j nd, s.nodes.get? j = some nd → nd.next = -1 ∨ (0 ≤ nd.next ∧ nd.next < Int.ofNat j))

/-! ## ensureCapacity on 64-bit ints -/

/-- Two's complement wrap-around of a 64-bit `int`. -/
def wrapInt (x : Int) : Int := (x + 2 ^ 63) % 2 ^ 64 - 2 ^ 63

/-- The growth loop of `ensureCapacity` on 64-bit `int` values, the
product `newCap * 10` wrapping around; `fuel` bounds the iterations. -/
def growLoopInt (needed : Int) : Nat → Int → Outcome Int
  | fuel, newCap =>
    if needed > newCap then
      match fuel with
      | 0 => .outOfFuel
      | fuel + 1 =>
        if newCap > Int.ofNat maxInt / 10 then .done needed
        else growLoopInt needed fuel (wrapInt (newCap * 10))
    else .done newCap

/-- The mathematical values of the products `newCap * 10` that the
growth loop computes, in order. -/
def growProducts (needed : Int) : Nat → Int → List Int
  | fuel, newCap =>
    if needed > newCap then
      match fuel with
      | 0 => []
      | fuel + 1 =>
        if newCap > Int.ofNat maxInt / 10 then []
        else (newCap * 10) :: growProducts needed fuel (wrapInt (newCap * 10))
    else []

/-- The result of running `ensureCapacity` on 64-bit ints: it returns, or
`make` panics (`makeslice: len out of range` / `cap out of range`), or the
iteration bound of the growth loop is used up. -/
inductive AllocOutcome (α : Type) where
  | done (a : α)
  | makePanic
  | outOfFuel
deriving DecidableEq, Repr

/-- The allocation ceiling `maxAlloc` of the Go runtime on a 64-bit
platform with 48-bit heap addresses (linux/amd64), in bytes. -/
def maxAlloc : Nat := 2 ^ 48

/-- The size in bytes of a `record` (`uint32` and `uint8`, alignment 4). -/
def recordSize : Nat := 8

/-- Whether the Go runtime refuses `make([]record, len, cap)`
(`runtime.makeslice`): the byte size `cap * recordSize`, taken on the unsigned
value of `cap`, overflows or exceeds `maxAlloc`, or `len > cap`.  A negative
`cap` has an unsigned value of at least `2^63`, so it overflows. -/
def makeRefuses (len cap : Int) : Bool :=
  decide (cap < 0 ∨ cap * Int.ofNat recordSize > Int.ofNat maxAlloc ∨ len > cap)

/-- The method `Solution1.ensureCapacity` on 64-bit `int` values, for a
store with the given `data` and `capacity`; it returns the new `data` and
`capacity`.  When `make` panics the method does not return and the fields
are not assigned.  Whether the machine has the memory asked for is not
modelled.  The growth loop indexes no slice, so its outcome
`indexOutOfRange` does not arise (`growLoopInt_no_index`). -/
def ensureCapacityInt (data : List record) (capacity extra : Int) (fuel : Nat) :
    AllocOutcome (List record × Int) :=
  let needed := wrapInt (Int.ofNat data.length + extra)
  if needed ≤ capacity then .done (data, capacity)
  else
    let newCap := if capacity = 0 then 1 else capacity
    match growLoopInt needed fuel newCap with
    | .done newCap =>
      if makeRefuses (Int.ofNat data.length) newCap = true then .makePanic
      else .done (goCopy (List.replicate data.length record.zero) data, newCap)
    | .indexOutOfRange => .makePanic
    | .outOfFuel => .outOfFuel

/-! ## cmd/benchmark/eval.go -/

/-- The `float64` operations used by `estimateNextTime`, as parameters of
the embedding: `float64(x)` of an `int` or `time.Duration`, `/`, `*`, the
test `x < 1`, and the conversion `time.Duration(x)`. -/
structure FloatOps (F : Type) where
  ofInt : Int → F
  div : F → F → F
  mul : F → F → F
  ltOne : F → Bool
  toDuration : F → Int

/-- The index expression `xs[i]` with its bounds check. -/
def indexAt (xs : List Int) (i : Int) : Outcome Int :=
  if i < 0 then .indexOutOfRange
  else
    match xs.get? i.toNat with
    | none => .indexOutOfRange
    | some x => .done x

/-- The function `estimateNextTime`; durations are nanosecond counts.
`prevPoints[len(prevPoints)-1]` is read once, before the test of the second
`if`, where the slice is known to be non-empty. -/
def estimateNextTime {F : Type} (ops : FloatOps F) (prevPoints prevInserts : List Int)
    (currentInserts : Int) : Outcome Int :=
  if prevPoints.length = 0 then .done 0
  else
    match indexAt prevPoints (Int.ofNat prevPoints.length - 1) with
    | .indexOutOfRange => .indexOutOfRange
    | .outOfFuel => .outOfFuel
    | .done lastTime =>
      if prevPoints.length = 1 ∨ lastTime = 0 then .done lastTime
      else
        match indexAt prevPoints (Int.ofNat prevPoints.length - 2) with
        | .indexOutOfRange => .indexOutOfRange
        | .outOfFuel => .outOfFuel
        | .done prevTime =>
          if prevTime = 0 then .done lastTime
          else
            let ratio := ops.div (ops.ofInt lastTime) (ops.ofInt prevTime)
            let ratio2 : Outcome F :=
              if ops.ltOne ratio = true then
                match indexAt prevInserts (Int.ofNat prevInserts.length - 1) with
                | .indexOutOfRange => .indexOutOfRange
                | .outOfFuel => .outOfFuel
                | .done lastCount => .done (ops.div (ops.ofInt currentInserts) (ops.ofInt lastCount))
              else .done ratio
            match ratio2 with
            | .indexOutOfRange => .indexOutOfRange
            | .outOfFuel => .outOfFuel
            | .done ratio =>
              let estimated := ops.toDuration (ops.mul (ops.ofInt lastTime) ratio)
              if estimated < lastTime then .done lastTime else .done estimated

/-- Truncation of a rational toward zero. -/
def truncRat (q : ℚ) : Int := if 0 ≤ q then ⌊q⌋ else ⌈q⌉

/-- Exact rational arithmetic with truncation toward zero, a second
instance of `FloatOps` next to `binary64Ops`.  It is not the arithmetic of
the code, which uses `float64`: no operation rounds, and a quotient by zero,
which `float64` turns into an infinity or NaN, is `0` here. -/
def exactOps : FloatOps ℚ where
  ofInt := fun x => (x : ℚ)
  div := fun a b => a / b
  mul := fun a b => a * b
  ltOne := fun r => decide (r < 1)
  toDuration := truncRat

/-- A `float64` value: a finite one (a rational; the sign of a zero is
not tracked), an infinity, or NaN. -/
inductive Float64 where
  | finite (q : ℚ)
  | posInf
  | negInf
  | nan
deriving DecidableEq

/-- Rounding of a rational to an integer, to nearest, ties to even. -/
def roundHalfEven (m : ℚ) : Int :=
  if m - ⌊m⌋ < 1 / 2 then ⌊m⌋
  else if m - ⌊m⌋ > 1 / 2 then ⌊m⌋ + 1
  else if ⌊m⌋ % 2 = 0 then ⌊m⌋ else ⌊m⌋ + 1

/-- The exponent of the unit in the last place of the binary64 values
around `q`: 53 significant bits, and no exponent below `-1074`. -/
def ulpExp (q : ℚ) : Int := max (Int.log 2 |q| - 52) (-1074)

/-- The rational `q` rounded to 53 significant bits (to nearest, ties to
even), before the overflow test. -/
def roundRat (q : ℚ) : ℚ := (roundHalfEven (q / 2 ^ ulpExp q) : ℚ) * 2 ^ ulpExp q

/-- The binary64 value of the exact result `q` under round to nearest,
ties to even: an infinity when the rounded value reaches `2^1024`. -/
def roundFloat (q : ℚ) : Float64 :=
  if roundRat q ≥ 2 ^ 1024 then .posInf
  else if roundRat q ≤ -(2 ^ 1024) then .negInf
  else .finite (roundRat q)

/-- The quotient `x / y` of `float64` values. -/
def Float64.div : Float64 → Float64 → Float64
  | .finite a, .finite b =>
    if b = 0 then (if a = 0 then .nan else if a > 0 then .posInf else .negInf)
    else roundFloat (a / b)
  | .finite _, .posInf => .finite 0
  | .finite _, .negInf => .finite 0
  | .posInf, .finite b => if 0 ≤ b then .posInf else .negInf
  | .negInf, .finite b => if 0 ≤ b then .negInf else .posInf
  | .posInf, .posInf => .nan
  | .posInf, .negInf => .nan
  | .negInf, .posInf => .nan
  | .negInf, .negInf => .nan
  | .nan, _ => .nan
  | _, .nan => .nan

/-- The product `x * y` of `float64` values. -/
def Float64.mul : Float64 → Float64 → Float64
  | .finite a, .finite b => roundFloat (a * b)
  | .finite a, .posInf => if a = 0 then .nan else if a > 0 then .posInf else .negInf
  | .finite a, .negInf => if a = 0 then .nan else if a > 0 then .negInf else .posInf
  | .posInf, .finite b => if b = 0 then .nan else if b > 0 then .posInf else .negInf
  | .negInf, .finite b => if b = 0 then .nan else if b > 0 then .negInf else .posInf
  | .posInf, .posInf => .posInf
  | .posInf, .negInf => .negInf
  | .negInf, .posInf => .negInf
  | .negInf, .negInf => .posInf
  | .nan, _ => .nan
  | _, .nan => .nan

/-- The comparison `x < 1` of a `float64` value. -/
def Float64.ltOne : Float64 → Bool
  | .finite q => decide (q < 1)
  | .posInf => false
  | .negInf => true
  | .nan => false

/-- The conversion `time.Duration(x)` of a `float64` value: truncation
toward zero when the result fits an `int64`; otherwise the value is
implementation-dependent, given by `outOfRange`. -/
def Float64.toDuration (outOfRange : Float64 → Int) : Float64 → Int
  | .finite q =>
    if -(2 ^ 63) ≤ truncRat q ∧ truncRat q ≤ 2 ^ 63 - 1 then truncRat q
    else outOfRange (.finite q)
  | x => outOfRange x

/-- The `float64` arithmetic of IEEE 754 binary64, round to nearest, ties
to even. -/
def binary64Ops (outOfRange : Float64 → Int) : FloatOps Float64 where
  ofInt := fun x => roundFloat (x : ℚ)
  div := Float64.div
  mul := Float64.mul
  ltOne := Float64.ltOne
  toDuration := Float64.toDuration outOfRange


/-- The constant `maxDuration = 10 * time.Minute`, in nanoseconds. -/
def maxDuration : Int := 10 * (60 * 1000000000)

/-- The struct `benchmarkResult`. -/
structure benchmarkResult where
  inserts : Int
  solution : String
  insertAvg : Int
  searchAvg : Int
  sumAvg : Int
  estimated : Bool
  estimateSrc : String
deriving DecidableEq

/-- The four histories `runBenchmarks` keeps for one solution. -/
structure History where
  insertHistory : List Int
  searchHistory : List Int
  sumHistory : List Int
  insertCounts : List Int
deriving DecidableEq

/-- The durations measured in one repeat: `runDur` and the three results
of `runOne`.  They are inputs of the embedding. -/
structure RunTimes where
  runDur : Int
  insertDur : Int
  searchDur : Int
  sumDur : Int

/-- The repeat loop of `runBenchmarks` over the measurements of the
successive repeats: it stops with `timedOut = true` at the first repeat with
`runDur > maxDuration`, and adds the three durations to the totals
otherwise.  Returns the totals and `timedOut`. -/
def repeatLoop : List RunTimes → Int × Int × Int → (Int × Int × Int) × Bool
  | [], totals => (totals, false)
  | m :: rest, (insertTotal, searchTotal, sumTotal) =>
    if m.runDur > maxDuration then ((insertTotal, searchTotal, sumTotal), true)
    else repeatLoop rest
      (insertTotal + m.insertDur, searchTotal + m.searchDur, sumTotal + m.sumDur)

/-- The body of the `dataPoints` loop of `runBenchmarks` for the solution
`name` and the size `dp`, given the measurements of the repeats (`repeats`
is 10): the new histories and the result row. -/
def benchPoint {F : Type} (ops : FloatOps F) (name : String) (h : History) (dp : Int)
    (runs : List RunTimes) : Outcome (History × benchmarkResult) :=
  let out := repeatLoop (runs.take 10) (0, 0, 0)
  if out.2 = true then
    match estimateNextTime ops h.insertHistory h.insertCounts dp with
    | .indexOutOfRange => .indexOutOfRange
    | .outOfFuel => .outOfFuel
    | .done insertAvg =>
      match estimateNextTime ops h.searchHistory h.insertCounts dp with
      | .indexOutOfRange => .indexOutOfRange
      | .outOfFuel => .outOfFuel
      | .done searchAvg =>
        match estimateNextTime ops h.sumHistory h.insertCounts dp with
        | .indexOutOfRange => .indexOutOfRange
        | .outOfFuel => .outOfFuel
        | .done sumAvg =>
          .done (h, { inserts := dp, solution := name, insertAvg := insertAvg,
                      searchAvg := searchAvg, sumAvg := sumAvg, estimated := true,
                      estimateSrc := "extrapolated from previous points" })
  else
    let insertAvg := Int.tdiv out.1.1 10
    let searchAvg := Int.tdiv out.1.2.1 10
    let sumAvg := Int.tdiv out.1.2.2 10
    .done ({ insertHistory := h.insertHistory ++ [insertAvg],
             searchHistory := h.searchHistory ++ [searchAvg],
             sumHistory := h.sumHistory ++ [sumAvg],
             insertCounts := h.insertCounts ++ [dp] },
           { inserts := dp, solution := name, insertAvg := insertAvg,
             searchAvg := searchAvg, sumAvg := sumAvg, estimated := false,
             estimateSrc := "" })

/-! ## The library loops -/

/-- With a monotone predicate on `[0, n)`, the loop of `sort.Search` keeps
"false below `i`, true from `j` on" and returns the boundary. -/
theorem sortSearchLoop_spec (f : Nat → Bool) (n : Nat)
    (mono : ∀ a b, a ≤ b → b < n → f a = true → f b = true) :
    ∀ (fuel i j : Nat), i ≤ j → j ≤ n → j - i ≤ fuel →
      (∀ k, k < i → f k = false) → (∀ k, j ≤ k → k < n → f k = true) →
      i ≤ sortSearchLoop f fuel i j ∧ sortSearchLoop f fuel i j ≤ j ∧
      (∀ k, k < sortSearchLoop f fuel i j → f k = false) ∧
      (∀ k, sortSearchLoop f fuel i j ≤ k → k < n → f k = true) := by
  intro fuel
  induction fuel with
  | zero =>
    intro i j hij _ hfuel hlo hhi
    have hji : j = i := by omega
    subst hji
    simp only [sortSearchLoop]
    exact ⟨le_refl _, le_refl _, hlo, hhi⟩
  | succ fuel ih =>
    intro i j hij hjn hfuel hlo hhi
    by_cases hlt : i < j
    · have hh1 : i ≤ (i + j) / 2 := by omega
      have hh2 : (i + j) / 2 < j := by omega
      by_cases hf : f ((i + j) / 2) = true
      · have e : sortSearchLoop f (fuel + 1) i j = sortSearchLoop f fuel i ((i + j) / 2) := by
          simp [sortSearchLoop, hlt, hf]
        rw [e]
        have := ih i ((i + j) / 2) hh1 (by omega) (by omega) hlo (by
          intro k hk hkn
          exact mono _ _ hk hkn hf)
        exact ⟨this.1, by omega, this.2.2.1, this.2.2.2⟩
      · have e : sortSearchLoop f (fuel + 1) i j =
            sortSearchLoop f fuel ((i + j) / 2 + 1) j := by
          simp [sortSearchLoop, hlt, hf]
        rw [e]
        have := ih ((i + j) / 2 + 1) j (by omega) hjn (by omega) (by
          intro k hk
          by_contra hk2
          have hk3 : f k = true := by simpa using hk2
          exact hf (mono k _ (by omega) (by omega) hk3)) hhi
        exact ⟨by omega, this.2.1, this.2.2.1, this.2.2.2⟩
    · have e : sortSearchLoop f (fuel + 1) i j = i := by
        simp [sortSearchLoop, hlt]
      rw [e]
      have hji : j = i := by omega
      subst hji
      exact ⟨le_refl _, le_refl _, hlo, hhi⟩

/-- The value of `sort.Search(n, f)` for a monotone `f`: the least index at
which `f` holds, or `n`. -/
theorem sortSearch_spec (f : Nat → Bool) (n : Nat)
    (mono : ∀ a b, a ≤ b → b < n → f a = true → f b = true) :
    sortSearch n f ≤ n ∧ (∀ k, k < sortSearch n f → f k = false) ∧
      (∀ k, sortSearch n f ≤ k → k < n → f k = true) := by
  have := sortSearchLoop_spec f n mono n 0 n (Nat.zero_le _) (le_refl _) (by omega)
    (by intro k hk; omega) (by intro k hk hkn; omega)
  exact ⟨this.2.1, this.2.2.1, this.2.2.2⟩

/-- The tie-skipping loop stops at the first index at or after `pos` whose
key differs from `id` (or at `n`). -/
theorem skipEqual_spec (key : Nat → Nat) (n id : Nat) :
    ∀ (fuel pos : Nat), pos ≤ n → n - pos ≤ fuel →
      pos ≤ skipEqual key n id fuel pos ∧ skipEqual key n id fuel pos ≤ n ∧
      (∀ k, pos ≤ k → k < skipEqual key n id fuel pos → key k = id) ∧
      ¬ (skipEqual key n id fuel pos < n ∧ key (skipEqual key n id fuel pos) = id) := by
  intro fuel
  induction fuel with
  | zero =>
    intro pos hpos hfuel
    simp only [skipEqual]
    refine ⟨le_refl _, hpos, ?_, ?_⟩
    · intro k h1 h2; omega
    · intro h; omega
  | succ fuel ih =>
    intro pos hpos hfuel
    simp only [skipEqual]
    by_cases hc : pos < n ∧ key pos = id
    · rw [if_pos hc]
      have := ih (pos + 1) (by omega) (by omega)
      refine ⟨by omega, this.2.1, ?_, this.2.2.2⟩
      intro k h1 h2
      by_cases hk : k = pos
      · subst hk; exact hc.2
      · exact this.2.2.1 k (by omega) h2
    · rw [if_neg hc]
      refine ⟨le_refl _, hpos, ?_, hc⟩
      intro k h1 h2; omega

/-- The counter of `sortSearchLoop` is not observable: any two bounds of
`j - i` give the same result. -/
theorem sortSearchLoop_fuel (f : Nat → Bool) :
    ∀ (fuel1 fuel2 i j : Nat), j - i ≤ fuel1 → j - i ≤ fuel2 →
      sortSearchLoop f fuel1 i j = sortSearchLoop f fuel2 i j := by
  intro fuel1
  induction fuel1 with
  | zero =>
    intro fuel2 i j h1 _
    have hij : ¬ (i < j) := by omega
    cases fuel2 with
    | zero => rfl
    | succ f2 => simp [sortSearchLoop, hij]
  | succ f1 ih =>
    intro fuel2 i j h1 h2
    cases fuel2 with
    | zero =>
      have hij : ¬ (i < j) := by omega
      simp [sortSearchLoop, hij]
    | succ f2 =>
      by_cases hij : i < j
      · simp only [sortSearchLoop, hij, if_true]
        split
        · exact ih f2 _ _ (by omega) (by omega)
        · exact ih f2 _ _ (by omega) (by omega)
      · simp [sortSearchLoop, hij]

/-- The counter of `skipEqual` is not observable. -/
theorem skipEqual_fuel (key : Nat → Nat) (n id : Nat) :
    ∀ (fuel1 fuel2 pos : Nat), n - pos ≤ fuel1 → n - pos ≤ fuel2 →
      skipEqual key n id fuel1 pos = skipEqual key n id fuel2 pos := by
  intro fuel1
  induction fuel1 with
  | zero =>
    intro fuel2 pos h1 _
    have hp : ¬ (pos < n ∧ key pos = id) := by omega
    cases fuel2 with
    | zero => rfl
    | succ f2 => simp only [skipEqual, hp, if_false]
  | succ f1 ih =>
    intro fuel2 pos h1 h2
    cases fuel2 with
    | zero =>
      have hp : ¬ (pos < n ∧ key pos = id) := by omega
      simp only [skipEqual, hp, if_false]
    | succ f2 =>
      by_cases hp : pos < n ∧ key pos = id
      · simp only [skipEqual, hp, and_self, if_true]
        exact ih f2 _ (by omega) (by omega)
      · simp only [skipEqual, hp, if_false]

/-- The counter of `growLoop` is not observable once `newCap` is positive. -/
theorem growLoop_fuel (needed : Nat) :
    ∀ (fuel1 fuel2 newCap : Nat), 0 < newCap → needed - newCap ≤ fuel1 →
      needed - newCap ≤ fuel2 → growLoop needed fuel1 newCap = growLoop needed fuel2 newCap := by
  intro fuel1
  induction fuel1 with
  | zero =>
    intro fuel2 newCap _ h1 _
    have hn : ¬ (needed > newCap) := by omega
    cases fuel2 with
    | zero => rfl
    | succ f2 => simp only [growLoop, hn, if_false]
  | succ f1 ih =>
    intro fuel2 newCap hpos h1 h2
    cases fuel2 with
    | zero =>
      have hn : ¬ (needed > newCap) := by omega
      simp only [growLoop, hn, if_false]
    | succ f2 =>
      by_cases hn : needed > newCap
      · simp only [growLoop, hn, if_true]
        split
        · rfl
        · exact ih f2 _ (by omega) (by omega) (by omega)
      · simp only [growLoop, hn, if_false]

/-! ## Slices -/

theorem goCopy_fresh {α : Type} (zero : α) (xs : List α) :
    goCopy (List.replicate xs.length zero) xs = xs := by
  simp [goCopy]

/-- Appending a slot, shifting the tail right by one and writing at `pos`
inserts `x` before index `pos`. -/
theorem shiftInsert_eq {α : Type} (zero : α) (xs : List α) (pos : Nat) (x : α)
    (hpos : pos ≤ xs.length) :
    shiftInsert zero xs pos x = xs.take pos ++ x :: xs.drop pos := by
  have h1 : (xs ++ [zero]).drop pos = xs.drop pos ++ [zero] :=
    List.drop_append_of_le_length hpos
  have h2 : goCopy ((xs ++ [zero]).drop (pos + 1)) ((xs ++ [zero]).drop pos) = xs.drop pos := by
    unfold goCopy
    rw [h1]
    have hl : ((xs ++ [zero]).drop (pos + 1)).length = (xs.drop pos).length := by
      simp
    rw [hl, List.take_left']
    · have : List.drop (xs.drop pos ++ [zero]).length ((xs ++ [zero]).drop (pos + 1)) = [] := by
        apply List.drop_eq_nil_of_le
        simp
      rw [this, List.append_nil]
    · rfl
  have h3 : ∃ y, (xs ++ [zero]).take (pos + 1) = xs.take pos ++ [y] := by
    have hlt : pos < (xs ++ [zero]).length := by simp; omega
    refine ⟨(xs ++ [zero])[pos], ?_⟩
    rw [List.take_succ, List.getElem?_eq_getElem hlt, List.take_append_of_le_length hpos]
    rfl
  obtain ⟨y, hy⟩ := h3
  unfold shiftInsert
  simp only
  rw [h2, hy]
  have hlen : (xs.take pos).length = pos := by simp [hpos]
  rw [List.append_assoc, List.set_append_right _ _ (by omega)]
  simp [hlen]

theorem mem_take_getD {α : Type} (zero : α) (xs : List α) (p : Nat) (x : α)
    (h : x ∈ xs.take p) : ∃ i, i < p ∧ i < xs.length ∧ xs.getD i zero = x := by
  obtain ⟨i, hi, hx⟩ := List.mem_take_iff_getElem.mp h
  have h1 : i < p := by omega
  have h2 : i < xs.length := by omega
  exact ⟨i, h1, h2, by rw [List.getD_eq_getElem _ _ h2]; exact hx⟩

theorem mem_drop_getD {α : Type} (zero : α) (xs : List α) (p : Nat) (x : α)
    (h : x ∈ xs.drop p) : ∃ i, p ≤ i ∧ i < xs.length ∧ xs.getD i zero = x := by
  obtain ⟨i, hi, hx⟩ := List.mem_drop_iff_getElem.mp h
  have h2 : p + i < xs.length := by omega
  exact ⟨p + i, by omega, h2, by rw [List.getD_eq_getElem _ _ h2]; exact hx⟩

/-! ## Positions in a sorted record sequence -/

theorem sorted_getD (xs : List record) (hs : SortedById xs) (a b : Nat)
    (hab : a ≤ b) (hb : b < xs.length) :
    (xs.getD a record.zero).id ≤ (xs.getD b record.zero).id := by
  have ha : a < xs.length := by omega
  rw [List.getD_eq_getElem _ _ ha, List.getD_eq_getElem _ _ hb]
  by_cases h : a = b
  · subst h; exact le_refl _
  · exact (List.pairwise_iff_getElem.mp hs) a b ha hb (by omega)

/-- The index found by `sort.Search` splits a sorted sequence into the
records with a smaller id and those with an id at least `q`. -/
theorem lowerPos_spec (xs : List record) (hs : SortedById xs) (q : Nat) :
    lowerPos xs q ≤ xs.length ∧
    (∀ k, k < lowerPos xs q → (xs.getD k record.zero).id < q) ∧
    (∀ k, lowerPos xs q ≤ k → k < xs.length → q ≤ (xs.getD k record.zero).id) := by
  have mono : ∀ a b, a ≤ b → b < xs.length →
      (fun i => decide ((xs.getD i record.zero).id ≥ q)) a = true →
      (fun i => decide ((xs.getD i record.zero).id ≥ q)) b = true := by
    intro a b hab hb ha
    have := sorted_getD xs hs a b hab hb
    simp only [ge_iff_le, decide_eq_true_eq] at ha ⊢
    omega
  have h := sortSearch_spec _ xs.length mono
  refine ⟨h.1, ?_, ?_⟩
  · intro k hk
    have := h.2.1 k hk
    simp only [ge_iff_le, decide_eq_false_iff_not] at this
    omega
  · intro k hk hkn
    have := h.2.2 k hk hkn
    simpa using this

/-- The index at which tie skipping stops splits a sorted sequence into the
records with id at most `q` and those with a larger id; between `lowerPos`
and it all ids equal `q`. -/
theorem upperPos_spec (xs : List record) (hs : SortedById xs) (q : Nat) :
    lowerPos xs q ≤ upperPos xs q ∧ upperPos xs q ≤ xs.length ∧
    (∀ k, lowerPos xs q ≤ k → k < upperPos xs q → (xs.getD k record.zero).id = q) ∧
    (∀ k, upperPos xs q ≤ k → k < xs.length → q < (xs.getD k record.zero).id) ∧
    (upperPos xs q = lowerPos xs q ↔
      (lowerPos xs q = xs.length ∨ (xs.getD (lowerPos xs q) record.zero).id ≠ q)) := by
  have hl := lowerPos_spec xs hs q
  have hk := skipEqual_spec (fun i => (xs.getD i record.zero).id) xs.length q
    (xs.length - lowerPos xs q) (lowerPos xs q) hl.1 (le_refl _)
  change lowerPos xs q ≤ upperPos xs q ∧ upperPos xs q ≤ xs.length ∧
    (∀ k, lowerPos xs q ≤ k → k < upperPos xs q → (xs.getD k record.zero).id = q) ∧
    ¬ (upperPos xs q < xs.length ∧ (xs.getD (upperPos xs q) record.zero).id = q) at hk
  obtain ⟨h1, h2, h3, h4⟩ := hk
  refine ⟨h1, h2, h3, ?_, ?_⟩
  · intro k hku hkn
    have hu : upperPos xs q < xs.length := by omega
    have a1 := hl.2.2 (upperPos xs q) h1 hu
    have a2 := sorted_getD xs hs (upperPos xs q) k hku hkn
    have a3 : (xs.getD (upperPos xs q) record.zero).id ≠ q := fun e => h4 ⟨hu, e⟩
    omega
  · constructor
    · intro e
      rw [e] at h4
      by_cases hlen : lowerPos xs q = xs.length
      · exact Or.inl hlen
      · right
        intro e2
        exact h4 ⟨by omega, e2⟩
    · intro hor
      by_contra hne
      have hlt : lowerPos xs q < upperPos xs q := by omega
      have := h3 (lowerPos xs q) (le_refl _) hlt
      rcases hor with hor | hor
      · omega
      · exact hor this

theorem mem_mid_getD {α : Type} (zero : α) (xs : List α) (p m : Nat) (x : α)
    (h : x ∈ (xs.drop p).take m) :
    ∃ i, p ≤ i ∧ i < p + m ∧ i < xs.length ∧ xs.getD i zero = x := by
  obtain ⟨i, hi1, hi2, hx⟩ := mem_take_getD zero (xs.drop p) m x h
  have hlen : (xs.drop p).length = xs.length - p := by simp
  have h2 : p + i < xs.length := by omega
  refine ⟨p + i, by omega, by omega, h2, ?_⟩
  rw [← hx, List.getD_eq_getElem _ _ hi2, List.getD_eq_getElem _ _ h2, List.getElem_drop]

theorem range_map_getD {α β : Type} (zero : α) (g : α → β) (xs : List α) (p : Nat) :
    ∀ m, p + m ≤ xs.length →
      (List.range m).map (fun k => g (xs.getD (p + k) zero)) = ((xs.drop p).take m).map g := by
  intro m
  induction m with
  | zero => intro _; simp
  | succ m ih =>
    intro hm
    have hlt : m < (xs.drop p).length := by simp; omega
    have h2 : p + m < xs.length := by omega
    rw [List.range_succ, List.map_append, ih (by omega), List.take_succ,
      List.getElem?_eq_getElem hlt, List.map_append]
    simp [List.getElem?_eq_getElem h2]

/-- In a sorted sequence the records with id `q` are exactly the block
between `lowerPos` and `upperPos`. -/
theorem filter_eq_mid (xs : List record) (hs : SortedById xs) (q : Nat) :
    xs.filter (fun r => decide (r.id = q)) =
      (xs.drop (lowerPos xs q)).take (upperPos xs q - lowerPos xs q) := by
  have hl := lowerPos_spec xs hs q
  obtain ⟨h1, h2, h3, h4, _⟩ := upperPos_spec xs hs q
  have hsplit : xs = xs.take (lowerPos xs q) ++
      ((xs.drop (lowerPos xs q)).take (upperPos xs q - lowerPos xs q) ++
        xs.drop (upperPos xs q)) := by
    have e : xs.drop (upperPos xs q) =
        (xs.drop (lowerPos xs q)).drop (upperPos xs q - lowerPos xs q) := by
      rw [List.drop_drop]
      congr 1
      omega
    rw [e, List.take_append_drop, List.take_append_drop]
  have fa : (xs.take (lowerPos xs q)).filter (fun r => decide (r.id = q)) = [] := by
    rw [List.filter_eq_nil_iff]
    intro x hx
    obtain ⟨i, hi1, _, hxi⟩ := mem_take_getD record.zero xs _ x hx
    have := hl.2.1 i hi1
    rw [hxi] at this
    simp only [decide_eq_true_eq]
    omega
  have fm : ((xs.drop (lowerPos xs q)).take (upperPos xs q - lowerPos xs q)).filter
      (fun r => decide (r.id = q)) =
      (xs.drop (lowerPos xs q)).take (upperPos xs q - lowerPos xs q) := by
    rw [List.filter_eq_self]
    intro x hx
    obtain ⟨i, hi1, hi2, _, hxi⟩ := mem_mid_getD record.zero xs _ _ x hx
    have := h3 i hi1 (by omega)
    rw [hxi] at this
    simp only [decide_eq_true_eq]
    exact this
  have fb : (xs.drop (upperPos xs q)).filter (fun r => decide (r.id = q)) = [] := by
    rw [List.filter_eq_nil_iff]
    intro x hx
    obtain ⟨i, hi1, hi2, hxi⟩ := mem_drop_getD record.zero xs _ x hx
    have := h4 i hi1 hi2
    rw [hxi] at this
    simp only [decide_eq_true_eq]
    omega
  conv_lhs => rw [hsplit]
  rw [List.filter_append, List.filter_append, fa, fm, fb]
  simp

/-! ## Solution1 -/

theorem Solution1_ensureCapacity_data (s : Solution1) (extra : Nat) :
    (s.ensureCapacity extra).data = s.data := by
  unfold Solution1.ensureCapacity
  simp only
  split
  · rfl
  · exact goCopy_fresh record.zero s.data

/-- What `Search` returns on a sorted store. -/
theorem Solution1_Search_sorted (s : Solution1) (hs : SortedById s.data) (q : Nat) :
    (storedScores s.data q = [] → s.Search q = [-1]) ∧
    (storedScores s.data q ≠ [] → s.Search q = (storedScores s.data q).map Int.ofNat) := by
  obtain ⟨h1, h2, _, _, h5⟩ := upperPos_spec s.data hs q
  have hmid := filter_eq_mid s.data hs q
  have hsearch : s.Search q =
      if lowerPos s.data q = s.data.length ∨
          (s.data.getD (lowerPos s.data q) record.zero).id ≠ q then [-1]
      else (List.range (upperPos s.data q - lowerPos s.data q)).map
        (fun k => Int.ofNat (s.data.getD (lowerPos s.data q + k) record.zero).score) := rfl
  have hst : storedScores s.data q =
      ((s.data.drop (lowerPos s.data q)).take (upperPos s.data q - lowerPos s.data q)).map
        (fun r => r.score) := by
    unfold storedScores
    rw [hmid]
  have hlenmid : ((s.data.drop (lowerPos s.data q)).take
      (upperPos s.data q - lowerPos s.data q)).length =
      upperPos s.data q - lowerPos s.data q := by
    simp
    omega
  by_cases hc : lowerPos s.data q = s.data.length ∨
      (s.data.getD (lowerPos s.data q) record.zero).id ≠ q
  · have he := h5.mpr hc
    rw [hsearch, if_pos hc]
    constructor
    · intro _; rfl
    · intro hne
      exfalso
      apply hne
      rw [hst, he]
      simp
  · rw [hsearch, if_neg hc]
    have hne : upperPos s.data q ≠ lowerPos s.data q := fun e => hc (h5.mp e)
    have hres : (List.range (upperPos s.data q - lowerPos s.data q)).map
        (fun k => Int.ofNat (s.data.getD (lowerPos s.data q + k) record.zero).score) =
        (storedScores s.data q).map Int.ofNat := by
      rw [range_map_getD record.zero (fun r => Int.ofNat r.score) s.data (lowerPos s.data q)
        _ (by omega), hst, List.map_map]
      rfl
    constructor
    · intro hnil
      exfalso
      have : (storedScores s.data q).length = upperPos s.data q - lowerPos s.data q := by
        rw [hst, List.length_map, hlenmid]
      rw [hnil] at this
      simp at this
      omega
    · intro _
      exact hres

theorem Solution1_Insert_data_raw (s : Solution1) (id score : Nat) :
    (s.Insert id score).data =
      shiftInsert record.zero s.data (upperPos s.data id) { id := id, score := score } := by
  show shiftInsert record.zero (s.ensureCapacity 1).data
    (upperPos (s.ensureCapacity 1).data id) { id := id, score := score } = _
  rw [Solution1_ensureCapacity_data]

/-- On a sorted store `Insert` puts the new record right after the last
record whose id is at most the new id. -/
theorem Solution1_Insert_data (s : Solution1) (hs : SortedById s.data) (id score : Nat) :
    (s.Insert id score).data =
      s.data.take (upperPos s.data id) ++
        { id := id, score := score } :: s.data.drop (upperPos s.data id) := by
  rw [Solution1_Insert_data_raw]
  exact shiftInsert_eq _ _ _ _ (upperPos_spec s.data hs id).2.1

/-- Inserting `x` between the records with id at most `x.id` and those
with a larger id keeps a sorted sequence sorted. -/
theorem sorted_insert_at (xs : List record) (hs : SortedById xs) (u : Nat) (x : record)
    (hle : ∀ k, k < u → k < xs.length → (xs.getD k record.zero).id ≤ x.id)
    (hgt : ∀ k, u ≤ k → k < xs.length → x.id < (xs.getD k record.zero).id) :
    SortedById (xs.take u ++ x :: xs.drop u) := by
  have hs2 : SortedById (xs.take u ++ xs.drop u) := by
    rw [List.take_append_drop]; exact hs
  unfold SortedById at hs2 ⊢
  rw [List.pairwise_append] at hs2 ⊢
  obtain ⟨p1, p2, p3⟩ := hs2
  refine ⟨p1, ?_, ?_⟩
  · rw [List.pairwise_cons]
    refine ⟨?_, p2⟩
    intro y hy
    obtain ⟨i, hi1, hi2, hyi⟩ := mem_drop_getD record.zero xs u y hy
    have := hgt i hi1 hi2
    rw [hyi] at this
    omega
  · intro a ha b hb
    rw [List.mem_cons] at hb
    rcases hb with hb | hb
    · subst hb
      obtain ⟨i, hi1, hi2, hai⟩ := mem_take_getD record.zero xs u a ha
      have := hle i hi1 hi2
      rw [hai] at this
      exact this
    · exact p3 a ha b hb

theorem upperPos_le_id (xs : List record) (hs : SortedById xs) (q : Nat) :
    ∀ k, k < upperPos xs q → k < xs.length → (xs.getD k record.zero).id ≤ q := by
  intro k hk _
  have hl := lowerPos_spec xs hs q
  obtain ⟨_, _, h3, _, _⟩ := upperPos_spec xs hs q
  by_cases hlow : k < lowerPos xs q
  · exact Nat.le_of_lt (hl.2.1 k hlow)
  · exact Nat.le_of_eq (h3 k (by omega) hk)

/-- `Insert` preserves sortedness. -/
theorem Solution1_Insert_sorted (s : Solution1) (hs : SortedById s.data) (id score : Nat) :
    SortedById (s.Insert id score).data := by
  rw [Solution1_Insert_data s hs]
  exact sorted_insert_at s.data hs _ _ (upperPos_le_id s.data hs id)
    (upperPos_spec s.data hs id).2.2.2.1

/-- After `Insert(id, score)` on a sorted store the scores stored under
any id `q` are the earlier ones, followed by `score` when `q = id`. -/
theorem Solution1_Insert_stored (s : Solution1) (hs : SortedById s.data) (id score q : Nat) :
    storedScores (s.Insert id score).data q =
      storedScores s.data q ++ scoresOf [(id, score)] q := by
  rw [Solution1_Insert_data s hs]
  have h4 := (upperPos_spec s.data hs id).2.2.2.1
  have hsplit : storedScores s.data q =
      storedScores (s.data.take (upperPos s.data id)) q ++
        storedScores (s.data.drop (upperPos s.data id)) q := by
    unfold storedScores
    rw [← List.map_append, ← List.filter_append, List.take_append_drop]
  by_cases hq : id = q
  · subst hq
    have hnil : storedScores (s.data.drop (upperPos s.data id)) id = [] := by
      unfold storedScores
      rw [List.map_eq_nil_iff, List.filter_eq_nil_iff]
      intro x hx
      obtain ⟨i, hi1, hi2, hxi⟩ := mem_drop_getD record.zero s.data _ x hx
      have := h4 i hi1 hi2
      rw [hxi] at this
      simp only [decide_eq_true_eq]
      omega
    rw [hsplit, hnil]
    unfold storedScores at hnil ⊢
    unfold scoresOf
    simp only [List.filter_append, List.map_append, List.filter_cons, decide_True, if_true,
      List.map_cons, hnil, List.filter_nil, List.map_nil, List.append_nil]
  · rw [hsplit]
    unfold storedScores scoresOf
    simp [List.filter_cons, hq]

theorem Solution1_insertAll_sorted (calls : List (Nat × Nat)) :
    ∀ (s : Solution1), SortedById s.data → SortedById (s.insertAll calls).data := by
  induction calls with
  | nil => intro s hs; exact hs
  | cons c rest ih =>
    intro s hs
    exact ih (s.Insert c.1 c.2) (Solution1_Insert_sorted s hs c.1 c.2)

theorem scoresOf_cons (c : Nat × Nat) (rest : List (Nat × Nat)) (q : Nat) :
    scoresOf (c :: rest) q = scoresOf [(c.1, c.2)] q ++ scoresOf rest q := by
  unfold scoresOf
  by_cases h : c.1 = q <;> simp [List.filter_cons, h]

theorem Solution1_insertAll_stored (calls : List (Nat × Nat)) (q : Nat) :
    ∀ (s : Solution1), SortedById s.data →
      storedScores (s.insertAll calls).data q = storedScores s.data q ++ scoresOf calls q := by
  induction calls with
  | nil => intro s _; simp [Solution1.insertAll, scoresOf]
  | cons c rest ih =>
    intro s hs
    have h1 := ih (s.Insert c.1 c.2) (Solution1_Insert_sorted s hs c.1 c.2)
    rw [Solution1_Insert_stored s hs] at h1
    rw [scoresOf_cons, ← List.append_assoc]
    exact h1

theorem sorted_nil : SortedById [] := List.Pairwise.nil

/-- The result of `Search` after any sequence of `Insert` calls on a new
`Solution1` (no condition on the ids). -/
theorem Solution1_Search_insertAll (calls : List (Nat × Nat)) (q : Nat) :
    (scoresOf calls q = [] → (NewSolution1.insertAll calls).Search q = [-1]) ∧
    (scoresOf calls q ≠ [] →
      (NewSolution1.insertAll calls).Search q = (scoresOf calls q).map Int.ofNat) := by
  have hs := Solution1_insertAll_sorted calls NewSolution1 sorted_nil
  have hst := Solution1_insertAll_stored calls q NewSolution1 sorted_nil
  have hst2 : storedScores (NewSolution1.insertAll calls).data q = scoresOf calls q := by
    rw [hst]; rfl
  have := Solution1_Search_sorted _ hs q
  rw [hst2] at this
  exact this

/-! ## Solution2 -/

theorem ChainOf.append {nodes : List linkNode} {c : Int} {l : List Nat}
    (h : ChainOf nodes c l) (extra : List linkNode) : ChainOf (nodes ++ extra) c l := by
  induction h with
  | nil => exact ChainOf.nil
  | cons k nd rest hget hlt _ ih =>
    refine ChainOf.cons k nd rest ?_ hlt ih
    have hk : k < nodes.length := by
      by_contra hk
      rw [List.get?_eq_none.mpr (by omega)] at hget
      exact Option.noConfusion hget
    rw [List.get?_eq_getElem?] at hget ⊢
    rw [List.getElem?_append_left hk]
    exact hget

theorem ChainOf.lt_length {nodes : List linkNode} {c : Int} {l : List Nat}
    (h : ChainOf nodes c l) : c < Int.ofNat nodes.length := by
  cases h with
  | nil => 
    have : (0 : Int) ≤ Int.ofNat nodes.length := Int.ofNat_nonneg _
    omega
  | cons k nd rest hget hlt _ =>
    have hk : k < nodes.length := by
      by_contra hk
      rw [List.get?_eq_none.mpr (by omega)] at hget
      exact Option.noConfusion hget
    exact Int.ofNat_lt.mpr hk

theorem ChainOf.length_le {nodes : List linkNode} {c : Int} {l : List Nat}
    (h : ChainOf nodes c l) : Int.ofNat l.length ≤ c + 1 := by
  induction h with
  | nil => simp
  | cons k nd rest _ hlt _ ih =>
    simp only [List.length_cons]
    have : Int.ofNat (rest.length + 1) = Int.ofNat rest.length + 1 := rfl
    omega

theorem ChainOf.nil_iff {nodes : List linkNode} {c : Int} {l : List Nat}
    (h : ChainOf nodes c l) : l = [] ↔ c = -1 := by
  cases h with
  | nil => simp
  | cons k nd rest _ _ _ =>
    constructor
    · intro h; exact absurd h (by simp)
    · intro h
      have : (0 : Int) ≤ Int.ofNat k := Int.ofNat_nonneg _
      omega

/-- The traversal loop returns the scores of the chain, given one unit of
fuel per node. -/
theorem collectChain_chain {nodes : List linkNode} {c : Int} {l : List Nat}
    (h : ChainOf nodes c l) :
    ∀ (fuel : Nat) (acc : List Int), l.length ≤ fuel →
      collectChain nodes fuel c acc = .done (acc ++ l.map Int.ofNat) := by
  induction h with
  | nil =>
    intro fuel acc _
    unfold collectChain
    simp
  | cons k nd rest hget hlt _ ih =>
    intro fuel acc hfuel
    match fuel, hfuel with
    | 0, hfuel => simp at hfuel
    | fuel + 1, hfuel =>
      have hne : Int.ofNat k ≠ -1 := by
        have : (0 : Int) ≤ Int.ofNat k := Int.ofNat_nonneg _
        omega
      have hnn : ¬ (Int.ofNat k < 0) := by
        have : (0 : Int) ≤ Int.ofNat k := Int.ofNat_nonneg _
        omega
      have htn : (Int.ofNat k).toNat = k := rfl
      unfold collectChain
      simp only [hne, if_false, hnn, htn, hget]
      rw [ih fuel _ (by simpa using hfuel)]
      simp

/-- The two-index swap loop reverses the segment between the indices. -/
theorem reverse_short (mid : List Int) (h : mid.length ≤ 1) : mid.reverse = mid := by
  match mid, h with
  | [], _ => rfl
  | [_], _ => rfl
  | _ :: _ :: _, h => simp at h

theorem swapLoop_spec : ∀ (fuel : Nat) (a mid b : List Int), mid.length ≤ fuel + 1 →
    swapLoop (a ++ mid ++ b) fuel a.length (a.length + mid.length - 1) =
      a ++ mid.reverse ++ b := by
  intro fuel
  induction fuel with
  | zero =>
    intro a mid b h
    simp only [swapLoop]
    rw [reverse_short mid (by omega)]
  | succ fuel ih =>
    intro a mid b h
    by_cases hlt : a.length < a.length + mid.length - 1
    · match mid, h, hlt with
      | [], _, hlt => simp at hlt; omega
      | [_], _, hlt => simp at hlt
      | x :: y :: t, h, _ =>
        obtain ⟨m, z, hm⟩ : ∃ m z, y :: t = m ++ [z] :=
          ⟨(y :: t).dropLast, (y :: t).getLast (by simp),
            (List.dropLast_append_getLast (by simp)).symm⟩
        rw [hm]
        have hlen : (y :: t).length = m.length + 1 := by rw [hm]; simp
        have hj : a.length + (x :: (m ++ [z])).length - 1 = a.length + m.length + 1 := by
          simp; omega
        have hi : a.length < a.length + m.length + 1 := by omega
        rw [hj]
        simp only [swapLoop, hi, if_true]
        have e1 : (a ++ x :: (m ++ [z]) ++ b).getD (a.length + m.length + 1) 0 = z := by
          have : a ++ x :: (m ++ [z]) ++ b = (a ++ x :: m) ++ z :: b := by simp
          rw [this, List.getD_eq_getElem?_getD, List.getElem?_append_right (by simp; omega)]
          simp
          have : a.length + m.length + 1 - (a.length + (m.length + 1)) = 0 := by omega
          rw [this]; simp
        have e2 : (a ++ x :: (m ++ [z]) ++ b).getD a.length 0 = x := by
          rw [List.append_assoc, List.getD_eq_getElem?_getD,
            List.getElem?_append_right (le_refl _)]
          simp
        rw [e1, e2]
        have e3 : ((a ++ x :: (m ++ [z]) ++ b).set a.length z).set (a.length + m.length + 1) x =
            (a ++ [z]) ++ m ++ (x :: b) := by
          have s1 : (a ++ x :: (m ++ [z]) ++ b).set a.length z = a ++ z :: (m ++ [z]) ++ b := by
            rw [List.append_assoc, List.set_append_right _ _ (le_refl _)]
            simp
          rw [s1]
          have s2 : a ++ z :: (m ++ [z]) ++ b = (a ++ z :: m) ++ z :: b := by simp
          rw [s2, List.set_append_right _ _ (by simp; omega)]
          have : a.length + m.length + 1 - (a ++ z :: m).length = 0 := by simp; omega
          rw [this]
          simp
        rw [e3]
        have hih := ih (a ++ [z]) m (x :: b) (by simp at h hlen; omega)
        have hidx : (a ++ [z]).length = a.length + 1 := by simp
        rw [hidx] at hih
        have hj2 : a.length + m.length + 1 - 1 = a.length + 1 + m.length - 1 := by omega
        rw [hj2, hih]
        simp
    · have hshort : mid.length ≤ 1 := by omega
      simp only [swapLoop, hlt, if_false]
      rw [reverse_short mid hshort]

theorem swapLoop_reverse (scores : List Int) :
    swapLoop scores (scores.length - 1) 0 (scores.length - 1) = scores.reverse := by
  have := swapLoop_spec (scores.length - 1) [] scores [] (by omega)
  simpa using this

theorem scoresOf_append (pre rest : List (Nat × Nat)) (q : Nat) :
    scoresOf (pre ++ rest) q = scoresOf pre q ++ scoresOf rest q := by
  unfold scoresOf
  rw [List.filter_append, List.map_append]

theorem scoresOf_single (id score q : Nat) :
    scoresOf [(id, score)] q = if id = q then [score] else [] := by
  unfold scoresOf
  by_cases h : id = q <;> simp [List.filter_cons, h]

theorem Solution2_Represents_new : NewSolution2.Represents [] := by
  refine ⟨by simp [NewSolution2], ?_⟩
  intro q _ hq
  refine ⟨-1, ?_, ChainOf.nil⟩
  show (List.replicate (MaxID + 1) (-1 : Int)).get? q = some (-1)
  rw [List.get?_eq_getElem?, List.getElem?_replicate]
  simp
  omega

/-- One `Insert` keeps the representation and never fails. -/
theorem Solution2_Insert_represents (s : Solution2) (pre : List (Nat × Nat))
    (hr : s.Represents pre) (id score : Nat) :
    ∃ t, s.Insert id score = .done t ∧ t.Represents (pre ++ [(id, score)]) ∧
      t.nodes.length ≤ s.nodes.length + 1 := by
  obtain ⟨hlen, hch⟩ := hr
  by_cases hbad : id = 0 ∨ id > MaxID
  · refine ⟨s, by simp [Solution2.Insert, hbad], ⟨hlen, ?_⟩, by omega⟩
    intro q h1 h2
    have hne : id ≠ q := by omega
    rw [scoresOf_append, scoresOf_single, if_neg hne, List.append_nil]
    exact hch q h1 h2
  · have hid1 : 1 ≤ id := by omega
    have hid2 : id ≤ MaxID := by omega
    obtain ⟨h, hget, hchain⟩ := hch id hid1 hid2
    refine ⟨{ heads := s.heads.set id (Int.ofNat s.nodes.length),
              nodes := s.nodes ++ [{ score := score, next := h }] }, ?_, ⟨?_, ?_⟩, ?_⟩
    · simp only [Solution2.Insert, hbad, if_false, hget]
    · simp [hlen]
    · intro q h1 h2
      by_cases hq : id = q
      · subst hq
        refine ⟨Int.ofNat s.nodes.length, ?_, ?_⟩
        · show (s.heads.set id (Int.ofNat s.nodes.length)).get? id = _
          rw [List.get?_eq_getElem?, List.getElem?_set_self (by omega)]
        · rw [scoresOf_append, scoresOf_single, if_pos rfl, List.reverse_append]
          show ChainOf (s.nodes ++ [{ score := score, next := h }]) (Int.ofNat s.nodes.length)
            (score :: (scoresOf pre id).reverse)
          exact ChainOf.cons s.nodes.length { score := score, next := h } _
            (by simp) hchain.lt_length (hchain.append _)
      · obtain ⟨h', hget', hchain'⟩ := hch q h1 h2
        refine ⟨h', ?_, ?_⟩
        · show (s.heads.set id (Int.ofNat s.nodes.length)).get? q = _
          rw [List.get?_eq_getElem?, List.getElem?_set_ne hq, ← List.get?_eq_getElem?]
          exact hget'
        · rw [scoresOf_append, scoresOf_single, if_neg hq, List.append_nil]
          exact hchain'.append _
    · simp

/-- A sequence of `Insert` calls never fails on a well-formed store and
keeps the representation. -/
theorem Solution2_insertAll_represents (rest : List (Nat × Nat)) :
    ∀ (s : Solution2) (pre : List (Nat × Nat)), s.Represents pre →
      ∃ t, s.insertAll rest = .done t ∧ t.Represents (pre ++ rest) ∧
        t.nodes.length ≤ s.nodes.length + rest.length := by
  induction rest with
  | nil =>
    intro s pre hr
    exact ⟨s, rfl, by rw [List.append_nil]; exact hr, by simp⟩
  | cons c rest ih =>
    intro s pre hr
    obtain ⟨t, ht, htr, htl⟩ := Solution2_Insert_represents s pre hr c.1 c.2
    obtain ⟨u, hu, hur, hul⟩ := ih t (pre ++ [(c.1, c.2)]) htr
    refine ⟨u, ?_, ?_, ?_⟩
    · simp only [Solution2.insertAll, ht]
      exact hu
    · have : pre ++ c :: rest = pre ++ [(c.1, c.2)] ++ rest := by simp
      rw [this]
      exact hur
    · simp only [List.length_cons]
      omega

/-- What `Search` returns on a store that represents `calls`. -/
theorem Solution2_Search_represents (s : Solution2) (calls : List (Nat × Nat))
    (hr : s.Represents calls) (q : Nat) (hq1 : 1 ≤ q) (hq2 : q ≤ MaxID)
    (fuel : Nat) (hfuel : (scoresOf calls q).length ≤ fuel) :
    (scoresOf calls q ≠ [] → s.Search fuel q = .done ((scoresOf calls q).map Int.ofNat)) ∧
    (scoresOf calls q = [] → s.Search fuel q = .done [-1]) := by
  obtain ⟨h, hget, hchain⟩ := hr.2 q hq1 hq2
  have hvalid : ¬ (q = 0 ∨ q > MaxID) := by omega
  have hnil := hchain.nil_iff
  constructor
  · intro hne
    have hh : h ≠ -1 := by
      intro e
      exact hne (by simpa using hnil.mpr e)
    have hcol := collectChain_chain hchain fuel [] (by simpa using hfuel)
    have hlen : ¬ ((List.map Int.ofNat (scoresOf calls q).reverse).length = 0) := by
      simp
      exact hne
    simp only [Solution2.Search, hvalid, if_false, hget, hh, hcol, List.nil_append, hlen]
    rw [swapLoop_reverse]
    simp
  · intro he
    have hh : h = -1 := hnil.mp (by simp [he])
    simp only [Solution2.Search, hvalid, if_false, hget, hh, if_true]

/-! ## LinkedListPlus -/

theorem shiftInsert_map {α β : Type} (f : α → β) (zero : α) (xs : List α) (pos : Nat) (x : α) :
    (shiftInsert zero xs pos x).map f = shiftInsert (f zero) (xs.map f) pos (f x) := by
  simp [shiftInsert, goCopy, List.map_set, List.map_take, List.map_drop]

theorem relinkFrom_records (n : Nat) (xs : List node) :
    ∀ i, (relinkFrom n i xs).map node.toRecord = xs.map node.toRecord := by
  induction xs with
  | nil => intro i; rfl
  | cons nd rest ih =>
    intro i
    simp only [relinkFrom, List.map_cons, ih]
    rfl

theorem rebuildLinks_records (l : LinkedListPlus) : l.rebuildLinks.records = l.records := by
  unfold LinkedListPlus.rebuildLinks LinkedListPlus.records
  split
  · rfl
  · exact relinkFrom_records _ _ _

theorem getD_records (xs : List node) (i : Nat) :
    ((xs.map node.toRecord).getD i record.zero).id = (xs.getD i node.zero).id ∧
    ((xs.map node.toRecord).getD i record.zero).score = (xs.getD i node.zero).score := by
  have : record.zero = node.toRecord node.zero := rfl
  rw [this, List.getD_map]
  exact ⟨rfl, rfl⟩

theorem lowerPos_records (xs : List node) (q : Nat) :
    sortSearch xs.length (fun i => decide ((xs.getD i node.zero).id ≥ q)) =
      lowerPos (xs.map node.toRecord) q := by
  unfold lowerPos
  rw [List.length_map]
  congr 1
  funext i
  rw [(getD_records xs i).1]

theorem upperPos_records (xs : List node) (q : Nat) :
    skipEqual (fun i => (xs.getD i node.zero).id) xs.length q
      (xs.length - sortSearch xs.length (fun i => decide ((xs.getD i node.zero).id ≥ q)))
      (sortSearch xs.length (fun i => decide ((xs.getD i node.zero).id ≥ q))) =
      upperPos (xs.map node.toRecord) q := by
  unfold upperPos
  rw [lowerPos_records, List.length_map]
  congr 1
  funext i
  rw [(getD_records xs i).1]

/-- `LinkedListPlus.Search` is `Solution1.Search` on the `(id, score)`
projection of the nodes. -/
theorem LinkedListPlus_Search_records (l : LinkedListPlus) (c q : Nat) :
    l.Search q = Solution1.Search { data := l.records, capacity := c } q := by
  have hS : Solution1.Search { data := l.records, capacity := c } q =
      if lowerPos l.records q = l.records.length ∨
          (l.records.getD (lowerPos l.records q) record.zero).id ≠ q then [-1]
      else (List.range (upperPos l.records q - lowerPos l.records q)).map
        (fun k => Int.ofNat (l.records.getD (lowerPos l.records q + k) record.zero).score) := rfl
  rw [hS]
  unfold LinkedListPlus.Search
  simp only
  rw [upperPos_records, lowerPos_records]
  unfold LinkedListPlus.records
  simp only [(getD_records l.nodes _).1, (getD_records l.nodes _).2, List.length_map]

theorem LinkedListPlus_Insert_invalid (l : LinkedListPlus) (id score : Nat)
    (h : id = 0 ∨ id > MaxID) : l.Insert id score = l := by
  simp [LinkedListPlus.Insert, h]

/-- For a valid id `LinkedListPlus.Insert` changes the `(id, score)`
projection as `Solution1.Insert` changes `data`. -/
theorem LinkedListPlus_Insert_records (l : LinkedListPlus) (id score : Nat)
    (h : ¬ (id = 0 ∨ id > MaxID)) (s : Solution1) (hs : s.data = l.records) :
    (l.Insert id score).records = (s.Insert id score).data := by
  rw [Solution1_Insert_data_raw, hs]
  unfold LinkedListPlus.Insert
  simp only [h, if_false]
  rw [rebuildLinks_records, upperPos_records]
  unfold LinkedListPlus.records
  simp only
  rw [shiftInsert_map]
  rfl

/-- The projection after a call sequence equals the data of a `Solution1`
that received the calls with a valid id. -/
theorem LinkedListPlus_insertAll_records (calls : List (Nat × Nat)) :
    ∀ (l : LinkedListPlus) (s : Solution1), s.data = l.records →
      (l.insertAll calls).records = (s.insertAll (validCalls calls)).data := by
  induction calls with
  | nil => intro l s hs; exact hs.symm
  | cons c rest ih =>
    intro l s hs
    by_cases hv : c.1 = 0 ∨ c.1 > MaxID
    · have e1 : validCalls (c :: rest) = validCalls rest := by
        simp only [validCalls, List.filter_cons, decide_eq_false (not_not.mpr hv),
          Bool.false_eq_true, if_false]
      have e2 : l.insertAll (c :: rest) = l.insertAll rest := by
        show (l.Insert c.1 c.2).insertAll rest = _
        rw [LinkedListPlus_Insert_invalid l c.1 c.2 hv]
      rw [e1, e2]
      exact ih l s hs
    · have e1 : validCalls (c :: rest) = c :: validCalls rest := by
        simp only [validCalls, List.filter_cons, decide_eq_true hv, if_true]
      rw [e1]
      exact ih (l.Insert c.1 c.2) (s.Insert c.1 c.2)
        (LinkedListPlus_Insert_records l c.1 c.2 hv s hs).symm

theorem scoresOf_validCalls (calls : List (Nat × Nat)) (q : Nat) :
    scoresOf (validCalls calls) q =
      if q = 0 ∨ q > MaxID then [] else scoresOf calls q := by
  unfold scoresOf validCalls
  rw [List.filter_filter]
  split
  · rename_i hq
    rw [List.map_eq_nil_iff, List.filter_eq_nil_iff]
    intro c _ hc
    simp only [Bool.and_eq_true, decide_eq_true_eq] at hc
    omega
  · rename_i hq
    congr 1
    apply List.filter_congr
    intro c _
    by_cases e : c.1 = q
    · simp [e]
      omega
    · simp [e]

/-- The result of `Search` after any sequence of `Insert` calls on a new
`LinkedListPlus`, for any query id. -/
theorem LinkedListPlus_Search_insertAll (calls : List (Nat × Nat)) (q : Nat) :
    (scoresOf (validCalls calls) q = [] → (NewLinkedListPlus.insertAll calls).Search q = [-1]) ∧
    (scoresOf (validCalls calls) q ≠ [] →
      (NewLinkedListPlus.insertAll calls).Search q =
        (scoresOf (validCalls calls) q).map Int.ofNat) := by
  have hrec := LinkedListPlus_insertAll_records calls NewLinkedListPlus NewSolution1 rfl
  rw [LinkedListPlus_Search_records _ (NewSolution1.insertAll (validCalls calls)).capacity, hrec]
  exact Solution1_Search_insertAll (validCalls calls) q

theorem sortedNodes_iff (xs : List node) : SortedNodes xs ↔ SortedById (xs.map node.toRecord) := by
  unfold SortedNodes SortedById
  rw [List.pairwise_map]
  rfl

theorem LinkedListPlus_Insert_sorted (l : LinkedListPlus) (hs : SortedNodes l.nodes)
    (id score : Nat) : SortedNodes (l.Insert id score).nodes := by
  by_cases hv : id = 0 ∨ id > MaxID
  · rw [LinkedListPlus_Insert_invalid l id score hv]; exact hs
  · rw [sortedNodes_iff] at hs ⊢
    have := LinkedListPlus_Insert_records l id score hv { data := l.records, capacity := 0 } rfl
    unfold LinkedListPlus.records at this
    rw [this]
    exact Solution1_Insert_sorted _ hs id score

theorem LinkedListPlus_insertAll_sorted (calls : List (Nat × Nat)) :
    ∀ (l : LinkedListPlus), SortedNodes l.nodes → SortedNodes (l.insertAll calls).nodes := by
  induction calls with
  | nil => intro l hs; exact hs
  | cons c rest ih =>
    intro l hs
    exact ih (l.Insert c.1 c.2) (LinkedListPlus_Insert_sorted l hs c.1 c.2)

theorem relinkFrom_length (n : Nat) (xs : List node) :
    ∀ i, (relinkFrom n i xs).length = xs.length := by
  induction xs with
  | nil => intro i; rfl
  | cons nd rest ih => intro i; simp [relinkFrom, ih]

theorem relinkFrom_get (n : Nat) (xs : List node) :
    ∀ (i k : Nat) (nd : node), (relinkFrom n i xs).get? k = some nd →
      nd.next = if i + k + 1 < n then Int.ofNat (i + k + 1) else -1 := by
  induction xs with
  | nil => intro i k nd h; simp [relinkFrom] at h
  | cons x rest ih =>
    intro i k nd h
    cases k with
    | zero =>
      simp only [relinkFrom, List.get?_cons_zero, Option.some.injEq] at h
      rw [← h]
    | succ k =>
      simp only [relinkFrom, List.get?_cons_succ] at h
      have := ih (i + 1) k nd h
      rw [this]
      have e : i + 1 + k + 1 = i + (k + 1) + 1 := by omega
      rw [e]

theorem rebuildLinks_ok (l : LinkedListPlus) : LinksOk l.rebuildLinks := by
  unfold LinkedListPlus.rebuildLinks
  by_cases h : l.nodes.length = 0
  · rw [if_pos h]
    refine ⟨by simp [h], ?_⟩
    intro i nd hget
    have hnil : l.nodes = [] := List.length_eq_zero.mp h
    simp [hnil] at hget
  · rw [if_neg h]
    have hlen := relinkFrom_length l.nodes.length l.nodes 0
    refine ⟨by simp only [hlen, h, if_false], ?_⟩
    intro i nd hget
    have := relinkFrom_get l.nodes.length l.nodes 0 i nd hget
    simp only [hlen]
    rw [this]
    simp

theorem LinkedListPlus_Insert_links (l : LinkedListPlus) (hl : LinksOk l) (id score : Nat) :
    LinksOk (l.Insert id score) := by
  by_cases hv : id = 0 ∨ id > MaxID
  · rw [LinkedListPlus_Insert_invalid l id score hv]; exact hl
  · unfold LinkedListPlus.Insert
    simp only [hv, if_false]
    exact rebuildLinks_ok _

theorem LinkedListPlus_insertAll_links (calls : List (Nat × Nat)) :
    ∀ (l : LinkedListPlus), LinksOk l → LinksOk (l.insertAll calls) := by
  induction calls with
  | nil => intro l hl; exact hl
  | cons c rest ih =>
    intro l hl
    exact ih (l.Insert c.1 c.2) (LinkedListPlus_Insert_links l hl c.1 c.2)

theorem linksOk_new : LinksOk NewLinkedListPlus := by
  refine ⟨rfl, ?_⟩
  intro i nd h
  simp [NewLinkedListPlus] at h

/-- With sequential links, following `next` from index `k` visits
`k, k+1, …, n-1` and then reaches `-1`, using one unit of fuel per node. -/
theorem followLinks_from (nodes : List node)
    (hlinks : ∀ i nd, nodes.get? i = some nd →
      nd.next = if i + 1 < nodes.length then Int.ofNat (i + 1) else -1) :
    ∀ (m k fuel : Nat) (acc : List Nat), k + m = nodes.length → m ≤ fuel →
      followLinks nodes fuel (if k < nodes.length then Int.ofNat k else -1) acc =
        .done (acc ++ List.range' k m) := by
  intro m
  induction m with
  | zero =>
    intro k fuel acc hk _
    have : ¬ (k < nodes.length) := by omega
    unfold followLinks
    simp [this]
  | succ m ih =>
    intro k fuel acc hk hfuel
    have hkn : k < nodes.length := by omega
    obtain ⟨nd, hnd⟩ : ∃ nd, nodes.get? k = some nd :=
      ⟨nodes.get ⟨k, hkn⟩, List.get?_eq_get hkn⟩
    have hnext := hlinks k nd hnd
    match fuel, hfuel with
    | 0, hfuel => omega
    | fuel + 1, hfuel =>
      have hne : Int.ofNat k ≠ -1 := by
        have : (0 : Int) ≤ Int.ofNat k := Int.ofNat_nonneg _
        omega
      have hnn : ¬ (Int.ofNat k < 0) := by
        have : (0 : Int) ≤ Int.ofNat k := Int.ofNat_nonneg _
        omega
      have htn : (Int.ofNat k).toNat = k := rfl
      unfold followLinks
      simp only [hkn, if_true, hne, if_false, hnn, htn, hnd]
      rw [hnext, ih (k + 1) fuel (acc ++ [k]) (by omega) (by omega)]
      simp [List.range'_succ]

/-- With less fuel than nodes ahead, the walk runs out of fuel before the
terminal `-1`. -/
theorem followLinks_short (nodes : List node)
    (hlinks : ∀ i nd, nodes.get? i = some nd →
      nd.next = if i + 1 < nodes.length then Int.ofNat (i + 1) else -1) :
    ∀ (fuel m k : Nat) (acc : List Nat), k + m = nodes.length → fuel < m →
      followLinks nodes fuel (if k < nodes.length then Int.ofNat k else -1) acc =
        .outOfFuel := by
  intro fuel
  induction fuel with
  | zero =>
    intro m k acc hk hm
    have hkn : k < nodes.length := by omega
    have hne : Int.ofNat k ≠ -1 := by
      have : (0 : Int) ≤ Int.ofNat k := Int.ofNat_nonneg _
      omega
    unfold followLinks
    simp only [hkn, if_true, hne, if_false]
  | succ fuel ih =>
    intro m k acc hk hm
    have hkn : k < nodes.length := by omega
    obtain ⟨nd, hnd⟩ : ∃ nd, nodes.get? k = some nd :=
      ⟨nodes.get ⟨k, hkn⟩, List.get?_eq_get hkn⟩
    have hnext := hlinks k nd hnd
    have hne : Int.ofNat k ≠ -1 := by
      have : (0 : Int) ≤ Int.ofNat k := Int.ofNat_nonneg _
      omega
    have hnn : ¬ (Int.ofNat k < 0) := by
      have : (0 : Int) ≤ Int.ofNat k := Int.ofNat_nonneg _
      omega
    have htn : (Int.ofNat k).toNat = k := rfl
    unfold followLinks
    simp only [hkn, if_true, hne, if_false, hnn, htn, hnd]
    rw [hnext]
    exact ih (m - 1) (k + 1) (acc ++ [k]) (by omega) (by omega)

theorem validCalls_eq_self (calls : List (Nat × Nat))
    (hids : ∀ c ∈ calls, 1 ≤ c.1 ∧ c.1 ≤ MaxID) : validCalls calls = calls := by
  unfold validCalls
  rw [List.filter_eq_self]
  intro c hc
  have := hids c hc
  simp only [decide_eq_true_eq]
  omega

/-! ## Stable sort -/

theorem filter_orderedInsert (q : Nat) (a : record) :
    ∀ (l : List record),
      (List.orderedInsert (fun a b : record => a.id ≤ b.id) a l).filter
        (fun r => decide (r.id = q)) =
      (a :: l).filter (fun r => decide (r.id = q)) := by
  intro l
  induction l with
  | nil => rfl
  | cons b l ih =>
    by_cases hab : a.id ≤ b.id
    · simp only [List.orderedInsert, hab, if_true]
    · simp only [List.orderedInsert, hab, if_false]
      rw [List.filter_cons, ih]
      by_cases ha : a.id = q
      · have hb : ¬ (b.id = q) := by omega
        simp [List.filter_cons, ha, hb]
      · simp [List.filter_cons, ha]

theorem filter_stableSortById (q : Nat) :
    ∀ (l : List record),
      (stableSortById l).filter (fun r => decide (r.id = q)) =
        l.filter (fun r => decide (r.id = q)) := by
  intro l
  induction l with
  | nil => rfl
  | cons a l ih =>
    show (List.orderedInsert (fun a b : record => a.id ≤ b.id) a (stableSortById l)).filter _ = _
    rw [filter_orderedInsert, List.filter_cons, ih, List.filter_cons]

theorem sorted_stableSortById (l : List record) : SortedById (stableSortById l) := by
  haveI : IsTotal record (fun a b => a.id ≤ b.id) := ⟨fun a b => Nat.le_total a.id b.id⟩
  haveI : IsTrans record (fun a b => a.id ≤ b.id) := ⟨fun a b c h1 h2 => Nat.le_trans h1 h2⟩
  exact List.sorted_insertionSort (fun a b : record => a.id ≤ b.id) l

/-- Two sequences sorted by id that hold, for every id, the same records
in the same order are equal. -/
theorem sorted_filter_ext :
    ∀ (xs ys : List record), SortedById xs → SortedById ys →
      (∀ q, xs.filter (fun r => decide (r.id = q)) = ys.filter (fun r => decide (r.id = q))) →
      xs = ys := by
  intro xs
  induction xs with
  | nil =>
    intro ys _ _ h
    cases ys with
    | nil => rfl
    | cons y ys =>
      have := h y.id
      simp [List.filter_cons] at this
  | cons x xs ih =>
    intro ys hx hy h
    cases ys with
    | nil =>
      have := h x.id
      simp [List.filter_cons] at this
    | cons y ys =>
      unfold SortedById at hx hy
      rw [List.pairwise_cons] at hx hy
      have hxy : x.id = y.id := by
        have h1 : y.id ≤ x.id := by
          have hm : x ∈ (y :: ys).filter (fun r => decide (r.id = x.id)) := by
            rw [← h x.id]; simp [List.filter_cons]
          have hm2 := (List.mem_filter.mp hm).1
          rw [List.mem_cons] at hm2
          rcases hm2 with e | e
          · rw [e]
          · exact hy.1 x e
        have h2 : x.id ≤ y.id := by
          have hm : y ∈ (x :: xs).filter (fun r => decide (r.id = y.id)) := by
            rw [h y.id]; simp [List.filter_cons]
          have hm2 := (List.mem_filter.mp hm).1
          rw [List.mem_cons] at hm2
          rcases hm2 with e | e
          · rw [e]
          · exact hx.1 y e
        omega
      have hhead := h x.id
      simp only [List.filter_cons, decide_True, if_true, hxy] at hhead
      have hxe : x = y := (List.cons.inj hhead).1
      subst hxe
      have htail : ∀ q, xs.filter (fun r => decide (r.id = q)) =
          ys.filter (fun r => decide (r.id = q)) := by
        intro q
        have hq := h q
        by_cases e : x.id = q
        · simp only [List.filter_cons, e, decide_True, if_true] at hq
          exact (List.cons.inj hq).2
        · simpa [List.filter_cons, e] using hq
      rw [ih ys hx.2 hy.2 htail]

/-- After `Insert(id, score)` on a sorted store the records with any id
`q` are the earlier ones, followed by the new record when `q = id`. -/
theorem Solution1_Insert_filter (s : Solution1) (hs : SortedById s.data) (id score q : Nat) :
    (s.Insert id score).data.filter (fun r => decide (r.id = q)) =
      (s.data ++ [({ id := id, score := score } : record)]).filter
        (fun r => decide (r.id = q)) := by
  rw [Solution1_Insert_data s hs]
  have h4 := (upperPos_spec s.data hs id).2.2.2.1
  have hsplit : s.data.filter (fun r => decide (r.id = q)) =
      (s.data.take (upperPos s.data id)).filter (fun r => decide (r.id = q)) ++
        (s.data.drop (upperPos s.data id)).filter (fun r => decide (r.id = q)) := by
    rw [← List.filter_append, List.take_append_drop]
  rw [List.filter_append, List.filter_append, hsplit]
  by_cases hq : id = q
  · subst hq
    have hnil : (s.data.drop (upperPos s.data id)).filter (fun r => decide (r.id = id)) = [] := by
      rw [List.filter_eq_nil_iff]
      intro x hx
      obtain ⟨i, hi1, hi2, hxi⟩ := mem_drop_getD record.zero s.data _ x hx
      have := h4 i hi1 hi2
      rw [hxi] at this
      simp only [decide_eq_true_eq]
      omega
    simp [List.filter_cons, hnil]
  · simp [List.filter_cons, hq]

theorem Solution1_insertAll_filter (calls : List (Nat × Nat)) (q : Nat) :
    ∀ (s : Solution1), SortedById s.data →
      (s.insertAll calls).data.filter (fun r => decide (r.id = q)) =
        (s.data ++ callRecords calls).filter (fun r => decide (r.id = q)) := by
  induction calls with
  | nil => intro s _; simp [Solution1.insertAll, callRecords]
  | cons c rest ih =>
    intro s hs
    have h1 := ih (s.Insert c.1 c.2) (Solution1_Insert_sorted s hs c.1 c.2)
    have h2 := Solution1_Insert_filter s hs c.1 c.2 q
    show ((s.Insert c.1 c.2).insertAll rest).data.filter _ = _
    rw [h1, List.filter_append, h2]
    have e : s.data ++ callRecords (c :: rest) =
        (s.data ++ [({ id := c.1, score := c.2 } : record)]) ++ callRecords rest := by
      simp [callRecords]
    rw [e]
    simp only [List.filter_append]

/-- The data of a `Solution1` after a call sequence is the stable sort by
id of the inserted records. -/
theorem Solution1_insertAll_stableSort (calls : List (Nat × Nat)) :
    (NewSolution1.insertAll calls).data = stableSortById (callRecords calls) := by
  apply sorted_filter_ext _ _ (Solution1_insertAll_sorted calls NewSolution1 sorted_nil)
    (sorted_stableSortById _)
  intro q
  rw [Solution1_insertAll_filter calls q NewSolution1 sorted_nil, filter_stableSortById]
  rfl

/-! ## Capacity growth -/

theorem maxInt_eq : maxInt = 9223372036854775807 := by decide

/-- With a positive start and enough fuel, the growth loop ends with a
capacity that covers `needed`. -/
theorem growLoop_ge (needed : Nat) :
    ∀ (fuel newCap : Nat), 0 < newCap → needed - newCap ≤ fuel →
      needed ≤ growLoop needed fuel newCap := by
  intro fuel
  induction fuel with
  | zero =>
    intro newCap _ h
    simp only [growLoop]
    omega
  | succ fuel ih =>
    intro newCap hpos h
    simp only [growLoop]
    by_cases hn : needed > newCap
    · rw [if_pos hn]
      split
      · exact le_refl _
      · exact ih (newCap * 10) (by omega) (by omega)
    · rw [if_neg hn]
      omega

/-- Started at a power of ten that is the least one not below the
previous size, and with `needed` at most `10^18`, the growth loop ends at the
least power of ten that is not below `needed`. -/
theorem growLoop_pow (needed : Nat) (hn : needed ≤ 10 ^ 18) :
    ∀ (fuel k : Nat), (k = 0 ∨ 10 ^ (k - 1) < needed) → needed - 10 ^ k ≤ fuel →
      ∃ k2, growLoop needed fuel (10 ^ k) = 10 ^ k2 ∧ needed ≤ 10 ^ k2 ∧
        (k2 = 0 ∨ 10 ^ (k2 - 1) < needed) := by
  intro fuel
  induction fuel with
  | zero =>
    intro k hk h
    exact ⟨k, rfl, by omega, hk⟩
  | succ fuel ih =>
    intro k hk h
    have hpos : 0 < 10 ^ k := by positivity
    simp only [growLoop]
    by_cases hlt : needed > 10 ^ k
    · rw [if_pos hlt]
      have hk18 : k < 18 := by
        by_contra hge
        have : 10 ^ 18 ≤ 10 ^ k := Nat.pow_le_pow_right (by decide) (by omega)
        omega
      have hsmall : 10 ^ k ≤ 10 ^ 17 := Nat.pow_le_pow_right (by decide) (by omega)
      have hno : ¬ (10 ^ k > maxInt / 10) := by
        rw [maxInt_eq]
        norm_num
        omega
      rw [if_neg hno]
      have e : 10 ^ k * 10 = 10 ^ (k + 1) := by rw [Nat.pow_succ]
      rw [e]
      exact ih (k + 1) (Or.inr (by simpa using hlt)) (by rw [← e]; omega)
    · rw [if_neg hlt]
      exact ⟨k, rfl, by omega, hk⟩

theorem shiftInsert_length {α : Type} (zero : α) (xs : List α) (pos : Nat) (x : α) :
    (shiftInsert zero xs pos x).length = xs.length + 1 := by
  simp only [shiftInsert, goCopy, List.length_set, List.length_append, List.length_take,
    List.length_drop, List.length_cons, List.length_nil]
  omega

theorem Solution1_Insert_length (s : Solution1) (id score : Nat) :
    (s.Insert id score).data.length = s.data.length + 1 := by
  rw [Solution1_Insert_data_raw, shiftInsert_length]

theorem Solution1_Insert_capacity (s : Solution1) (id score : Nat) :
    (s.Insert id score).capacity = (s.ensureCapacity 1).capacity := rfl

/-- After `ensureCapacity(extra)` the capacity covers `len(data) + extra`. -/
theorem Solution1_ensureCapacity_ge (s : Solution1) (extra : Nat) :
    s.data.length + extra ≤ (s.ensureCapacity extra).capacity := by
  unfold Solution1.ensureCapacity
  simp only
  split
  · assumption
  · apply growLoop_ge
    · split <;> omega
    · exact le_refl _

theorem Solution1_insertAll_length (calls : List (Nat × Nat)) :
    ∀ (s : Solution1), (s.insertAll calls).data.length = s.data.length + calls.length := by
  induction calls with
  | nil => intro s; rfl
  | cons c rest ih =>
    intro s
    show ((s.Insert c.1 c.2).insertAll rest).data.length = _
    rw [ih, Solution1_Insert_length, List.length_cons]
    omega

theorem Solution1_insertAll_le_capacity (calls : List (Nat × Nat)) :
    ∀ (s : Solution1), s.data.length ≤ s.capacity →
      (s.insertAll calls).data.length ≤ (s.insertAll calls).capacity := by
  induction calls with
  | nil => intro s h; exact h
  | cons c rest ih =>
    intro s _
    apply ih (s.Insert c.1 c.2)
    rw [Solution1_Insert_length, Solution1_Insert_capacity]
    exact Solution1_ensureCapacity_ge s 1

/-- One `Insert` keeps "the capacity is the least power of ten that is
not below the size", as long as the new size is at most `10^18`. -/
theorem Solution1_Insert_pow (s : Solution1) (id score : Nat)
    (hsmall : s.data.length + 1 ≤ 10 ^ 18)
    (h : ∃ k, s.capacity = 10 ^ k ∧ (k = 0 ∨ 10 ^ (k - 1) < s.data.length)) :
    ∃ k, (s.Insert id score).capacity = 10 ^ k ∧ s.data.length + 1 ≤ 10 ^ k ∧
      (k = 0 ∨ 10 ^ (k - 1) < s.data.length + 1) := by
  obtain ⟨k, hk, hmin⟩ := h
  rw [Solution1_Insert_capacity]
  unfold Solution1.ensureCapacity
  simp only
  by_cases hfit : s.data.length + 1 ≤ s.capacity
  · rw [if_pos hfit]
    exact ⟨k, hk, by omega, by omega⟩
  · rw [if_neg hfit]
    have hpos : 0 < 10 ^ k := by positivity
    have hne : ¬ (s.capacity = 0) := by omega
    rw [if_neg hne, hk]
    exact growLoop_pow (s.data.length + 1) hsmall _ k (by omega) (le_refl _)

theorem Solution1_insertAll_pow (calls : List (Nat × Nat)) :
    ∀ (s : Solution1), s.data.length + calls.length ≤ 10 ^ 18 →
      (∃ k, s.capacity = 10 ^ k ∧ s.data.length ≤ 10 ^ k ∧
        (k = 0 ∨ 10 ^ (k - 1) < s.data.length)) →
      ∃ k, (s.insertAll calls).capacity = 10 ^ k ∧ s.data.length + calls.length ≤ 10 ^ k ∧
        (k = 0 ∨ 10 ^ (k - 1) < s.data.length + calls.length) := by
  induction calls with
  | nil =>
    intro s _ h
    simpa [Solution1.insertAll] using h
  | cons c rest ih =>
    intro s hsmall h
    obtain ⟨k, hk1, _, hk3⟩ := h
    simp only [List.length_cons] at hsmall
    obtain ⟨k2, h1, h2, h3⟩ := Solution1_Insert_pow s c.1 c.2 (by omega) ⟨k, hk1, hk3⟩
    have := ih (s.Insert c.1 c.2) (by rw [Solution1_Insert_length]; omega)
      ⟨k2, h1, by rw [Solution1_Insert_length]; exact h2,
        by rw [Solution1_Insert_length]; exact h3⟩
    rw [Solution1_Insert_length] at this
    simp only [List.length_cons]
    have e : s.data.length + (rest.length + 1) = s.data.length + 1 + rest.length := by omega
    rw [e]
    exact this

theorem wrapInt_of_range (x : Int) (h0 : 0 ≤ x) (h1 : x ≤ Int.ofNat maxInt) : wrapInt x = x := by
  unfold wrapInt
  rw [maxInt_eq] at h1
  have : Int.ofNat 9223372036854775807 = 9223372036854775807 := rfl
  rw [this] at h1
  omega

theorem maxInt_div_ten : Int.ofNat maxInt / 10 = 922337203685477580 := by
  rw [maxInt_eq]
  rfl

/-- On non-negative values within the `int` range the 64-bit growth loop
does what the loop on natural numbers does, and does not run out of fuel. -/
theorem growLoopInt_eq (needed : Nat) (_hn : needed ≤ maxInt) :
    ∀ (fuel newCap : Nat), 0 < newCap → needed - newCap ≤ fuel →
      growLoopInt (Int.ofNat needed) fuel (Int.ofNat newCap) =
        .done (Int.ofNat (growLoop needed fuel newCap)) := by
  intro fuel
  induction fuel with
  | zero =>
    intro newCap _ h
    have hle : ¬ (Int.ofNat needed > Int.ofNat newCap) := by
      simp only [Int.ofNat_eq_coe]
      omega
    unfold growLoopInt
    simp only [hle, if_false, growLoop]
  | succ fuel ih =>
    intro newCap hpos h
    unfold growLoopInt
    by_cases hgt : needed > newCap
    · have hgt2 : Int.ofNat needed > Int.ofNat newCap := by
        simp only [Int.ofNat_eq_coe]
        omega
      simp only [hgt2, if_true, growLoop, hgt]
      by_cases hbig : newCap > maxInt / 10
      · have hbig2 : Int.ofNat newCap > Int.ofNat maxInt / 10 := by
          rw [maxInt_div_ten]
          rw [maxInt_eq] at hbig
          simp only [Int.ofNat_eq_coe]
          omega
        simp only [hbig2, if_true, hbig]
      · have hbig2 : ¬ (Int.ofNat newCap > Int.ofNat maxInt / 10) := by
          rw [maxInt_div_ten]
          rw [maxInt_eq] at hbig
          simp only [Int.ofNat_eq_coe]
          omega
        simp only [hbig2, if_false, hbig]
        have hwrap : wrapInt (Int.ofNat newCap * 10) = Int.ofNat (newCap * 10) := by
          have hprod : Int.ofNat newCap * 10 = Int.ofNat (newCap * 10) := by
            simp
          rw [hprod]
          apply wrapInt_of_range
          · exact Int.ofNat_nonneg _
          · rw [maxInt_eq] at hbig ⊢
            simp only [Int.ofNat_eq_coe]
            omega
        rw [hwrap]
        exact ih (newCap * 10) (by omega) (by omega)
    · have hgt2 : ¬ (Int.ofNat needed > Int.ofNat newCap) := by
        simp only [Int.ofNat_eq_coe]
        omega
      simp only [hgt2, if_false, growLoop, hgt]

/-- From a positive start every product the growth loop computes fits
the `int` range, so it is not changed by the wrap-around. -/
theorem growProducts_le (needed : Int) :
    ∀ (fuel : Nat) (newCap : Int), 0 < newCap →
      ∀ p ∈ growProducts needed fuel newCap, 0 < p ∧ p ≤ Int.ofNat maxInt ∧ wrapInt p = p := by
  intro fuel
  induction fuel with
  | zero =>
    intro newCap _ p hp
    unfold growProducts at hp
    split at hp <;> simp at hp
  | succ fuel ih =>
    intro newCap hpos p hp
    unfold growProducts at hp
    split at hp
    · simp only at hp
      split at hp
      · simp at hp
      · rename_i hsmall
        rw [maxInt_div_ten] at hsmall
        have hr : newCap * 10 ≤ Int.ofNat maxInt := by
          rw [maxInt_eq]
          have : Int.ofNat 9223372036854775807 = 9223372036854775807 := rfl
          rw [this]
          omega
        have hw := wrapInt_of_range (newCap * 10) (by omega) hr
        rw [List.mem_cons] at hp
        rcases hp with hp | hp
        · rw [hp]
          exact ⟨by omega, hr, hw⟩
        · rw [hw] at hp
          exact ih (newCap * 10) (by omega) p hp
    · simp at hp

/-- The growth loop indexes no slice. -/
theorem growLoopInt_no_index (needed : Int) :
    ∀ (fuel : Nat) (newCap : Int), growLoopInt needed fuel newCap ≠ .indexOutOfRange := by
  intro fuel
  induction fuel with
  | zero =>
    intro newCap h
    unfold growLoopInt at h
    by_cases hgt : needed > newCap
    · simp only [hgt, if_true] at h
      exact Outcome.noConfusion h
    · simp only [hgt, if_false] at h
      exact Outcome.noConfusion h
  | succ fuel ih =>
    intro newCap h
    unfold growLoopInt at h
    by_cases hgt : needed > newCap
    · simp only [hgt, if_true] at h
      by_cases hbig : newCap > Int.ofNat maxInt / 10
      · simp only [hbig, if_true] at h
        exact Outcome.noConfusion h
      · simp only [hbig, if_false] at h
        exact ih _ h
    · simp only [hgt, if_false] at h
      exact Outcome.noConfusion h

/-- Whenever the 64-bit growth loop returns, its result covers `needed`. -/
theorem growLoopInt_done_ge (needed : Int) :
    ∀ (fuel : Nat) (newCap r : Int), growLoopInt needed fuel newCap = .done r → needed ≤ r := by
  intro fuel
  induction fuel with
  | zero =>
    intro newCap r h
    unfold growLoopInt at h
    by_cases hgt : needed > newCap
    · simp only [hgt, if_true] at h
      exact Outcome.noConfusion h
    · simp only [hgt, if_false] at h
      have := Outcome.done.inj h
      omega
  | succ fuel ih =>
    intro newCap r h
    unfold growLoopInt at h
    by_cases hgt : needed > newCap
    · simp only [hgt, if_true] at h
      by_cases hbig : newCap > Int.ofNat maxInt / 10
      · simp only [hbig, if_true] at h
        have := Outcome.done.inj h
        omega
      · simp only [hbig, if_false] at h
        exact ih _ r h
    · simp only [hgt, if_false] at h
      have := Outcome.done.inj h
      omega

/-- When the loop is entered with a capacity whose tenfold exceeds the
`int` range, the result is exactly `needed`. -/
theorem growLoopInt_fallback (needed newCap : Int) (fuel : Nat)
    (h1 : needed > newCap) (h2 : newCap * 10 > Int.ofNat maxInt) :
    growLoopInt needed (fuel + 1) newCap = .done needed := by
  have hbig : newCap > Int.ofNat maxInt / 10 := by
    rw [maxInt_div_ten]
    rw [maxInt_eq] at h2
    have : Int.ofNat 9223372036854775807 = 9223372036854775807 := rfl
    rw [this] at h2
    omega
  unfold growLoopInt
  simp only [h1, if_true, hbig]

/-! ## Chain well-formedness -/

theorem Solution2_wellFormed_new : NewSolution2.WellFormed := by
  constructor
  · intro i h hget
    left
    simp only [NewSolution2, List.get?_eq_getElem?, List.getElem?_replicate] at hget
    split at hget
    · exact (Option.some.inj hget).symm
    · exact Option.noConfusion hget
  · intro j nd hget
    simp [NewSolution2] at hget

theorem Solution2_Insert_wellFormed (s t : Solution2) (id score : Nat)
    (hw : s.WellFormed) (ht : s.Insert id score = .done t) : t.WellFormed := by
  obtain ⟨hheads, hnodes⟩ := hw
  unfold Solution2.Insert at ht
  by_cases hbad : id = 0 ∨ id > MaxID
  · rw [if_pos hbad] at ht
    have := Outcome.done.inj ht
    rw [← this]
    exact ⟨hheads, hnodes⟩
  · rw [if_neg hbad] at ht
    simp only at ht
    cases hget : s.heads.get? id with
    | none => rw [hget] at ht; exact Outcome.noConfusion ht
    | some h =>
      rw [hget] at ht
      have := Outcome.done.inj ht
      rw [← this]
      have hh := hheads id h hget
      constructor
      · intro i h2 hget2
        simp only [List.get?_eq_getElem?, List.length_append, List.length_cons,
          List.length_nil] at hget2 ⊢
        by_cases hi : id = i
        · subst hi
          have hlt : id < s.heads.length := by
            by_contra hge
            rw [List.get?_eq_none.mpr (by omega)] at hget
            exact Option.noConfusion hget
          rw [List.getElem?_set_self hlt] at hget2
          have := (Option.some.inj hget2).symm
          right
          rw [this]
          simp only [Int.ofNat_eq_coe]
          omega
        · rw [List.getElem?_set_ne hi] at hget2
          rcases hheads i h2 (by rw [List.get?_eq_getElem?]; exact hget2) with e | e
          · exact Or.inl e
          · right
            simp only [Int.ofNat_eq_coe] at e ⊢
            omega
      · intro j nd hget2
        simp only [List.get?_eq_getElem?] at hget2
        by_cases hj : j < s.nodes.length
        · rw [List.getElem?_append_left hj] at hget2
          exact hnodes j nd (by rw [List.get?_eq_getElem?]; exact hget2)
        · rw [List.getElem?_append_right (by omega)] at hget2
          by_cases hj2 : j = s.nodes.length
          · subst hj2
            simp only [Nat.sub_self, List.getElem?_cons_zero, Option.some.injEq] at hget2
            rw [← hget2]
            exact hh
          · have : j - s.nodes.length ≠ 0 := by omega
            obtain ⟨m, hm⟩ := Nat.exists_eq_succ_of_ne_zero this
            rw [hm] at hget2
            simp at hget2

theorem Solution2_insertAll_wellFormed (rest : List (Nat × Nat)) :
    ∀ (s t : Solution2), s.WellFormed → s.insertAll rest = .done t → t.WellFormed := by
  induction rest with
  | nil =>
    intro s t hw ht
    have := Outcome.done.inj ht
    rw [← this]; exact hw
  | cons c rest ih =>
    intro s t hw ht
    simp only [Solution2.insertAll] at ht
    cases hins : s.Insert c.1 c.2 with
    | done u =>
      rw [hins] at ht
      exact ih u t (Solution2_Insert_wellFormed s u c.1 c.2 hw hins) ht
    | indexOutOfRange => rw [hins] at ht; exact Outcome.noConfusion ht
    | outOfFuel => rw [hins] at ht; exact Outcome.noConfusion ht

/-- With strictly decreasing links, every start that is `-1` or an index
into `nodes` has a chain. -/
theorem chain_exists (nodes : List linkNode)
    (hnodes : ∀ j nd, nodes.get? j = some nd →
      nd.next = -1 ∨ (0 ≤ nd.next ∧ nd.next < Int.ofNat j)) :
    ∀ (n : Nat) (h : Int),
      h = -1 ∨ (0 ≤ h ∧ h < Int.ofNat nodes.length ∧ h.toNat < n) →
      ∃ l, ChainOf nodes h l := by
  intro n
  induction n with
  | zero =>
    intro h hh
    rcases hh with e | ⟨_, _, e⟩
    · rw [e]; exact ⟨[], ChainOf.nil⟩
    · omega
  | succ n ih =>
    intro h hh
    rcases hh with e | ⟨h0, h1, h2⟩
    · rw [e]; exact ⟨[], ChainOf.nil⟩
    · obtain ⟨k, rfl⟩ := Int.eq_ofNat_of_zero_le h0
      simp only [Int.ofNat_eq_coe, Int.toNat_ofNat, Nat.cast_lt] at h1 h2
      obtain ⟨nd, hnd⟩ : ∃ nd, nodes.get? k = some nd :=
        ⟨nodes.get ⟨k, h1⟩, List.get?_eq_get h1⟩
      have hnext := hnodes k nd hnd
      have hlt : nd.next < Int.ofNat k := by
        simp only [Int.ofNat_eq_coe] at hnext ⊢
        omega
      obtain ⟨l, hl⟩ := ih nd.next (by
        rcases hnext with e | ⟨e0, e1⟩
        · exact Or.inl e
        · right
          simp only [Int.ofNat_eq_coe] at e1 ⊢
          omega)
      exact ⟨nd.score :: l, ChainOf.cons k nd l hnd hlt hl⟩

/-- On a well-formed store the traversal from any head ends without an
index out of range, within `len(nodes)` steps, and collects at least one
score unless the head is `-1`. -/
theorem collectChain_wellFormed (s : Solution2) (hw : s.WellFormed) (i : Nat) (h : Int)
    (hget : s.heads.get? i = some h) (fuel : Nat) (hfuel : s.nodes.length ≤ fuel) :
    ∃ scores, collectChain s.nodes fuel h [] = .done scores ∧ (h ≠ -1 → scores.length ≠ 0) := by
  have hh := hw.1 i h hget
  obtain ⟨l, hl⟩ := chain_exists s.nodes hw.2 (h.toNat + 1) h (by
    rcases hh with e | ⟨e0, e1⟩
    · exact Or.inl e
    · exact Or.inr ⟨e0, e1, by omega⟩)
  have hlen : l.length ≤ fuel := by
    have h1 := hl.length_le
    have h2 := hl.lt_length
    simp only [Int.ofNat_eq_coe] at h1 h2
    omega
  refine ⟨l.map Int.ofNat, ?_, ?_⟩
  · have := collectChain_chain hl fuel [] hlen
    simpa using this
  · intro hne
    have := hl.nil_iff
    simp only [List.length_map, ne_eq, List.length_eq_zero]
    intro e
    exact hne (this.mp e)

/-! ## The sentinel -/

/-- The shape of a `Search` result built from the list `l` of stored
scores: never empty; either the sentinel or the scores, which are not
negative; and `-1` occurs in it exactly when `l` is empty. -/
theorem sentinel_shape (l : List Nat) (B : Nat) (hB : ∀ x ∈ l, x ≤ B) (r : List Int)
    (h1 : l = [] → r = [-1]) (h2 : l ≠ [] → r = l.map Int.ofNat) :
    r ≠ [] ∧ (r = [-1] ∨ ∀ v ∈ r, 0 ≤ v ∧ v ≤ Int.ofNat B) ∧ ((-1 : Int) ∈ r ↔ l = []) := by
  by_cases hl : l = []
  · rw [h1 hl]
    exact ⟨by simp, Or.inl rfl, by simp [hl]⟩
  · rw [h2 hl]
    refine ⟨by simpa using hl, Or.inr ?_, ?_⟩
    · intro v hv
      obtain ⟨x, hx, rfl⟩ := List.mem_map.mp hv
      exact ⟨Int.ofNat_nonneg x, Int.ofNat_le.mpr (hB x hx)⟩
    · constructor
      · intro hm
        obtain ⟨x, _, hx⟩ := List.mem_map.mp hm
        simp only [Int.ofNat_eq_coe] at hx
        omega
      · intro e; exact absurd e hl

theorem scoresOf_le (calls : List (Nat × Nat)) (B : Nat) (hB : ∀ c ∈ calls, c.2 ≤ B) (q : Nat) :
    ∀ x ∈ scoresOf calls q, x ≤ B := by
  intro x hx
  unfold scoresOf at hx
  obtain ⟨c, hc, rfl⟩ := List.mem_map.mp hx
  exact hB c (List.mem_filter.mp hc).1

theorem validCalls_le (calls : List (Nat × Nat)) (B : Nat) (hB : ∀ c ∈ calls, c.2 ≤ B) :
    ∀ c ∈ validCalls calls, c.2 ≤ B := by
  intro c hc
  exact hB c (List.mem_filter.mp hc).1

/-- What `Solution2.Search` returns for any query id on a store that
represents `calls`. -/
theorem Solution2_Search_all (s : Solution2) (calls : List (Nat × Nat))
    (hr : s.Represents calls) (q fuel : Nat) (hfuel : (scoresOf calls q).length ≤ fuel) :
    (scoresOf (validCalls calls) q = [] → s.Search fuel q = .done [-1]) ∧
    (scoresOf (validCalls calls) q ≠ [] →
      s.Search fuel q = .done ((scoresOf (validCalls calls) q).map Int.ofNat)) := by
  by_cases hbad : q = 0 ∨ q > MaxID
  · rw [scoresOf_validCalls, if_pos hbad]
    exact ⟨fun _ => by simp [Solution2.Search, hbad], fun h => absurd rfl h⟩
  · rw [scoresOf_validCalls, if_neg hbad]
    have := Solution2_Search_represents s calls hr q (by omega) (by omega) fuel hfuel
    exact ⟨this.2, this.1⟩

/-! ## estimateNextTime -/

theorem indexAt_mid (pre post : List Int) (x : Int) :
    indexAt (pre ++ x :: post) (Int.ofNat pre.length) = .done x := by
  unfold indexAt
  have h2 : ¬ (Int.ofNat pre.length < 0) := by
    simp only [Int.ofNat_eq_coe]; omega
  have h3 : (Int.ofNat pre.length).toNat = pre.length := rfl
  have h4 : (pre ++ x :: post).get? pre.length = some x := by
    rw [List.get?_eq_getElem?, List.getElem?_append_right (le_refl _)]
    simp
  rw [if_neg h2, h3, h4]

theorem indexAt_last (pre : List Int) (x : Int) :
    indexAt (pre ++ [x]) (Int.ofNat (pre ++ [x]).length - 1) = .done x := by
  have h1 : Int.ofNat (pre ++ [x]).length - 1 = Int.ofNat pre.length := by
    simp only [List.length_append, List.length_cons, List.length_nil, Int.ofNat_eq_coe]
    omega
  rw [h1]
  exact indexAt_mid pre [] x

theorem indexAt_second_last (pre : List Int) (x y : Int) :
    indexAt (pre ++ [x, y]) (Int.ofNat (pre ++ [x, y]).length - 2) = .done x := by
  have h1 : Int.ofNat (pre ++ [x, y]).length - 2 = Int.ofNat pre.length := by
    simp only [List.length_append, List.length_cons, List.length_nil, Int.ofNat_eq_coe]
    omega
  rw [h1]
  exact indexAt_mid pre [y] x

/-- A history with exactly one entry: the estimate is that entry. -/
theorem estimate_single {F : Type} (ops : FloatOps F) (x : Int) (counts : List Int)
    (size : Int) : estimateNextTime ops [x] counts size = .done x := by
  have h := indexAt_last [] x
  simp only [List.nil_append] at h
  unfold estimateNextTime
  rw [h]
  simp

/-- A history whose latest entry is `0`: the estimate is `0`. -/
theorem estimate_last_zero {F : Type} (ops : FloatOps F) (pre : List Int)
    (counts : List Int) (size : Int) :
    estimateNextTime ops (pre ++ [0]) counts size = .done 0 := by
  have h := indexAt_last pre 0
  unfold estimateNextTime
  rw [h]
  simp

/-- A history of at least two entries whose latest entry is not `0`:
the estimate unfolded down to the arithmetic. -/
theorem estimate_two {F : Type} (ops : FloatOps F) (pre : List Int) (P L : Int)
    (hL : L ≠ 0) (counts : List Int) (size : Int) :
    estimateNextTime ops (pre ++ [P, L]) counts size =
      if P = 0 then .done L
      else
        match (if ops.ltOne (ops.div (ops.ofInt L) (ops.ofInt P)) = true then
            match indexAt counts (Int.ofNat counts.length - 1) with
            | .indexOutOfRange => .indexOutOfRange
            | .outOfFuel => .outOfFuel
            | .done lastCount => .done (ops.div (ops.ofInt size) (ops.ofInt lastCount))
          else (.done (ops.div (ops.ofInt L) (ops.ofInt P)) : Outcome F)) with
        | .indexOutOfRange => .indexOutOfRange
        | .outOfFuel => .outOfFuel
        | .done ratio =>
          if ops.toDuration (ops.mul (ops.ofInt L) ratio) < L then .done L
          else .done (ops.toDuration (ops.mul (ops.ofInt L) ratio)) := by
  have h1 : indexAt (pre ++ [P, L]) (Int.ofNat (pre ++ [P, L]).length - 1) = .done L := by
    have := indexAt_last (pre ++ [P]) L
    simpa using this
  have h2 := indexAt_second_last pre P L
  have hlen0 : ¬ ((pre ++ [P, L]).length = 0) := by simp
  have hlen1 : ¬ ((pre ++ [P, L]).length = 1 ∨ L = 0) := by
    simp only [List.length_append, List.length_cons, List.length_nil]
    omega
  unfold estimateNextTime
  rw [if_neg hlen0, h1]
  simp only [hlen1, if_false, h2]

theorem list_snoc_cases {α : Type} (xs : List α) : xs = [] ∨ ∃ pre x, xs = pre ++ [x] := by
  rcases List.eq_nil_or_concat xs with e | ⟨pre, x, e⟩
  · exact Or.inl e
  · exact Or.inr ⟨pre, x, by rw [e, List.concat_eq_append]⟩

theorem indexAt_last_of_ne_nil (xs : List Int) (h : xs ≠ []) :
    ∃ x, indexAt xs (Int.ofNat xs.length - 1) = .done x := by
  rcases list_snoc_cases xs with e | ⟨pre, x, e⟩
  · exact absurd e h
  · rw [e]
    exact ⟨x, indexAt_last pre x⟩

theorem clamp_ge (e L : Int) :
    ∃ d, (if e < L then Outcome.done L else Outcome.done e) = Outcome.done d ∧ L ≤ d := by
  by_cases h : e < L
  · exact ⟨L, by rw [if_pos h], le_refl _⟩
  · exact ⟨e, by rw [if_neg h], by omega⟩

/-- With a non-empty history and a counts list that is not empty when
the history has two entries or more, the estimate is a duration that is at
least the latest entry, whatever the arithmetic. -/
theorem estimate_done_ge {F : Type} (ops : FloatOps F) (pre : List Int) (L : Int)
    (counts : List Int) (size : Int) (hc : pre ≠ [] → counts ≠ []) :
    ∃ d, estimateNextTime ops (pre ++ [L]) counts size = .done d ∧ L ≤ d := by
  rcases list_snoc_cases pre with e | ⟨pre2, P, e⟩
  · subst e
    exact ⟨L, estimate_single ops L counts size, le_refl _⟩
  · by_cases hL : L = 0
    · subst hL
      exact ⟨0, estimate_last_zero ops pre counts size, le_refl _⟩
    · have hne : pre ≠ [] := by rw [e]; simp
      subst e
      rw [List.append_assoc]
      simp only [List.singleton_append]
      rw [estimate_two ops pre2 P L hL counts size]
      by_cases hP : P = 0
      · rw [if_pos hP]
        exact ⟨L, rfl, le_refl _⟩
      · rw [if_neg hP]
        obtain ⟨c, hcidx⟩ := indexAt_last_of_ne_nil counts (hc hne)
        rw [hcidx]
        cases hlt : ops.ltOne (ops.div (ops.ofInt L) (ops.ofInt P)) with
        | true =>
          simp only [if_true]
          exact clamp_ge _ L
        | false =>
          simp only [Bool.false_eq_true, if_false]
          exact clamp_ge _ L

/-! ## binary64 rounding -/

theorem roundHalfEven_cases (m : ℚ) :
    roundHalfEven m = ⌊m⌋ ∨ roundHalfEven m = ⌊m⌋ + 1 := by
  unfold roundHalfEven
  split
  · exact Or.inl rfl
  · split
    · exact Or.inr rfl
    · split
      · exact Or.inl rfl
      · exact Or.inr rfl

theorem roundHalfEven_intCast (n : Int) : roundHalfEven (n : ℚ) = n := by
  unfold roundHalfEven
  simp

/-- Rounding to nearest, ties to even, is monotone. -/
theorem roundHalfEven_mono {a b : ℚ} (h : a ≤ b) : roundHalfEven a ≤ roundHalfEven b := by
  have hf : ⌊a⌋ ≤ ⌊b⌋ := Int.floor_le_floor h
  rcases lt_or_eq_of_le hf with hlt | heq
  · rcases roundHalfEven_cases a with ha | ha <;>
    rcases roundHalfEven_cases b with hb | hb <;> omega
  · unfold roundHalfEven
    rw [← heq]
    have hd : a - ⌊a⌋ ≤ b - ⌊a⌋ := by linarith
    by_cases h1 : a - ⌊a⌋ < 1 / 2
    · rw [if_pos h1]
      split
      · exact le_refl _
      · split
        · omega
        · split <;> omega
    · rw [if_neg h1]
      have h1b : ¬ (b - ⌊a⌋ < 1 / 2) := by
        intro hb; apply h1; linarith
      rw [if_neg h1b]
      by_cases h2 : a - ⌊a⌋ > 1 / 2
      · have h2b : b - ⌊a⌋ > 1 / 2 := by linarith
        rw [if_pos h2, if_pos h2b]
      · rw [if_neg h2]
        by_cases h2b : b - ⌊a⌋ > 1 / 2
        · rw [if_pos h2b]
          split <;> omega
        · rw [if_neg h2b]
theorem two_zpow_pos (e : Int) : (0 : ℚ) < 2 ^ e := zpow_pos (by norm_num) e

theorem log_two_bounds (q : ℚ) (hq : 1 ≤ q) :
    0 ≤ Int.log 2 q ∧ (2 : ℚ) ^ Int.log 2 q ≤ q ∧ q < (2 : ℚ) ^ (Int.log 2 q + 1) := by
  refine ⟨?_, ?_, ?_⟩
  · rw [Int.log_of_one_le_right 2 hq]
    exact Int.ofNat_nonneg _
  · have := Int.zpow_log_le_self (b := 2) (r := q) (by norm_num) (by linarith)
    simpa using this
  · have := Int.lt_zpow_succ_log_self (b := 2) (by norm_num) q
    simpa using this

theorem ulpExp_of_one_le (q : ℚ) (hq : 1 ≤ q) : ulpExp q = Int.log 2 q - 52 := by
  unfold ulpExp
  rw [abs_of_nonneg (by linarith)]
  have := (log_two_bounds q hq).1
  omega

/-- For `q ≥ 1` with `2^e ≤ q < 2^(e+1)`, the rounded value lies between
`2^e` and `2^(e+1)`. -/
theorem roundRat_bounds (q : ℚ) (hq : 1 ≤ q) :
    (2 : ℚ) ^ Int.log 2 q ≤ roundRat q ∧ roundRat q ≤ (2 : ℚ) ^ (Int.log 2 q + 1) := by
  obtain ⟨_, hlo, hhi⟩ := log_two_bounds q hq
  have hu := two_zpow_pos (Int.log 2 q - 52)
  unfold roundRat
  rw [ulpExp_of_one_le q hq]
  have e1 : (2 : ℚ) ^ Int.log 2 q = ((2 ^ 52 : Int) : ℚ) * 2 ^ (Int.log 2 q - 52) := by
    rw [zpow_sub₀ (by norm_num : (2 : ℚ) ≠ 0)]
    push_cast
    field_simp
    ring
  have e2 : (2 : ℚ) ^ (Int.log 2 q + 1) = ((2 ^ 53 : Int) : ℚ) * 2 ^ (Int.log 2 q - 52) := by
    rw [zpow_sub₀ (by norm_num : (2 : ℚ) ≠ 0), zpow_add₀ (by norm_num : (2 : ℚ) ≠ 0)]
    push_cast
    field_simp
    ring
  have m1 : ((2 ^ 52 : Int) : ℚ) ≤ q / 2 ^ (Int.log 2 q - 52) := by
    rw [le_div_iff₀ hu, ← e1]
    exact hlo
  have m2 : q / 2 ^ (Int.log 2 q - 52) ≤ ((2 ^ 53 : Int) : ℚ) := by
    rw [div_le_iff₀ hu, ← e2]
    exact le_of_lt hhi
  have r1 := roundHalfEven_mono m1
  have r2 := roundHalfEven_mono m2
  rw [roundHalfEven_intCast] at r1 r2
  constructor
  · rw [e1]
    exact mul_le_mul_of_nonneg_right (by exact_mod_cast r1) (le_of_lt hu)
  · rw [e2]
    exact mul_le_mul_of_nonneg_right (by exact_mod_cast r2) (le_of_lt hu)

theorem roundRat_ge_one (q : ℚ) (hq : 1 ≤ q) : 1 ≤ roundRat q := by
  have h := (roundRat_bounds q hq).1
  have h0 := (log_two_bounds q hq).1
  have : (1 : ℚ) ≤ 2 ^ Int.log 2 q := by
    have := zpow_le_zpow_right₀ (by norm_num : (1 : ℚ) ≤ 2) h0
    simpa using this
  linarith

/-- Rounding to 53 significant bits is monotone on `[1, ∞)`. -/
theorem roundRat_mono {a b : ℚ} (ha : 1 ≤ a) (h : a ≤ b) : roundRat a ≤ roundRat b := by
  have hb : 1 ≤ b := le_trans ha h
  have hlog : Int.log 2 a ≤ Int.log 2 b := Int.log_mono_right (by linarith) h
  rcases lt_or_eq_of_le hlog with hlt | heq
  · have h1 := (roundRat_bounds a ha).2
    have h2 := (roundRat_bounds b hb).1
    have h3 : (2 : ℚ) ^ (Int.log 2 a + 1) ≤ 2 ^ Int.log 2 b :=
      zpow_le_zpow_right₀ (by norm_num) (by omega)
    linarith
  · unfold roundRat
    rw [ulpExp_of_one_le a ha, ulpExp_of_one_le b hb, heq]
    have hu := two_zpow_pos (Int.log 2 b - 52)
    have hm : a / 2 ^ (Int.log 2 b - 52) ≤ b / 2 ^ (Int.log 2 b - 52) :=
      div_le_div_of_nonneg_right h (le_of_lt hu)
    have := roundHalfEven_mono hm
    exact mul_le_mul_of_nonneg_right (by exact_mod_cast this) (le_of_lt hu)

/-- In binary64 arithmetic the quotient of the conversions of two
integers `a ≥ b > 0` is not below `1`. -/
theorem binary64_ratio_ge_one (outOfRange : Float64 → Int) (a b : Int)
    (hb : 0 < b) (hab : b ≤ a) :
    (binary64Ops outOfRange).ltOne ((binary64Ops outOfRange).div
      ((binary64Ops outOfRange).ofInt a) ((binary64Ops outOfRange).ofInt b)) = false := by
  have hbq : (1 : ℚ) ≤ (b : ℚ) := by exact_mod_cast hb
  have habq : (b : ℚ) ≤ (a : ℚ) := by exact_mod_cast hab
  have haq : (1 : ℚ) ≤ (a : ℚ) := le_trans hbq habq
  have hrb := roundRat_ge_one _ hbq
  have hmono := roundRat_mono hbq habq
  have hbig : (0 : ℚ) < 2 ^ 1024 := by norm_num
  show Float64.ltOne (Float64.div (roundFloat (a : ℚ)) (roundFloat (b : ℚ))) = false
  unfold roundFloat
  by_cases hbinf : roundRat (b : ℚ) ≥ 2 ^ 1024
  · have hainf : roundRat (a : ℚ) ≥ 2 ^ 1024 := le_trans hbinf hmono
    rw [if_pos hbinf, if_pos hainf]
    rfl
  · have hbneg : ¬ (roundRat (b : ℚ) ≤ -(2 ^ 1024)) := by
      intro h; linarith
    rw [if_neg hbinf, if_neg hbneg]
    by_cases hainf : roundRat (a : ℚ) ≥ 2 ^ 1024
    · rw [if_pos hainf]
      have : (0 : ℚ) ≤ roundRat (b : ℚ) := by linarith
      simp only [Float64.div, this, if_true, Float64.ltOne]
    · have haneg : ¬ (roundRat (a : ℚ) ≤ -(2 ^ 1024)) := by
        intro h; linarith
      rw [if_neg hainf, if_neg haneg]
      have hb0 : ¬ (roundRat (b : ℚ) = 0) := by
        intro h; linarith
      have hquot : (1 : ℚ) ≤ roundRat (a : ℚ) / roundRat (b : ℚ) := by
        rw [le_div_iff₀ (by linarith)]
        linarith
      have hres := roundRat_ge_one _ hquot
      simp only [Float64.div, hb0, if_false]
      unfold roundFloat
      split
      · rfl
      · split
        · rename_i h; exfalso; linarith
        · simp only [Float64.ltOne, decide_eq_false_iff_not, not_lt]
          exact hres
/-- An integer `n` with `1 ≤ n < 2^53` is a binary64 value: rounding
leaves it unchanged. -/
theorem roundRat_intCast (n : Int) (h0 : 1 ≤ n) (h1 : n < 2 ^ 53) :
    roundRat (n : ℚ) = (n : ℚ) := by
  have hq : (1 : ℚ) ≤ (n : ℚ) := by exact_mod_cast h0
  obtain ⟨hnn, hlo, _⟩ := log_two_bounds (n : ℚ) hq
  have hle : Int.log 2 (n : ℚ) ≤ 52 := by
    by_contra hgt
    have h53 : (2 : ℚ) ^ (53 : Int) ≤ 2 ^ Int.log 2 (n : ℚ) :=
      zpow_le_zpow_right₀ (by norm_num) (by omega)
    have hn : (n : ℚ) < 2 ^ (53 : Nat) := by exact_mod_cast h1
    rw [show (53 : Int) = ((53 : Nat) : Int) from rfl, zpow_natCast] at h53
    linarith
  obtain ⟨k, hk⟩ : ∃ k : Nat, Int.log 2 (n : ℚ) - 52 = -(k : Int) :=
    ⟨(52 - Int.log 2 (n : ℚ)).toNat, by omega⟩
  unfold roundRat
  rw [ulpExp_of_one_le _ hq, hk]
  have hm : (n : ℚ) / 2 ^ (-(k : Int)) = ((n * 2 ^ k : Int) : ℚ) := by
    rw [zpow_neg, zpow_natCast]
    push_cast
    field_simp
  rw [hm, roundHalfEven_intCast, zpow_neg, zpow_natCast]
  push_cast
  field_simp

theorem roundFloat_intCast (n : Int) (h0 : 1 ≤ n) (h1 : n < 2 ^ 53) :
    roundFloat (n : ℚ) = .finite (n : ℚ) := by
  unfold roundFloat
  rw [roundRat_intCast n h0 h1]
  have hn : (n : ℚ) < 2 ^ 53 := by exact_mod_cast h1
  have hp : (0 : ℚ) < (n : ℚ) := by
    have : (1 : ℚ) ≤ (n : ℚ) := by exact_mod_cast h0
    linarith
  have h53 : (2 : ℚ) ^ 53 < 2 ^ 1024 := by norm_num
  rw [if_neg (by intro h; linarith), if_neg (by intro h; linarith)]

theorem roundFloat_half : roundFloat (1 / 2 : ℚ) = .finite (1 / 2) := by
  have hlog : Int.log 2 (1 / 2 : ℚ) = -1 := by
    have := Int.log_zpow (R := ℚ) (b := 2) (by norm_num) (-1)
    rw [← this]
    norm_num
  have hr : roundRat (1 / 2 : ℚ) = 1 / 2 := by
    unfold roundRat ulpExp
    rw [abs_of_nonneg (by norm_num), hlog]
    have hu : max ((-1 : Int) - 52) (-1074) = -(53 : Nat) := by decide
    rw [hu]
    have hm : (1 / 2 : ℚ) / 2 ^ (-((53 : Nat) : Int)) = ((2 ^ 52 : Int) : ℚ) := by
      rw [zpow_neg, zpow_natCast]
      norm_num
    rw [hm, roundHalfEven_intCast, zpow_neg, zpow_natCast]
    norm_num
  unfold roundFloat
  rw [hr]
  norm_num

/-- On the two sample inputs binary64 arithmetic gives `20ms` and
`10ms`. -/
theorem binary64_samples (outOfRange : Float64 → Int) :
    estimateNextTime (binary64Ops outOfRange) [5000000, 10000000] [1000, 2000] 4000 =
      .done 20000000 ∧
    estimateNextTime (binary64Ops outOfRange) [10000000, 5000000] [1000, 2000] 4000 =
      .done 10000000 := by
  have c1 := roundFloat_intCast 5000000 (by norm_num) (by norm_num)
  have c2 := roundFloat_intCast 10000000 (by norm_num) (by norm_num)
  have c3 := roundFloat_intCast 20000000 (by norm_num) (by norm_num)
  have c4 := roundFloat_intCast 2 (by norm_num) (by norm_num)
  have c5 := roundFloat_intCast 4000 (by norm_num) (by norm_num)
  have c6 := roundFloat_intCast 2000 (by norm_num) (by norm_num)
  push_cast at c1 c2 c3 c4 c5 c6
  constructor
  · have h := estimate_two (binary64Ops outOfRange) [] 5000000 10000000 (by norm_num)
      [1000, 2000] 4000
    simp only [List.nil_append] at h
    rw [h]
    have hd : (binary64Ops outOfRange).div ((binary64Ops outOfRange).ofInt 10000000)
        ((binary64Ops outOfRange).ofInt 5000000) = .finite 2 := by
      show Float64.div (roundFloat ((10000000 : Int) : ℚ)) (roundFloat ((5000000 : Int) : ℚ)) = _
      push_cast
      rw [c1, c2]
      simp only [Float64.div]
      norm_num
      exact c4
    rw [hd]
    have hm : (binary64Ops outOfRange).mul ((binary64Ops outOfRange).ofInt 10000000)
        (.finite 2) = .finite 20000000 := by
      show Float64.mul (roundFloat ((10000000 : Int) : ℚ)) (.finite 2) = _
      push_cast
      rw [c2]
      simp only [Float64.mul]
      norm_num
      exact c3
    have hlt : (binary64Ops outOfRange).ltOne (.finite 2) = false := by
      show Float64.ltOne (.finite 2) = false
      simp [Float64.ltOne]
    have ht : (binary64Ops outOfRange).toDuration (.finite 20000000) = 20000000 := by
      show Float64.toDuration outOfRange (.finite 20000000) = 20000000
      simp only [Float64.toDuration]
      norm_num [truncRat]
    simp only [hlt, Bool.false_eq_true, if_false, hm, ht]
    norm_num
  · have h := estimate_two (binary64Ops outOfRange) [] 10000000 5000000 (by norm_num)
      [1000, 2000] 4000
    simp only [List.nil_append] at h
    rw [h]
    have hd : (binary64Ops outOfRange).div ((binary64Ops outOfRange).ofInt 5000000)
        ((binary64Ops outOfRange).ofInt 10000000) = .finite (1 / 2) := by
      show Float64.div (roundFloat ((5000000 : Int) : ℚ)) (roundFloat ((10000000 : Int) : ℚ)) = _
      push_cast
      rw [c1, c2]
      simp only [Float64.div]
      norm_num
      exact roundFloat_half
    rw [hd]
    have hlt : (binary64Ops outOfRange).ltOne (.finite (1 / 2)) = true := by
      show Float64.ltOne (.finite (1 / 2)) = true
      simp only [Float64.ltOne, decide_eq_true_eq]
      norm_num
    have hidx : indexAt [1000, 2000] (Int.ofNat ([1000, 2000] : List Int).length - 1) =
        .done 2000 := by
      decide
    have hd2 : (binary64Ops outOfRange).div ((binary64Ops outOfRange).ofInt 4000)
        ((binary64Ops outOfRange).ofInt 2000) = .finite 2 := by
      show Float64.div (roundFloat ((4000 : Int) : ℚ)) (roundFloat ((2000 : Int) : ℚ)) = _
      push_cast
      rw [c5, c6]
      simp only [Float64.div]
      norm_num
      exact c4
    have hm : (binary64Ops outOfRange).mul ((binary64Ops outOfRange).ofInt 5000000)
        (.finite 2) = .finite 10000000 := by
      show Float64.mul (roundFloat ((5000000 : Int) : ℚ)) (.finite 2) = _
      push_cast
      rw [c1]
      simp only [Float64.mul]
      norm_num
      exact c2
    have ht : (binary64Ops outOfRange).toDuration (.finite 10000000) = 10000000 := by
      show Float64.toDuration outOfRange (.finite 10000000) = 10000000
      simp only [Float64.toDuration]
      norm_num [truncRat]
    simp only [hlt, if_true]
    rw [hidx]
    simp only [hd2, hm, ht]
    norm_num

theorem roundHalfEven_near (m : ℚ) (n : Int) (h1 : (n : ℚ) - 1 / 2 < m)
    (h2 : m < (n : ℚ) + 1 / 2) : roundHalfEven m = n := by
  by_cases hge : (n : ℚ) ≤ m
  · have hf : ⌊m⌋ = n := by
      rw [Int.floor_eq_iff]
      constructor
      · exact hge
      · linarith
    unfold roundHalfEven
    rw [hf, if_pos (by linarith)]
  · have hf : ⌊m⌋ = n - 1 := by
      rw [Int.floor_eq_iff]
      push_cast
      constructor
      · linarith
      · linarith
    unfold roundHalfEven
    rw [hf]
    push_cast
    rw [if_neg (by linarith), if_pos (by linarith)]
    omega

theorem log_two_eq (q : ℚ) (k : Int) (hlo : (2 : ℚ) ^ k ≤ q) (hhi : q < (2 : ℚ) ^ (k + 1)) :
    Int.log 2 q = k := by
  have hq : 0 < q := lt_of_lt_of_le (two_zpow_pos k) hlo
  have h1 : k ≤ Int.log 2 q := (Int.zpow_le_iff_le_log (by norm_num) hq).mp hlo
  have h2 : Int.log 2 q < k + 1 := (Int.lt_zpow_iff_log_lt (by norm_num) hq).mp hhi
  omega

/-- Evaluation of the rounding at a positive `q` of known binary exponent
`k` (at least `-1022`): it is `n * 2^(k - 52)` for the integer `n` nearest to
`q / 2^(k - 52)`, provided that is not a tie. -/
theorem roundRat_eval (q : ℚ) (k n : Int) (hk : -1022 ≤ k) (hlo : (2 : ℚ) ^ k ≤ q)
    (hhi : q < (2 : ℚ) ^ (k + 1)) (h1 : (n : ℚ) - 1 / 2 < q / 2 ^ (k - 52))
    (h2 : q / 2 ^ (k - 52) < (n : ℚ) + 1 / 2) :
    roundRat q = (n : ℚ) * 2 ^ (k - 52) := by
  have hq : 0 < q := lt_of_lt_of_le (two_zpow_pos k) hlo
  have hu : ulpExp q = k - 52 := by
    unfold ulpExp
    rw [abs_of_pos hq, log_two_eq q k hlo hhi]
    omega
  unfold roundRat
  rw [hu, roundHalfEven_near _ n h1 h2]

theorem round_seven_fifths :
    roundRat ((700000 : ℚ) / 500000) = 6305039478318694 / 4503599627370496 := by
  have h := roundRat_eval ((700000 : ℚ) / 500000) 0 6305039478318694 (by norm_num)
    (by norm_num) (by norm_num) (by norm_num) (by norm_num)
  rw [h]
  norm_num

theorem round_sample_product :
    roundRat ((700000 : ℚ) * (6305039478318694 / 4503599627370496)) =
      8418135900159999 / 8589934592 := by
  have h := roundRat_eval ((700000 : ℚ) * (6305039478318694 / 4503599627370496)) 19
    8418135900159999 (by norm_num) (by norm_num) (by norm_num) (by norm_num) (by norm_num)
  rw [h]
  norm_num

theorem roundRat_zero : roundRat 0 = 0 := by
  unfold roundRat
  rw [zero_div]
  have := roundHalfEven_intCast 0
  simp only [Int.cast_zero] at this
  rw [this]
  simp

theorem roundRat_nonneg (q : ℚ) (hq : 0 ≤ q) : 0 ≤ roundRat q := by
  unfold roundRat
  have h0 : (0 : ℚ) ≤ q / 2 ^ ulpExp q := div_nonneg hq (le_of_lt (two_zpow_pos _))
  have hm := roundHalfEven_mono h0
  have hz := roundHalfEven_intCast 0
  simp only [Int.cast_zero] at hz
  rw [hz] at hm
  have : (0 : ℚ) ≤ (roundHalfEven (q / 2 ^ ulpExp q) : ℚ) := by exact_mod_cast hm
  exact mul_nonneg this (le_of_lt (two_zpow_pos _))

/-- Below `1` the unit in the last place is at most `2^(-53)`. -/
theorem ulpExp_small (q : ℚ) (hq : 0 < q) (hq1 : q < 1) :
    ∃ j : Nat, ulpExp q = -((j + 53 : Nat) : Int) := by
  have hlog : Int.log 2 q < 0 := by
    have h : q < (2 : ℚ) ^ (0 : Int) := by simpa using hq1
    exact (Int.lt_zpow_iff_log_lt (by norm_num) hq).mp h
  refine ⟨(-(ulpExp q) - 53).toNat, ?_⟩
  unfold ulpExp
  rw [abs_of_pos hq]
  push_cast
  omega

/-- A bound `t` that is a multiple of the unit in the last place of `q`
is kept by the rounding. -/
theorem roundRat_le_grid (q : ℚ) (N : Int) (h : q / 2 ^ ulpExp q ≤ (N : ℚ)) :
    roundRat q ≤ (N : ℚ) * 2 ^ ulpExp q := by
  unfold roundRat
  have hm := roundHalfEven_mono h
  rw [roundHalfEven_intCast] at hm
  have : (roundHalfEven (q / 2 ^ ulpExp q) : ℚ) ≤ (N : ℚ) := by exact_mod_cast hm
  exact mul_le_mul_of_nonneg_right this (le_of_lt (two_zpow_pos _))

theorem roundRat_le_one (q : ℚ) (hq : 0 < q) (hq1 : q < 1) : roundRat q ≤ 1 := by
  obtain ⟨j, hj⟩ := ulpExp_small q hq hq1
  have h := roundRat_le_grid q ((2 : Int) ^ (j + 53)) (by
    rw [hj, zpow_neg, zpow_natCast]
    push_cast
    rw [div_inv_eq_mul]
    have hp : (0 : ℚ) < 2 ^ (j + 53) := by positivity
    nlinarith)
  rw [hj, zpow_neg, zpow_natCast] at h
  push_cast at h
  have hp : (2 : ℚ) ^ (j + 53) ≠ 0 := by positivity
  rw [mul_inv_cancel₀ hp] at h
  exact h

/-- A quotient below `1 - 2^(-53)` rounds to a value below `1`. -/
theorem roundRat_lt_one (q : ℚ) (hq : 0 < q) (hq1 : q ≤ 1 - 1 / 2 ^ 53) : roundRat q < 1 := by
  have hlt : q < 1 := by
    have : (0 : ℚ) < 1 / 2 ^ 53 := by positivity
    linarith
  obtain ⟨j, hj⟩ := ulpExp_small q hq hlt
  have h := roundRat_le_grid q ((2 : Int) ^ (j + 53) - 2 ^ j) (by
    rw [hj, zpow_neg, zpow_natCast]
    push_cast
    rw [div_inv_eq_mul, pow_add]
    have hp : (0 : ℚ) < 2 ^ j := by positivity
    have h53 : (0 : ℚ) < 2 ^ 53 := by positivity
    have : q * (2 ^ j * 2 ^ 53) ≤ (1 - 1 / 2 ^ 53) * (2 ^ j * 2 ^ 53) :=
      mul_le_mul_of_nonneg_right hq1 (by positivity)
    have e : (1 - 1 / 2 ^ 53 : ℚ) * (2 ^ j * 2 ^ 53) = 2 ^ j * 2 ^ 53 - 2 ^ j := by
      field_simp
      ring
    linarith)
  rw [hj, zpow_neg, zpow_natCast] at h
  push_cast at h
  have hp : (0 : ℚ) < 2 ^ (j + 53) := by positivity
  have hj0 : (0 : ℚ) < 2 ^ j := by positivity
  have e : ((2 : ℚ) ^ (j + 53) - 2 ^ j) * (2 ^ (j + 53))⁻¹ = 1 - 1 / 2 ^ 53 := by
    rw [pow_add]
    field_simp
    ring
  rw [e] at h
  have : (0 : ℚ) < 1 / 2 ^ 53 := by positivity
  linarith

theorem roundRat_le_two_pow (q : ℚ) (hq : 1 ≤ q) (k : Nat) (hk : q < 2 ^ k) :
    roundRat q ≤ 2 ^ k := by
  have hpos : 0 < q := by linarith
  have hlog : Int.log 2 q < (k : Int) := by
    have h : q < (2 : ℚ) ^ ((k : Nat) : Int) := by rw [zpow_natCast]; exact hk
    exact (Int.lt_zpow_iff_log_lt (by norm_num) hpos).mp h
  have h1 := (roundRat_bounds q hq).2
  have h2 : (2 : ℚ) ^ (Int.log 2 q + 1) ≤ 2 ^ ((k : Nat) : Int) :=
    zpow_le_zpow_right₀ (by norm_num) (by omega)
  rw [zpow_natCast] at h2
  linarith

/-- The rounding of a value in `[0, 2^k)` lies in `[0, 2^k]`. -/
theorem roundRat_range (q : ℚ) (h0 : 0 ≤ q) (k : Nat) (hk : q < 2 ^ k) :
    0 ≤ roundRat q ∧ roundRat q ≤ 2 ^ k := by
  refine ⟨roundRat_nonneg q h0, ?_⟩
  have hone : (1 : ℚ) ≤ 2 ^ k := one_le_pow₀ (by norm_num)
  rcases lt_or_eq_of_le h0 with hpos | hz
  · by_cases h1 : 1 ≤ q
    · exact roundRat_le_two_pow q h1 k hk
    · exact le_trans (roundRat_le_one q hpos (not_le.mp h1)) hone
  · rw [← hz, roundRat_zero]
    linarith

theorem roundFloat_of_range (q : ℚ) (h0 : 0 ≤ q) (k : Nat) (hk : q < 2 ^ k) (hk2 : k ≤ 1023) :
    roundFloat q = .finite (roundRat q) := by
  obtain ⟨hn, hle⟩ := roundRat_range q h0 k hk
  have h1 : (2 : ℚ) ^ k ≤ 2 ^ 1023 := pow_le_pow_right₀ (by norm_num) hk2
  have h2 : (2 : ℚ) ^ 1023 < 2 ^ 1024 := by norm_num
  unfold roundFloat
  rw [if_neg (by intro h; linarith), if_neg (by intro h; linarith)]

theorem truncRat_nonneg (q : ℚ) (hq : 0 ≤ q) : 0 ≤ truncRat q := by
  unfold truncRat
  rw [if_pos hq]
  exact Int.floor_nonneg.mpr hq

/-- The conversion `time.Duration(x)` of a finite non-negative value whose
integer part fits an `int64` is the truncation. -/
theorem toDuration_of_range (outOfRange : Float64 → Int) (q : ℚ) (hq : 0 ≤ q)
    (h : truncRat q ≤ 2 ^ 63 - 1) :
    Float64.toDuration outOfRange (.finite q) = truncRat q := by
  have h0 := truncRat_nonneg q hq
  have hlo : -(2 ^ 63 : Int) ≤ truncRat q := by
    have : (0 : Int) ≤ 2 ^ 63 := by norm_num
    omega
  simp only [Float64.toDuration]
  rw [if_pos ⟨hlo, h⟩]

/-- For `0 < L < P < 2^53` the binary64 quotient `L / P` is below `1`. -/
theorem binary64_ratio_lt_one (outOfRange : Float64 → Int) (a b : Int)
    (ha : 0 < a) (hab : a < b) (hb : b < 2 ^ 53) :
    (binary64Ops outOfRange).ltOne ((binary64Ops outOfRange).div
      ((binary64Ops outOfRange).ofInt a) ((binary64Ops outOfRange).ofInt b)) = true := by
  show Float64.ltOne (Float64.div (roundFloat (a : ℚ)) (roundFloat (b : ℚ))) = true
  rw [roundFloat_intCast a (by omega) (by omega), roundFloat_intCast b (by omega) hb]
  have haq : (0 : ℚ) < (a : ℚ) := by exact_mod_cast ha
  have hbq : (0 : ℚ) < (b : ℚ) := by
    have : (0 : Int) < b := by omega
    exact_mod_cast this
  have hb53 : (b : ℚ) < 2 ^ 53 := by exact_mod_cast hb
  have hab1 : (a : ℚ) + 1 ≤ (b : ℚ) := by
    have : a + 1 ≤ b := by omega
    exact_mod_cast this
  have hb0 : ¬ ((b : ℚ) = 0) := ne_of_gt hbq
  have hqpos : (0 : ℚ) < (a : ℚ) / (b : ℚ) := div_pos haq hbq
  have hq : (a : ℚ) / (b : ℚ) ≤ 1 - 1 / 2 ^ 53 := by
    rw [div_le_iff₀ hbq]
    have h53 : (0 : ℚ) < 2 ^ 53 := by positivity
    have e : (1 - 1 / 2 ^ 53 : ℚ) * (b : ℚ) = (b : ℚ) - (b : ℚ) / 2 ^ 53 := by
      field_simp
      ring
    rw [e]
    have : (b : ℚ) / 2 ^ 53 < 1 := by
      rw [div_lt_one h53]
      exact hb53
    linarith
  have hlt := roundRat_lt_one _ hqpos hq
  have hfin := roundFloat_of_range ((a : ℚ) / (b : ℚ)) (le_of_lt hqpos) 0 (by
    have : (0 : ℚ) < 1 / 2 ^ 53 := by positivity
    simp only [pow_zero]
    linarith) (by norm_num)
  simp only [Float64.div, hb0, if_false]
  rw [hfin]
  simp only [Float64.ltOne, decide_eq_true_eq]
  exact hlt

/-- The projection of `estimateNextTime` for a history ending in `P, L`
with both non-zero and a counts list ending in `c`, for any arithmetic. -/
theorem estimate_projection {F : Type} (ops : FloatOps F) (pre cpre : List Int)
    (P L c s : Int) (hP : P ≠ 0) (hL : L ≠ 0) :
    estimateNextTime ops (pre ++ [P, L]) (cpre ++ [c]) s =
      .done (max L (ops.toDuration (ops.mul (ops.ofInt L)
        (if ops.ltOne (ops.div (ops.ofInt L) (ops.ofInt P)) = true
          then ops.div (ops.ofInt s) (ops.ofInt c)
          else ops.div (ops.ofInt L) (ops.ofInt P))))) := by
  rw [estimate_two ops pre P L hL, if_neg hP, indexAt_last]
  by_cases hlt : ops.ltOne (ops.div (ops.ofInt L) (ops.ofInt P)) = true
  · simp only [hlt, if_true]
    by_cases h : ops.toDuration (ops.mul (ops.ofInt L) (ops.div (ops.ofInt s) (ops.ofInt c))) < L
    · rw [if_pos h, max_eq_left (le_of_lt h)]
    · rw [if_neg h, max_eq_right (not_lt.mp h)]
  · simp only [hlt, Bool.false_eq_true, if_false]
    by_cases h : ops.toDuration (ops.mul (ops.ofInt L) (ops.div (ops.ofInt L) (ops.ofInt P))) < L
    · rw [if_pos h, max_eq_left (le_of_lt h)]
    · rw [if_neg h, max_eq_right (not_lt.mp h)]

/-- The binary64 product `float64(L) * ratio` for `0 < L < 2^53` and a
finite ratio `r` with `0 ≤ r < 2^53`, converted to a duration that fits an
`int64`. -/
theorem binary64_product (outOfRange : Float64 → Int) (L : Int) (r : ℚ)
    (hL : 0 < L) (hL53 : L < 2 ^ 53) (hr0 : 0 ≤ r) (hr : r ≤ 2 ^ 53)
    (hfit : truncRat (roundRat ((L : ℚ) * r)) ≤ 2 ^ 63 - 1) :
    (binary64Ops outOfRange).toDuration ((binary64Ops outOfRange).mul
      ((binary64Ops outOfRange).ofInt L) (.finite r)) = truncRat (roundRat ((L : ℚ) * r)) := by
  show Float64.toDuration outOfRange (Float64.mul (roundFloat (L : ℚ)) (.finite r)) = _
  rw [roundFloat_intCast L (by omega) hL53]
  have hLq : (0 : ℚ) < (L : ℚ) := by exact_mod_cast hL
  have hL53q : (L : ℚ) < 2 ^ 53 := by exact_mod_cast hL53
  have hprod0 : (0 : ℚ) ≤ (L : ℚ) * r := mul_nonneg (le_of_lt hLq) hr0
  have hprod : (L : ℚ) * r < 2 ^ 107 := by
    have h1 : (L : ℚ) * r ≤ 2 ^ 53 * 2 ^ 53 :=
      mul_le_mul (le_of_lt hL53q) hr hr0 (by positivity)
    have h2 : (2 : ℚ) ^ 53 * 2 ^ 53 < 2 ^ 107 := by norm_num
    linarith
  simp only [Float64.mul]
  rw [roundFloat_of_range _ hprod0 107 hprod (by norm_num)]
  exact toDuration_of_range outOfRange _ (roundRat_nonneg _ hprod0) hfit

/-- The binary64 quotient of two integers in `[1, 2^53)` is the rounded
exact quotient, a finite value in `[0, 2^53]`. -/
theorem binary64_quotient (outOfRange : Float64 → Int) (a b : Int)
    (ha : 0 < a) (ha53 : a < 2 ^ 53) (hb : 0 < b) (hb53 : b < 2 ^ 53) :
    (binary64Ops outOfRange).div ((binary64Ops outOfRange).ofInt a)
      ((binary64Ops outOfRange).ofInt b) = .finite (roundRat ((a : ℚ) / (b : ℚ))) ∧
    0 ≤ roundRat ((a : ℚ) / (b : ℚ)) ∧ roundRat ((a : ℚ) / (b : ℚ)) ≤ 2 ^ 53 := by
  have haq : (0 : ℚ) < (a : ℚ) := by exact_mod_cast ha
  have hbq : (0 : ℚ) < (b : ℚ) := by exact_mod_cast hb
  have hb1 : (1 : ℚ) ≤ (b : ℚ) := by
    have : (1 : Int) ≤ b := by omega
    exact_mod_cast this
  have ha53q : (a : ℚ) < 2 ^ 53 := by exact_mod_cast ha53
  have hq0 : (0 : ℚ) ≤ (a : ℚ) / (b : ℚ) := le_of_lt (div_pos haq hbq)
  have hq : (a : ℚ) / (b : ℚ) < 2 ^ 53 := by
    have : (a : ℚ) / (b : ℚ) ≤ (a : ℚ) := div_le_self (le_of_lt haq) hb1
    linarith
  have hb0 : ¬ ((b : ℚ) = 0) := ne_of_gt hbq
  refine ⟨?_, roundRat_range _ hq0 53 hq⟩
  show Float64.div (roundFloat (a : ℚ)) (roundFloat (b : ℚ)) = _
  rw [roundFloat_intCast a (by omega) ha53, roundFloat_intCast b (by omega) hb53]
  simp only [Float64.div, hb0, if_false]
  exact roundFloat_of_range _ hq0 53 hq (by norm_num)

/-! ## runBenchmarks -/

/-- When the quotient of the two latest entries is not below one, the
estimate does not read the counts list or the target size. -/
theorem estimate_growing {F : Type} (ops : FloatOps F) (pre : List Int) (P L : Int)
    (hP : P ≠ 0) (hL : L ≠ 0)
    (hops : ops.ltOne (ops.div (ops.ofInt L) (ops.ofInt P)) = false)
    (counts : List Int) (size : Int) :
    estimateNextTime ops (pre ++ [P, L]) counts size =
      if ops.toDuration (ops.mul (ops.ofInt L) (ops.div (ops.ofInt L) (ops.ofInt P))) < L
      then .done L
      else .done (ops.toDuration (ops.mul (ops.ofInt L) (ops.div (ops.ofInt L) (ops.ofInt P)))) := by
  rw [estimate_two ops pre P L hL counts size, if_neg hP, hops]
  simp only [Bool.false_eq_true, if_false]

theorem exact_ratio_ge_one (a b : Int) (hb : 0 < b) (hab : b ≤ a) :
    exactOps.ltOne (exactOps.div (exactOps.ofInt a) (exactOps.ofInt b)) = false := by
  have hbq : (0 : ℚ) < (b : ℚ) := by exact_mod_cast hb
  have habq : (b : ℚ) ≤ (a : ℚ) := by exact_mod_cast hab
  simp only [exactOps, decide_eq_false_iff_not, not_lt]
  rw [le_div_iff₀ hbq]
  linarith

/-- A data point whose repeats time out leaves the histories unchanged
and reports the three estimates. -/
theorem benchPoint_timedOut {F : Type} (ops : FloatOps F) (name : String) (h : History)
    (dp : Int) (runs : List RunTimes) (ht : (repeatLoop (runs.take 10) (0, 0, 0)).2 = true)
    (h1 : History) (r1 : benchmarkResult) (hb : benchPoint ops name h dp runs = .done (h1, r1)) :
    h1 = h ∧ r1.estimated = true ∧
    estimateNextTime ops h.insertHistory h.insertCounts dp = .done r1.insertAvg ∧
    estimateNextTime ops h.searchHistory h.insertCounts dp = .done r1.searchAvg ∧
    estimateNextTime ops h.sumHistory h.insertCounts dp = .done r1.sumAvg := by
  unfold benchPoint at hb
  simp only [ht, if_true] at hb
  cases ha : estimateNextTime ops h.insertHistory h.insertCounts dp with
  | indexOutOfRange => rw [ha] at hb; exact Outcome.noConfusion hb
  | outOfFuel => rw [ha] at hb; exact Outcome.noConfusion hb
  | done a =>
    cases hs : estimateNextTime ops h.searchHistory h.insertCounts dp with
    | indexOutOfRange => rw [ha, hs] at hb; exact Outcome.noConfusion hb
    | outOfFuel => rw [ha, hs] at hb; exact Outcome.noConfusion hb
    | done s =>
      cases hu : estimateNextTime ops h.sumHistory h.insertCounts dp with
      | indexOutOfRange => rw [ha, hs, hu] at hb; exact Outcome.noConfusion hb
      | outOfFuel => rw [ha, hs, hu] at hb; exact Outcome.noConfusion hb
      | done u =>
        rw [ha, hs, hu] at hb
        have := Outcome.done.inj hb
        have e1 := (Prod.mk.inj this).1
        have e2 := (Prod.mk.inj this).2
        rw [← e1, ← e2]
        exact ⟨rfl, rfl, rfl, rfl, rfl⟩

/-! ## The claims -/

/-- C1: after any sequence of `Insert(id, score)` calls with ids in
`[1, MaxID]` on `NewSolution1()`, `Search(q)` for `q` in `[1, MaxID]` returns
the scores of the calls with id `q` in call order when there is such a call,
and `[-1]` otherwise. -/
theorem C1_solution1_search (calls : List (Nat × Nat)) (q : Nat)
    (_hids : ∀ c ∈ calls, 1 ≤ c.1 ∧ c.1 ≤ MaxID) (_hq : 1 ≤ q ∧ q ≤ MaxID) :
    (scoresOf calls q ≠ [] →
      (NewSolution1.insertAll calls).Search q = (scoresOf calls q).map Int.ofNat) ∧
    (scoresOf calls q = [] → (NewSolution1.insertAll calls).Search q = [-1]) :=
  ⟨(Solution1_Search_insertAll calls q).2, (Solution1_Search_insertAll calls q).1⟩

/-- C1 at the five calls (3,10), (1,20), (3,30), (2,40), (1,50):
`Search(3) = [10, 30]`, `Search(1) = [20, 50]`, `Search(99) = [-1]`. -/
theorem C1_solution1_search_witness :
    (NewSolution1.insertAll [(3, 10), (1, 20), (3, 30), (2, 40), (1, 50)]).Search 3 = [10, 30] ∧
    (NewSolution1.insertAll [(3, 10), (1, 20), (3, 30), (2, 40), (1, 50)]).Search 1 = [20, 50] ∧
    (NewSolution1.insertAll [(3, 10), (1, 20), (3, 30), (2, 40), (1, 50)]).Search 99 = [-1] :=
  ⟨(C1_solution1_search [(3, 10), (1, 20), (3, 30), (2, 40), (1, 50)] 3
      (by decide) (by decide)).1 (by decide),
   (C1_solution1_search [(3, 10), (1, 20), (3, 30), (2, 40), (1, 50)] 1
      (by decide) (by decide)).1 (by decide),
   (C1_solution1_search [(3, 10), (1, 20), (3, 30), (2, 40), (1, 50)] 99
      (by decide) (by decide)).2 (by decide)⟩

/-- C2: after any sequence of `Insert(id, score)` calls (any ids, any
scores) on `NewSolution2()`, no call having failed, `Search(q)` for `q` in
`[1, MaxID]` returns the scores of the calls with id `q` in call order when
there is such a call, and `[-1]` otherwise; one unit of fuel per stored score
of `q` is enough for the traversal. -/
theorem C2_solution2_search (calls : List (Nat × Nat)) (q : Nat)
    (hq : 1 ≤ q ∧ q ≤ MaxID) :
    ∃ s, NewSolution2.insertAll calls = .done s ∧
      ∀ fuel, (scoresOf calls q).length ≤ fuel →
        (scoresOf calls q ≠ [] →
          s.Search fuel q = .done ((scoresOf calls q).map Int.ofNat)) ∧
        (scoresOf calls q = [] → s.Search fuel q = .done [-1]) := by
  obtain ⟨s, hs, hr, _⟩ :=
    Solution2_insertAll_represents calls NewSolution2 [] Solution2_Represents_new
  rw [List.nil_append] at hr
  exact ⟨s, hs, fun fuel hfuel => Solution2_Search_represents s calls hr q hq.1 hq.2 fuel hfuel⟩

/-- C2 at the calls (3,10), (1,20), (3,30), (2,40), (1,50), (0,9),
(MaxID+1,4): `Search(3) = [10, 30]` with fuel 2. -/
theorem C2_solution2_search_witness :
    ∃ s, NewSolution2.insertAll
        [(3, 10), (1, 20), (3, 30), (2, 40), (1, 50), (0, 9), (MaxID + 1, 4)] = .done s ∧
      s.Search 2 3 = .done [10, 30] := by
  obtain ⟨s, hs, h⟩ := C2_solution2_search
    [(3, 10), (1, 20), (3, 30), (2, 40), (1, 50), (0, 9), (MaxID + 1, 4)] 3 (by decide)
  exact ⟨s, hs, (h 2 (by decide)).1 (by decide)⟩

/-- C3: after any sequence of `Insert(id, score)` calls (any ids, any
scores) on `NewLinkedListPlus()`, `Search(q)` for `q` in `[1, MaxID]` returns
the scores of the calls with id `q` in call order when there is such a call,
and `[-1]` otherwise; and two stores whose nodes agree on `(id, score)` give
the same `Search` result, whatever their `head` and `next` fields. -/
theorem C3_linkedListPlus_search :
    (∀ (calls : List (Nat × Nat)) (q : Nat), 1 ≤ q ∧ q ≤ MaxID →
      (scoresOf calls q ≠ [] →
        (NewLinkedListPlus.insertAll calls).Search q = (scoresOf calls q).map Int.ofNat) ∧
      (scoresOf calls q = [] → (NewLinkedListPlus.insertAll calls).Search q = [-1])) ∧
    (∀ (l t : LinkedListPlus) (q : Nat),
      l.nodes.map node.toRecord = t.nodes.map node.toRecord → l.Search q = t.Search q) := by
  constructor
  · intro calls q hq
    have h := LinkedListPlus_Search_insertAll calls q
    rw [scoresOf_validCalls, if_neg (by omega)] at h
    exact ⟨h.2, h.1⟩
  · intro l t q h
    rw [LinkedListPlus_Search_records l 0, LinkedListPlus_Search_records t 0]
    show Solution1.Search { data := l.nodes.map node.toRecord, capacity := 0 } q = _
    rw [h]
    rfl

/-- C3 at the calls (3,10), (1,20), (3,30), (0,9): `Search(3) = [10, 30]`,
and a store with the same records but other links answers the same. -/
theorem C3_linkedListPlus_search_witness :
    (NewLinkedListPlus.insertAll [(3, 10), (1, 20), (3, 30), (0, 9)]).Search 3 = [10, 30] ∧
    LinkedListPlus.Search
      { nodes := [{ id := 1, score := 20, next := 1 }, { id := 3, score := 10, next := -1 }],
        head := 0 } 3 =
    LinkedListPlus.Search
      { nodes := [{ id := 1, score := 20, next := 7 }, { id := 3, score := 10, next := 0 }],
        head := 5 } 3 :=
  ⟨(C3_linkedListPlus_search.1 [(3, 10), (1, 20), (3, 30), (0, 9)] 3 (by decide)).1 (by decide),
   C3_linkedListPlus_search.2 _ _ 3 (by decide)⟩

/-- C4: `Solution1.Insert` has no id check, so an `Insert` with id `0` or
`MaxID + 1` is stored and changes what `Search` returns for that id. -/
theorem C4_solution1_insert_invalid_id_stored :
    NewSolution1.Search 0 = [-1] ∧ (NewSolution1.Insert 0 7).Search 0 = [7] ∧
    NewSolution1.Search (MaxID + 1) = [-1] ∧
    (NewSolution1.Insert (MaxID + 1) 7).Search (MaxID + 1) = [7] ∧
    (NewSolution1.Insert 0 7).data = [{ id := 0, score := 7 }] := by
  decide

/-- C5: in any state, `Solution2.Insert` and `LinkedListPlus.Insert` with
id `0` or an id above `MaxID` return the state unchanged, so every `Search`
result is unchanged. -/
theorem C5_insert_invalid_id_ignored (id score : Nat) (hid : id = 0 ∨ id > MaxID) :
    (∀ (s : Solution2), s.Insert id score = .done s) ∧
    (∀ (l : LinkedListPlus), l.Insert id score = l) ∧
    (∀ (s : Solution2) (fuel q : Nat),
      ∃ t, s.Insert id score = .done t ∧ t.heads = s.heads ∧ t.nodes = s.nodes ∧
        t.Search fuel q = s.Search fuel q) ∧
    (∀ (l : LinkedListPlus) (q : Nat),
      (l.Insert id score).nodes = l.nodes ∧ (l.Insert id score).head = l.head ∧
        (l.Insert id score).Search q = l.Search q) := by
  have h2 : ∀ (s : Solution2), s.Insert id score = .done s := by
    intro s
    simp [Solution2.Insert, hid]
  have hl : ∀ (l : LinkedListPlus), l.Insert id score = l :=
    fun l => LinkedListPlus_Insert_invalid l id score hid
  refine ⟨h2, hl, ?_, ?_⟩
  · intro s fuel q
    exact ⟨s, h2 s, rfl, rfl, rfl⟩
  · intro l q
    rw [hl l]
    exact ⟨rfl, rfl, rfl⟩

/-- C5 at id `0` and at id `MaxID + 1`, on the new stores. -/
theorem C5_insert_invalid_id_ignored_witness :
    NewSolution2.Insert 0 5 = .done NewSolution2 ∧
    NewLinkedListPlus.Insert (MaxID + 1) 5 = NewLinkedListPlus :=
  ⟨(C5_insert_invalid_id_ignored 0 5 (by decide)).1 NewSolution2,
   (C5_insert_invalid_id_ignored (MaxID + 1) 5 (by decide)).2.1 NewLinkedListPlus⟩

/-- C6: `Search` with id `0` or an id above `MaxID` returns `[-1]`: for
`Solution2` in every state (also one reached by `Insert` calls, and even with
no heads at all, so `heads` is not indexed), for `LinkedListPlus` in every
state reached from `NewLinkedListPlus()` by `Insert` calls. -/
theorem C6_search_invalid_id (id : Nat) (hid : id = 0 ∨ id > MaxID) :
    (∀ (calls : List (Nat × Nat)),
      ∃ s, NewSolution2.insertAll calls = .done s ∧ ∀ fuel, s.Search fuel id = .done [-1]) ∧
    (∀ (s : Solution2) (fuel : Nat), s.Search fuel id = .done [-1]) ∧
    (∀ (calls : List (Nat × Nat)), (NewLinkedListPlus.insertAll calls).Search id = [-1]) := by
  have h2 : ∀ (s : Solution2) (fuel : Nat), s.Search fuel id = .done [-1] := by
    intro s fuel
    simp [Solution2.Search, hid]
  refine ⟨?_, h2, ?_⟩
  · intro calls
    obtain ⟨s, hs, _⟩ :=
      Solution2_insertAll_represents calls NewSolution2 [] Solution2_Represents_new
    exact ⟨s, hs, fun fuel => h2 s fuel⟩
  · intro calls
    have h := LinkedListPlus_Search_insertAll calls id
    rw [scoresOf_validCalls, if_pos hid] at h
    exact h.1 rfl

/-- C6 at id `0` after three calls and at id `MaxID + 1` on a store
without heads. -/
theorem C6_search_invalid_id_witness :
    (NewLinkedListPlus.insertAll [(3, 10), (1, 20), (3, 30)]).Search 0 = [-1] ∧
    Solution2.Search 0 { heads := [], nodes := [] } (MaxID + 1) = .done [-1] :=
  ⟨(C6_search_invalid_id 0 (by decide)).2.2 [(3, 10), (1, 20), (3, 30)],
   (C6_search_invalid_id (MaxID + 1) (by decide)).2.1 { heads := [], nodes := [] } 0⟩

/-- C7: on each of the three new stores `Search(id)` returns `[-1]` for
every id in `[1, MaxID]`. -/
theorem C7_new_store_search (id : Nat) (hid : 1 ≤ id ∧ id ≤ MaxID) :
    NewSolution1.Search id = [-1] ∧
    (∀ fuel, NewSolution2.Search fuel id = .done [-1]) ∧
    NewLinkedListPlus.Search id = [-1] := by
  refine ⟨?_, ?_, ?_⟩
  · exact (Solution1_Search_insertAll [] id).1 rfl
  · intro fuel
    exact (Solution2_Search_represents NewSolution2 [] Solution2_Represents_new id
      hid.1 hid.2 fuel (Nat.zero_le _)).2 rfl
  · exact (LinkedListPlus_Search_insertAll [] id).1 rfl

/-- C7 at id `1` and at id `MaxID`. -/
theorem C7_new_store_search_witness :
    NewSolution1.Search 1 = [-1] ∧ NewSolution2.Search 0 MaxID = .done [-1] ∧
    NewLinkedListPlus.Search MaxID = [-1] :=
  ⟨(C7_new_store_search 1 (by decide)).1, (C7_new_store_search MaxID (by decide)).2.1 0,
   (C7_new_store_search MaxID (by decide)).2.2⟩

/-- C8: the record sequence of `Solution1` and the node sequence of
`LinkedListPlus` are sorted in non-decreasing order of id: in the new store,
after every `Insert` on a sorted store, and so in every state reached by
`Insert` calls. -/
theorem C8_sorted_invariant :
    SortedById NewSolution1.data ∧
    (∀ (s : Solution1) (id score : Nat),
      SortedById s.data → SortedById (s.Insert id score).data) ∧
    (∀ (calls : List (Nat × Nat)), SortedById (NewSolution1.insertAll calls).data) ∧
    SortedNodes NewLinkedListPlus.nodes ∧
    (∀ (l : LinkedListPlus) (id score : Nat),
      SortedNodes l.nodes → SortedNodes (l.Insert id score).nodes) ∧
    (∀ (calls : List (Nat × Nat)), SortedNodes (NewLinkedListPlus.insertAll calls).nodes) :=
  ⟨sorted_nil,
   fun s id score hs => Solution1_Insert_sorted s hs id score,
   fun calls => Solution1_insertAll_sorted calls NewSolution1 sorted_nil,
   List.Pairwise.nil,
   fun l id score hs => LinkedListPlus_Insert_sorted l hs id score,
   fun calls => LinkedListPlus_insertAll_sorted calls NewLinkedListPlus List.Pairwise.nil⟩

/-- C8 at the sorted stores with ids 1, 3 receiving `Insert(2, 9)`. -/
theorem C8_sorted_invariant_witness :
    SortedById (Solution1.Insert
      { data := [{ id := 1, score := 2 }, { id := 3, score := 4 }], capacity := 2 } 2 9).data ∧
    SortedNodes (LinkedListPlus.Insert
      { nodes := [{ id := 1, score := 2, next := 1 }, { id := 3, score := 4, next := -1 }],
        head := 0 } 2 9).nodes :=
  ⟨C8_sorted_invariant.2.1 _ 2 9 (by unfold SortedById; decide),
   C8_sorted_invariant.2.2.2.2.1 _ 2 9 (by unfold SortedNodes; decide)⟩

/-- C9: in every state reached from `NewLinkedListPlus()` by `Insert`
calls, with `n = len(nodes)`: `head` is `-1` when `n = 0` and `0` otherwise;
the node at index `i` has `next = i + 1` when `i + 1 < n` and `next = -1` when
it is the last; following `next` from `head` visits the indices
`0, 1, …, n-1` in this order (each node once, ids non-decreasing) and reaches
`-1` after exactly `n` steps: `n` units of fuel are enough and fewer are not. -/
theorem C9_linkedListPlus_links (calls : List (Nat × Nat)) :
    ((NewLinkedListPlus.insertAll calls).nodes.length = 0 →
      (NewLinkedListPlus.insertAll calls).head = -1) ∧
    ((NewLinkedListPlus.insertAll calls).nodes.length ≠ 0 →
      (NewLinkedListPlus.insertAll calls).head = 0) ∧
    (∀ i nd, (NewLinkedListPlus.insertAll calls).nodes.get? i = some nd →
      (i + 1 < (NewLinkedListPlus.insertAll calls).nodes.length → nd.next = Int.ofNat (i + 1)) ∧
      (i + 1 = (NewLinkedListPlus.insertAll calls).nodes.length → nd.next = -1)) ∧
    (∀ fuel, (NewLinkedListPlus.insertAll calls).nodes.length ≤ fuel →
      followLinks (NewLinkedListPlus.insertAll calls).nodes fuel
        (NewLinkedListPlus.insertAll calls).head [] =
        .done (List.range (NewLinkedListPlus.insertAll calls).nodes.length)) ∧
    (∀ fuel, fuel < (NewLinkedListPlus.insertAll calls).nodes.length →
      followLinks (NewLinkedListPlus.insertAll calls).nodes fuel
        (NewLinkedListPlus.insertAll calls).head [] = .outOfFuel) ∧
    SortedNodes (NewLinkedListPlus.insertAll calls).nodes := by
  have hl := LinkedListPlus_insertAll_links calls NewLinkedListPlus linksOk_new
  have hs := LinkedListPlus_insertAll_sorted calls NewLinkedListPlus List.Pairwise.nil
  generalize NewLinkedListPlus.insertAll calls = l at hl hs
  obtain ⟨hhead, hlinks⟩ := hl
  have hcur : l.head = if 0 < l.nodes.length then Int.ofNat 0 else -1 := by
    rw [hhead]
    by_cases h : l.nodes.length = 0
    · simp [h]
    · have : 0 < l.nodes.length := by omega
      simp [h, this]
  refine ⟨?_, ?_, ?_, ?_, ?_, hs⟩
  · intro h; rw [hhead, if_pos h]
  · intro h; rw [hhead, if_neg h]
  · intro i nd hget
    have := hlinks i nd hget
    constructor
    · intro h; rw [this, if_pos h]
    · intro h; rw [this, if_neg (by omega)]
  · intro fuel hfuel
    rw [hcur, followLinks_from l.nodes hlinks l.nodes.length 0 fuel [] (by omega) hfuel,
      List.range_eq_range']
    simp
  · intro fuel hfuel
    rw [hcur]
    exact followLinks_short l.nodes hlinks fuel l.nodes.length 0 [] (by omega) hfuel

/-- C9 after the calls (3,10), (1,20), (3,30), (0,9): the walk from `head`
with fuel 3 visits indices 0, 1, 2; with fuel 2 it has not reached `-1`. -/
theorem C9_linkedListPlus_links_witness :
    followLinks (NewLinkedListPlus.insertAll [(3, 10), (1, 20), (3, 30), (0, 9)]).nodes 3
      (NewLinkedListPlus.insertAll [(3, 10), (1, 20), (3, 30), (0, 9)]).head [] =
      .done [0, 1, 2] ∧
    followLinks (NewLinkedListPlus.insertAll [(3, 10), (1, 20), (3, 30), (0, 9)]).nodes 2
      (NewLinkedListPlus.insertAll [(3, 10), (1, 20), (3, 30), (0, 9)]).head [] =
      .outOfFuel :=
  ⟨(C9_linkedListPlus_links [(3, 10), (1, 20), (3, 30), (0, 9)]).2.2.2.1 3 (by decide),
   (C9_linkedListPlus_links [(3, 10), (1, 20), (3, 30), (0, 9)]).2.2.2.2.1 2 (by decide)⟩

/-- C10: for a sequence of `Insert` calls with ids in `[1, MaxID]`
applied to the three new stores and for every query id `q`, the three
`Search(q)` results are the same list (for `Solution2` with one unit of fuel
per stored score of `q`, no `Insert` having failed), and the `(id, score)`
projection of `LinkedListPlus.nodes` equals `Solution1.data`. -/
theorem C10_stores_equivalent (calls : List (Nat × Nat))
    (hids : ∀ c ∈ calls, 1 ≤ c.1 ∧ c.1 ≤ MaxID) (q : Nat) :
    ∃ s2, NewSolution2.insertAll calls = .done s2 ∧
      (∀ fuel, (scoresOf calls q).length ≤ fuel →
        s2.Search fuel q = .done ((NewSolution1.insertAll calls).Search q)) ∧
      (NewLinkedListPlus.insertAll calls).Search q = (NewSolution1.insertAll calls).Search q ∧
      (NewLinkedListPlus.insertAll calls).nodes.map node.toRecord =
        (NewSolution1.insertAll calls).data := by
  have hrec := LinkedListPlus_insertAll_records calls NewLinkedListPlus NewSolution1 rfl
  rw [validCalls_eq_self calls hids] at hrec
  obtain ⟨s2, hs2, hr, _⟩ :=
    Solution2_insertAll_represents calls NewSolution2 [] Solution2_Represents_new
  rw [List.nil_append] at hr
  have h1 := Solution1_Search_insertAll calls q
  refine ⟨s2, hs2, ?_, ?_, hrec⟩
  · intro fuel hfuel
    by_cases hq : q = 0 ∨ q > MaxID
    · have hnil : scoresOf calls q = [] := by
        have := scoresOf_validCalls calls q
        rw [validCalls_eq_self calls hids, if_pos hq] at this
        exact this
      rw [h1.1 hnil]
      simp [Solution2.Search, hq]
    · have h2 := Solution2_Search_represents s2 calls hr q (by omega) (by omega) fuel hfuel
      by_cases hnil : scoresOf calls q = []
      · rw [h1.1 hnil, h2.2 hnil]
      · rw [h1.2 hnil, h2.1 hnil]
  · rw [LinkedListPlus_Search_records _ (NewSolution1.insertAll calls).capacity, hrec]

/-- C10 at the calls (3,10), (1,20), (3,30), (2,40), (1,50) and query 3. -/
theorem C10_stores_equivalent_witness :
    ∃ s2, NewSolution2.insertAll [(3, 10), (1, 20), (3, 30), (2, 40), (1, 50)] = .done s2 ∧
      s2.Search 2 3 = .done
        ((NewSolution1.insertAll [(3, 10), (1, 20), (3, 30), (2, 40), (1, 50)]).Search 3) ∧
      (NewLinkedListPlus.insertAll [(3, 10), (1, 20), (3, 30), (2, 40), (1, 50)]).Search 3 =
        (NewSolution1.insertAll [(3, 10), (1, 20), (3, 30), (2, 40), (1, 50)]).Search 3 := by
  obtain ⟨s2, h1, h2, h3, _⟩ :=
    C10_stores_equivalent [(3, 10), (1, 20), (3, 30), (2, 40), (1, 50)] (by decide) 3
  exact ⟨s2, h1, h2 2 (by decide), h3⟩

/-- C14: after any sequence of `Insert(id, score)` calls on
`NewSolution1()`, `data` is the stable sort by id (ascending, equal ids in
call order) of the inserted records: it equals the stable insertion sort of
the records, it is sorted and keeps for every id the records of that id in
call order, it is a permutation of the inserted records, and its length is
the number of calls. -/
theorem C14_solution1_stable_sort (calls : List (Nat × Nat)) :
    (NewSolution1.insertAll calls).data = stableSortById (callRecords calls) ∧
    SortedById (NewSolution1.insertAll calls).data ∧
    (∀ q, (NewSolution1.insertAll calls).data.filter (fun r => decide (r.id = q)) =
      (callRecords calls).filter (fun r => decide (r.id = q))) ∧
    List.Perm (NewSolution1.insertAll calls).data (callRecords calls) ∧
    (NewSolution1.insertAll calls).data.length = calls.length := by
  have h := Solution1_insertAll_stableSort calls
  have hp : List.Perm (NewSolution1.insertAll calls).data (callRecords calls) := by
    rw [h]
    exact List.perm_insertionSort _ _
  refine ⟨h, Solution1_insertAll_sorted calls NewSolution1 sorted_nil, ?_, hp, ?_⟩
  · intro q
    rw [Solution1_insertAll_filter calls q NewSolution1 sorted_nil]
    rfl
  · rw [hp.length_eq]
    simp [callRecords]

/-- C15: after `n` `Insert` calls on `NewSolution1()`, with
`1 ≤ n ≤ 10^18` (beyond that the growth falls back to the exact size), the
`capacity` field is the smallest power of ten that is at least `n`; and
after any number of calls `len(data) ≤ capacity`. -/
theorem C15_solution1_capacity (calls : List (Nat × Nat)) :
    (1 ≤ calls.length → calls.length ≤ 10 ^ 18 →
      ∃ k, (NewSolution1.insertAll calls).capacity = 10 ^ k ∧ calls.length ≤ 10 ^ k ∧
        ∀ j, calls.length ≤ 10 ^ j → k ≤ j) ∧
    (NewSolution1.insertAll calls).data.length ≤ (NewSolution1.insertAll calls).capacity := by
  constructor
  · intro h1 hsmall
    obtain ⟨k, hk1, hk2, hk3⟩ := Solution1_insertAll_pow calls NewSolution1
      (by simpa [NewSolution1] using hsmall) ⟨0, rfl, by simp [NewSolution1], Or.inl rfl⟩
    have hlen : NewSolution1.data.length + calls.length = calls.length := by
      simp [NewSolution1]
    rw [hlen] at hk2 hk3
    refine ⟨k, hk1, hk2, ?_⟩
    intro j hj
    rcases hk3 with hk3 | hk3
    · omega
    · by_contra hlt
      have : 10 ^ j ≤ 10 ^ (k - 1) := Nat.pow_le_pow_right (by decide) (by omega)
      omega
  · exact Solution1_insertAll_le_capacity calls NewSolution1 (by simp [NewSolution1])

/-- C15 at eleven calls: the capacity is `10^2`. -/
theorem C15_solution1_capacity_witness :
    (∃ k, (NewSolution1.insertAll
        [(3, 10), (1, 20), (3, 30), (2, 40), (1, 50), (7, 1), (8, 2), (9, 3), (4, 4), (5, 5),
          (6, 6)]).capacity = 10 ^ k ∧
      11 ≤ 10 ^ k ∧ ∀ j, 11 ≤ 10 ^ j → k ≤ j) ∧
    (NewSolution1.insertAll
        [(3, 10), (1, 20), (3, 30), (2, 40), (1, 50), (7, 1), (8, 2), (9, 3), (4, 4), (5, 5),
          (6, 6)]).capacity = 100 :=
  ⟨(C15_solution1_capacity
      [(3, 10), (1, 20), (3, 30), (2, 40), (1, 50), (7, 1), (8, 2), (9, 3), (4, 4), (5, 5),
        (6, 6)]).1 (by decide) (by decide),
   by decide⟩

/-- C16: `ensureCapacity` on 64-bit ints, for a store with
`capacity ≥ 0` and `extra ≥ 0` with `needed = len(data) + extra ≤ maxInt`.
When `needed ≤ capacity` the call returns at once with the state unchanged.
Otherwise the growth loop terminates (fuel `needed - newCap` is enough) with
a value `newCap ≥ needed`, the one of the embedding on natural numbers; every
product `newCap * 10` it computes is at most `maxInt` (so it does not wrap);
a loop iteration entered with `newCap * 10 > maxInt` yields exactly `needed`;
then the call returns with `capacity = newCap` and the records unchanged when
`make` accepts `newCap` (`newCap * 8` bytes at most `maxAlloc`), and `make`
panics otherwise.  Whenever the call returns, the records are unchanged and
the capacity is at least `needed`. -/
theorem C16_ensureCapacity_safe (data : List record) (capacity extra : Int)
    (hcap : 0 ≤ capacity) (hextra : 0 ≤ extra)
    (hneeded : Int.ofNat data.length + extra ≤ Int.ofNat maxInt) :
    (Int.ofNat data.length + extra ≤ capacity →
      ∀ fuel, ensureCapacityInt data capacity extra fuel = .done (data, capacity)) ∧
    (capacity < Int.ofNat data.length + extra →
      ∃ newCap : Int,
        (∀ fuel,
          (Int.ofNat data.length + extra - (if capacity = 0 then 1 else capacity)).toNat ≤ fuel →
          growLoopInt (Int.ofNat data.length + extra) fuel
            (if capacity = 0 then 1 else capacity) = .done newCap ∧
          (newCap * Int.ofNat recordSize ≤ Int.ofNat maxAlloc →
            ensureCapacityInt data capacity extra fuel = .done (data, newCap)) ∧
          (newCap * Int.ofNat recordSize > Int.ofNat maxAlloc →
            ensureCapacityInt data capacity extra fuel = .makePanic)) ∧
        Int.ofNat data.length + extra ≤ newCap ∧
        newCap = Int.ofNat (Solution1.ensureCapacity
          { data := data, capacity := capacity.toNat } extra.toNat).capacity) ∧
    (∀ fuel, ∀ p ∈ growProducts (Int.ofNat data.length + extra) fuel
        (if capacity = 0 then 1 else capacity),
      p ≤ Int.ofNat maxInt ∧ wrapInt p = p) ∧
    (∀ (c : Int) (fuel : Nat), Int.ofNat data.length + extra > c →
      c * 10 > Int.ofNat maxInt →
      growLoopInt (Int.ofNat data.length + extra) (fuel + 1) c =
        .done (Int.ofNat data.length + extra)) ∧
    (∀ fuel d c, ensureCapacityInt data capacity extra fuel = .done (d, c) →
      d = data ∧ Int.ofNat data.length + extra ≤ c) ∧
    (Solution1.ensureCapacity
      { data := data, capacity := capacity.toNat } extra.toNat).data = data := by
  obtain ⟨C, rfl⟩ := Int.eq_ofNat_of_zero_le hcap
  obtain ⟨E, rfl⟩ := Int.eq_ofNat_of_zero_le hextra
  have hsum : Int.ofNat data.length + (E : Int) = Int.ofNat (data.length + E) := by
    simp
  have hN : data.length + E ≤ maxInt := by
    rw [hsum] at hneeded
    exact Int.ofNat_le.mp hneeded
  have hwrap : wrapInt (Int.ofNat data.length + (E : Int)) = Int.ofNat (data.length + E) := by
    rw [hsum]
    exact wrapInt_of_range _ (Int.ofNat_nonneg _) (Int.ofNat_le.mpr hN)
  have hstart : (if (C : Int) = 0 then (1 : Int) else (C : Int)) =
      Int.ofNat (if C = 0 then 1 else C) := by
    by_cases h : C = 0 <;> simp [h]
  have hpos : 0 < (if C = 0 then 1 else C) := by
    by_cases h : C = 0 <;> simp [h]; omega
  have htoNat : (C : Int).toNat = C := by simp
  have hEtoNat : (E : Int).toNat = E := by simp
  refine ⟨?_, ?_, ?_, ?_, ?_, Solution1_ensureCapacity_data _ _⟩
  · intro hfit fuel
    have hle : wrapInt (Int.ofNat data.length + (E : Int)) ≤ (C : Int) := by
      rw [hwrap, ← hsum]; exact hfit
    unfold ensureCapacityInt
    simp only [hle, if_true]
  · intro hgrow
    have hfit : ¬ (data.length + E ≤ C) := by
      rw [hsum] at hgrow
      simp only [Int.ofNat_eq_coe] at hgrow
      omega
    have hge := growLoop_ge (data.length + E)
      (data.length + E - (if C = 0 then 1 else C)) (if C = 0 then 1 else C) hpos (le_refl _)
    refine ⟨Int.ofNat (growLoop (data.length + E)
        (data.length + E - (if C = 0 then 1 else C)) (if C = 0 then 1 else C)), ?_, ?_, ?_⟩
    · intro fuel hfuel
      have hle2 : ¬ (Int.ofNat (data.length + E) ≤ (C : Int)) := by
        simp only [Int.ofNat_eq_coe]
        omega
      have hfuel2 : data.length + E - (if C = 0 then 1 else C) ≤ fuel := by
        rw [hsum, hstart] at hfuel
        simp only [Int.ofNat_eq_coe] at hfuel
        omega
      have hloop := growLoopInt_eq (data.length + E) hN fuel (if C = 0 then 1 else C) hpos hfuel2
      rw [growLoop_fuel (data.length + E) fuel
        (data.length + E - (if C = 0 then 1 else C)) _ hpos hfuel2 (le_refl _)] at hloop
      have hlen : ¬ (Int.ofNat data.length > Int.ofNat (growLoop (data.length + E)
          (data.length + E - (if C = 0 then 1 else C)) (if C = 0 then 1 else C))) := by
        simp only [Int.ofNat_eq_coe]
        omega
      have hnn : ¬ (Int.ofNat (growLoop (data.length + E)
          (data.length + E - (if C = 0 then 1 else C)) (if C = 0 then 1 else C)) < 0) := by
        simp only [Int.ofNat_eq_coe]
        omega
      refine ⟨?_, ?_, ?_⟩
      · rw [hsum, hstart]; exact hloop
      · intro hacc
        have href : makeRefuses (Int.ofNat data.length) (Int.ofNat (growLoop (data.length + E)
            (data.length + E - (if C = 0 then 1 else C)) (if C = 0 then 1 else C))) = false := by
          unfold makeRefuses
          rw [decide_eq_false_iff_not]
          intro h
          rcases h with h | h | h
          · exact hnn h
          · exact absurd hacc (not_le.mpr h)
          · exact hlen h
        unfold ensureCapacityInt
        simp only [hwrap, hle2, if_false, hstart, hloop, href, Bool.false_eq_true, goCopy_fresh]
      · intro hrej
        have href : makeRefuses (Int.ofNat data.length) (Int.ofNat (growLoop (data.length + E)
            (data.length + E - (if C = 0 then 1 else C)) (if C = 0 then 1 else C))) = true := by
          unfold makeRefuses
          rw [decide_eq_true_eq]
          exact Or.inr (Or.inl hrej)
        unfold ensureCapacityInt
        simp only [hwrap, hle2, if_false, hstart, hloop, href, if_true]
    · rw [hsum]
      simp only [Int.ofNat_eq_coe]
      omega
    · rw [htoNat, hEtoNat]
      unfold Solution1.ensureCapacity
      simp only [hfit, if_false]
  · intro fuel p hp
    rw [hstart] at hp
    exact (growProducts_le _ fuel _ (by simp only [Int.ofNat_eq_coe]; omega) p hp).2
  · exact fun c fuel h1 h2 => growLoopInt_fallback _ c fuel h1 h2
  · intro fuel d c hdone
    unfold ensureCapacityInt at hdone
    simp only [hwrap] at hdone
    by_cases hle : Int.ofNat (data.length + E) ≤ (C : Int)
    · rw [if_pos hle] at hdone
      have := AllocOutcome.done.inj hdone
      have e1 := (Prod.mk.inj this).1
      have e2 := (Prod.mk.inj this).2
      rw [← e1, ← e2, hsum]
      exact ⟨rfl, hle⟩
    · rw [if_neg hle] at hdone
      cases hloop : growLoopInt (Int.ofNat (data.length + E)) fuel
          (if (C : Int) = 0 then 1 else (C : Int)) with
      | indexOutOfRange => rw [hloop] at hdone; exact AllocOutcome.noConfusion hdone
      | outOfFuel => rw [hloop] at hdone; exact AllocOutcome.noConfusion hdone
      | done r =>
        rw [hloop] at hdone
        simp only at hdone
        by_cases href : makeRefuses (Int.ofNat data.length) r = true
        · rw [if_pos href] at hdone; exact AllocOutcome.noConfusion hdone
        · rw [if_neg href] at hdone
          have := AllocOutcome.done.inj hdone
          have e1 := (Prod.mk.inj this).1
          have e2 := (Prod.mk.inj this).2
          rw [← e1, ← e2, goCopy_fresh, hsum]
          exact ⟨rfl, growLoopInt_done_ge _ fuel _ r hloop⟩

/-- C16 at an empty store with capacity 1 and `extra = 11`: the loop
ends at 100 and the call returns with capacity 100. -/
theorem C16_ensureCapacity_safe_witness :
    ∃ newCap : Int, ensureCapacityInt [] 1 11 10 = .done ([], newCap) ∧ newCap = 100 := by
  obtain ⟨newCap, h1, _, h3⟩ :=
    (C16_ensureCapacity_safe [] 1 11 (by decide) (by decide) (by decide)).2.1 (by decide)
  have e : newCap = 100 := by rw [h3]; decide
  exact ⟨newCap, (h1 10 (by decide)).2.1 (by rw [e]; decide), e⟩

/-- C16 does not hold for every such state: in an empty store with
capacity `10^18` and `extra = 10^18 + 5` the loop ends with
`newCap = needed = 10^18 + 5`, `make` refuses that capacity, and the call
panics instead of returning with `capacity ≥ needed`. -/
theorem C16_ensureCapacity_counterexample :
    growLoopInt 1000000000000000005 5 1000000000000000000 = .done 1000000000000000005 ∧
    makeRefuses 0 1000000000000000005 = true ∧
    ensureCapacityInt [] 1000000000000000000 1000000000000000005 5 = .makePanic ∧
    ¬ (∃ d c, ensureCapacityInt [] 1000000000000000000 1000000000000000005 5 = .done (d, c)) := by
  refine ⟨by decide, by decide, by decide, ?_⟩
  rintro ⟨d, c, h⟩
  have hp : ensureCapacityInt [] 1000000000000000000 1000000000000000005 5 = .makePanic := by
    decide
  rw [hp] at h
  exact AllocOutcome.noConfusion h

/-- C17: in every state reached from `NewSolution2()` by `Insert` calls
(none of which fails), every head is `-1` or an index into `nodes`, and every
`next` is `-1` or an index strictly below its node's index; so the traversal
from any head, with `len(nodes)` units of fuel, ends without an index out of
range and collects at least one score unless the head is `-1` (the
`len(scores) == 0` branch after a head other than `-1` is not reached), and
`Search` returns a result for every id. -/
theorem C17_solution2_chains (calls : List (Nat × Nat)) :
    ∃ s, NewSolution2.insertAll calls = .done s ∧
      (∀ i h, s.heads.get? i = some h → h = -1 ∨ (0 ≤ h ∧ h < Int.ofNat s.nodes.length)) ∧
      (∀ j nd, s.nodes.get? j = some nd →
        nd.next = -1 ∨ (0 ≤ nd.next ∧ nd.next < Int.ofNat j)) ∧
      (∀ i h, s.heads.get? i = some h → ∀ fuel, s.nodes.length ≤ fuel →
        ∃ scores, collectChain s.nodes fuel h [] = .done scores ∧
          (h ≠ -1 → scores.length ≠ 0)) ∧
      (∀ id fuel, s.nodes.length ≤ fuel → ∃ r, s.Search fuel id = .done r) := by
  obtain ⟨s, hs, hr, _⟩ :=
    Solution2_insertAll_represents calls NewSolution2 [] Solution2_Represents_new
  have hw := Solution2_insertAll_wellFormed calls NewSolution2 s Solution2_wellFormed_new hs
  refine ⟨s, hs, hw.1, hw.2, ?_, ?_⟩
  · intro i h hget fuel hfuel
    exact collectChain_wellFormed s hw i h hget fuel hfuel
  · intro id fuel hfuel
    by_cases hbad : id = 0 ∨ id > MaxID
    · exact ⟨[-1], by simp [Solution2.Search, hbad]⟩
    · obtain ⟨h, hget, _⟩ := hr.2 id (by omega) (by omega)
      by_cases hh : h = -1
      · exact ⟨[-1], by simp only [Solution2.Search, hbad, if_false, hget, hh, if_true]⟩
      · obtain ⟨scores, hcol, hne⟩ := collectChain_wellFormed s hw id h hget fuel hfuel
        refine ⟨swapLoop scores (scores.length - 1) 0 (scores.length - 1), ?_⟩
        simp only [Solution2.Search, hbad, if_false, hget, hh, hcol, hne hh]

/-- C17 after the calls (3,10), (1,20), (3,30): the head of id 3 is
index 2, and the traversal from it with fuel `len(nodes)` collects scores. -/
theorem C17_solution2_chains_witness :
    ∃ s scores, NewSolution2.insertAll [(3, 10), (1, 20), (3, 30)] = .done s ∧
      s.heads.get? 3 = some 2 ∧
      collectChain s.nodes s.nodes.length 2 [] = .done scores ∧ scores.length ≠ 0 := by
  obtain ⟨s, hs, _, _, hcol, _⟩ := C17_solution2_chains [(3, 10), (1, 20), (3, 30)]
  have hh : (match NewSolution2.insertAll [(3, 10), (1, 20), (3, 30)] with
      | .done t => t.heads.get? 3
      | _ => none) = some 2 := by decide
  rw [hs] at hh
  obtain ⟨scores, h1, h2⟩ := hcol 3 2 hh s.nodes.length (le_refl _)
  exact ⟨s, scores, hs, hh, h1, h2 (by decide)⟩

/-- C18: for each of the three stores after any sequence of `Insert`
calls whose scores are at most `B` (`B = 255` for every `uint8` score,
`B = 100` when every inserted score is at most 100) and for every query id,
the `Search` result is not empty and is either exactly `[-1]` or consists of
values in `[0, B]`; it contains `-1` exactly when no stored call has that id
(for `Solution1` every call is stored, for the other two the calls with a
valid id). -/
theorem C18_sentinel_unambiguous (calls : List (Nat × Nat)) (B : Nat)
    (hB : ∀ c ∈ calls, c.2 ≤ B) (q : Nat) :
    ((NewSolution1.insertAll calls).Search q ≠ [] ∧
      ((NewSolution1.insertAll calls).Search q = [-1] ∨
        ∀ v ∈ (NewSolution1.insertAll calls).Search q, 0 ≤ v ∧ v ≤ Int.ofNat B) ∧
      ((-1 : Int) ∈ (NewSolution1.insertAll calls).Search q ↔ scoresOf calls q = [])) ∧
    ((NewLinkedListPlus.insertAll calls).Search q ≠ [] ∧
      ((NewLinkedListPlus.insertAll calls).Search q = [-1] ∨
        ∀ v ∈ (NewLinkedListPlus.insertAll calls).Search q, 0 ≤ v ∧ v ≤ Int.ofNat B) ∧
      ((-1 : Int) ∈ (NewLinkedListPlus.insertAll calls).Search q ↔
        scoresOf (validCalls calls) q = [])) ∧
    (∃ s, NewSolution2.insertAll calls = .done s ∧
      ∀ fuel, (scoresOf calls q).length ≤ fuel →
        ∃ r, s.Search fuel q = .done r ∧ r ≠ [] ∧
          (r = [-1] ∨ ∀ v ∈ r, 0 ≤ v ∧ v ≤ Int.ofNat B) ∧
          ((-1 : Int) ∈ r ↔ scoresOf (validCalls calls) q = [])) := by
  refine ⟨?_, ?_, ?_⟩
  · have h := Solution1_Search_insertAll calls q
    exact sentinel_shape _ B (scoresOf_le calls B hB q) _ h.1 h.2
  · have h := LinkedListPlus_Search_insertAll calls q
    exact sentinel_shape _ B
      (scoresOf_le (validCalls calls) B (validCalls_le calls B hB) q) _ h.1 h.2
  · obtain ⟨s, hs, hr, _⟩ :=
      Solution2_insertAll_represents calls NewSolution2 [] Solution2_Represents_new
    rw [List.nil_append] at hr
    refine ⟨s, hs, ?_⟩
    intro fuel hfuel
    have h := Solution2_Search_all s calls hr q fuel hfuel
    by_cases hl : scoresOf (validCalls calls) q = []
    · refine ⟨[-1], h.1 hl, ?_⟩
      exact sentinel_shape _ B
        (scoresOf_le (validCalls calls) B (validCalls_le calls B hB) q) _
        (fun _ => rfl) (fun hne => absurd hl hne)
    · refine ⟨(scoresOf (validCalls calls) q).map Int.ofNat, h.2 hl, ?_⟩
      exact sentinel_shape _ B
        (scoresOf_le (validCalls calls) B (validCalls_le calls B hB) q) _
        (fun e => absurd e hl) (fun _ => rfl)

/-- C18 at the calls (3,10), (1,20), (3,30), (0,9) with bound 100: the
search for id 3 has no `-1`, the search for id 5 is the sentinel. -/
theorem C18_sentinel_unambiguous_witness :
    ¬ ((-1 : Int) ∈ (NewSolution1.insertAll [(3, 10), (1, 20), (3, 30), (0, 9)]).Search 3) ∧
    (-1 : Int) ∈ (NewLinkedListPlus.insertAll [(3, 10), (1, 20), (3, 30), (0, 9)]).Search 5 :=
  ⟨fun hm => absurd
      ((C18_sentinel_unambiguous [(3, 10), (1, 20), (3, 30), (0, 9)] 100 (by decide) 3).1.2.2.mp
        hm) (by decide),
   (C18_sentinel_unambiguous [(3, 10), (1, 20), (3, 30), (0, 9)] 100 (by decide) 5).2.1.2.2.mpr
      (by decide)⟩

/-- C11: the base cases of `estimateNextTime`, for any arithmetic, any
counts list and any target size: an empty history gives `0`, a history with
exactly one entry gives that entry, a history whose latest entry is `0` gives
`0`; history `[5ms]`, counts `[1000]`, size 2000 gives `5ms`. -/
theorem C11_estimate_base_cases {F : Type} (ops : FloatOps F) (counts : List Int)
    (size : Int) :
    estimateNextTime ops [] counts size = .done 0 ∧
    (∀ x, estimateNextTime ops [x] counts size = .done x) ∧
    (∀ pre, estimateNextTime ops (pre ++ [0]) counts size = .done 0) ∧
    estimateNextTime ops [5000000] [1000] 2000 = .done 5000000 :=
  ⟨rfl, fun x => estimate_single ops x counts size,
   fun pre => estimate_last_zero ops pre counts size,
   estimate_single ops 5000000 [1000] 2000⟩

/-- C12: with the `float64` arithmetic of the code (binary64, every
quotient and product rounded to nearest, ties to even), for a history ending
in `P, L` with `P > 0` and `L > 0`, a counts list ending in `c`, and a target
size `s`: the result is `max(L, d)` where `d` is the conversion to a duration
of the rounded product of `L` and the ratio; the ratio is the rounded
quotient `L/P` when `P ≤ L`, and the rounded quotient `s/c` when `L < P`
(for `P < 2^53`).  For values below `2^53` the result is
`max(L, trunc(fl(L * fl(ratio))))`, `fl` the rounding, when the truncation
fits an `int64`. -/
theorem C12_estimate_projection (outOfRange : Float64 → Int) (pre cpre : List Int)
    (P L c s : Int) (hP : 0 < P) (hL : 0 < L) :
    estimateNextTime (binary64Ops outOfRange) (pre ++ [P, L]) (cpre ++ [c]) s =
      .done (max L ((binary64Ops outOfRange).toDuration ((binary64Ops outOfRange).mul
        ((binary64Ops outOfRange).ofInt L)
        (if (binary64Ops outOfRange).ltOne ((binary64Ops outOfRange).div
            ((binary64Ops outOfRange).ofInt L) ((binary64Ops outOfRange).ofInt P)) = true
          then (binary64Ops outOfRange).div ((binary64Ops outOfRange).ofInt s)
            ((binary64Ops outOfRange).ofInt c)
          else (binary64Ops outOfRange).div ((binary64Ops outOfRange).ofInt L)
            ((binary64Ops outOfRange).ofInt P))))) ∧
    (P ≤ L → (binary64Ops outOfRange).ltOne ((binary64Ops outOfRange).div
      ((binary64Ops outOfRange).ofInt L) ((binary64Ops outOfRange).ofInt P)) = false) ∧
    (L < P → P < 2 ^ 53 → (binary64Ops outOfRange).ltOne ((binary64Ops outOfRange).div
      ((binary64Ops outOfRange).ofInt L) ((binary64Ops outOfRange).ofInt P)) = true) ∧
    (P ≤ L → L < 2 ^ 53 →
      truncRat (roundRat ((L : ℚ) * roundRat ((L : ℚ) / (P : ℚ)))) ≤ 2 ^ 63 - 1 →
      estimateNextTime (binary64Ops outOfRange) (pre ++ [P, L]) (cpre ++ [c]) s =
        .done (max L (truncRat (roundRat ((L : ℚ) * roundRat ((L : ℚ) / (P : ℚ))))))) ∧
    (L < P → P < 2 ^ 53 → 0 < c → c < 2 ^ 53 → 0 < s → s < 2 ^ 53 →
      truncRat (roundRat ((L : ℚ) * roundRat ((s : ℚ) / (c : ℚ)))) ≤ 2 ^ 63 - 1 →
      estimateNextTime (binary64Ops outOfRange) (pre ++ [P, L]) (cpre ++ [c]) s =
        .done (max L (truncRat (roundRat ((L : ℚ) * roundRat ((s : ℚ) / (c : ℚ))))))) := by
  have hgen := estimate_projection (binary64Ops outOfRange) pre cpre P L c s
    (by omega) (by omega)
  refine ⟨hgen, fun h => binary64_ratio_ge_one outOfRange L P hP h,
    fun h h53 => binary64_ratio_lt_one outOfRange L P hL h h53, ?_, ?_⟩
  · intro hle hL53 hfit
    have hlt := binary64_ratio_ge_one outOfRange L P hP hle
    obtain ⟨hq, hr0, hr⟩ := binary64_quotient outOfRange L P hL hL53 hP (by omega)
    rw [hgen, hlt]
    simp only [Bool.false_eq_true, if_false]
    rw [hq, binary64_product outOfRange L _ hL hL53 hr0 hr hfit]
  · intro hlt hP53 hc hc53 hs hs53 hfit
    have htest := binary64_ratio_lt_one outOfRange L P hL hlt hP53
    obtain ⟨hq, hr0, hr⟩ := binary64_quotient outOfRange s c hs hs53 hc hc53
    rw [hgen, htest]
    simp only [if_true]
    rw [hq, binary64_product outOfRange L _ hL (by omega) hr0 hr hfit]

/-- C12 at history `[5ms, 10ms]`, counts `[1000, 2000]`, size 4000: the
result is `20ms`; at history `[10ms, 5ms]` it is `10ms`. -/
theorem C12_estimate_projection_witness :
    estimateNextTime (binary64Ops (fun _ => 0)) [5000000, 10000000] [1000, 2000] 4000 =
      .done 20000000 ∧
    estimateNextTime (binary64Ops (fun _ => 0)) [10000000, 5000000] [1000, 2000] 4000 =
      .done 10000000 := by
  have r2 := roundRat_intCast 2 (by norm_num) (by norm_num)
  have r10 := roundRat_intCast 10000000 (by norm_num) (by norm_num)
  have r20 := roundRat_intCast 20000000 (by norm_num) (by norm_num)
  push_cast at r2 r10 r20
  have v1 : roundRat (((10000000 : Int) : ℚ) *
      roundRat (((10000000 : Int) : ℚ) / ((5000000 : Int) : ℚ))) = 20000000 := by
    push_cast
    norm_num
    rw [r2]
    norm_num
    exact r20
  have v2 : roundRat (((5000000 : Int) : ℚ) *
      roundRat (((4000 : Int) : ℚ) / ((2000 : Int) : ℚ))) = 10000000 := by
    push_cast
    norm_num
    rw [r2]
    norm_num
    exact r10
  constructor
  · have h := (C12_estimate_projection (fun _ => 0) [] [1000] 5000000 10000000 2000 4000
      (by decide) (by decide)).2.2.2.1 (by decide) (by norm_num)
      (by rw [v1]; norm_num [truncRat])
    simp only [List.nil_append, List.singleton_append] at h
    rw [h, v1]
    norm_num [truncRat]
  · have h := (C12_estimate_projection (fun _ => 0) [] [1000] 10000000 5000000 2000 4000
      (by decide) (by decide)).2.2.2.2 (by decide) (by norm_num) (by decide) (by norm_num)
      (by decide) (by norm_num) (by rw [v2]; norm_num [truncRat])
    simp only [List.nil_append, List.singleton_append] at h
    rw [h, v2]
    norm_num [truncRat]

/-- C12 does not hold with exact arithmetic: at history
`[500000, 700000]` (nanoseconds), counts `[1000, 2000]`, size 4000, the
ratio `700000 / 500000` rounds to `6305039478318694 / 2^52`, just below
`7/5`; the product with `700000` rounds to `8418135900159999 / 2^33`, just
below `980000`, and the function returns `979999`; the rule
`max(L, trunc(L * (L/P)))` on rationals gives `980000`. -/
theorem C12_estimate_projection_counterexample :
    estimateNextTime (binary64Ops (fun _ => 0)) [500000, 700000] [1000, 2000] 4000 =
      .done 979999 ∧
    max (700000 : Int) (truncRat ((700000 : ℚ) * ((700000 : ℚ) / (500000 : ℚ)))) = 980000 ∧
    (979999 : Int) ≠ 980000 := by
  refine ⟨?_, ?_, by decide⟩
  · have hgen := estimate_projection (binary64Ops (fun _ => 0)) [] [1000] 500000 700000 2000 4000
      (by decide) (by decide)
    simp only [List.nil_append, List.singleton_append] at hgen
    have hlt := binary64_ratio_ge_one (fun _ => 0) 700000 500000 (by decide) (by decide)
    obtain ⟨hq, hr0, hr⟩ := binary64_quotient (fun _ => 0) 700000 500000
      (by decide) (by norm_num) (by decide) (by norm_num)
    have e1 : roundRat (((700000 : Int) : ℚ) / ((500000 : Int) : ℚ)) =
        6305039478318694 / 4503599627370496 := by
      push_cast
      exact round_seven_fifths
    have e2 : roundRat (((700000 : Int) : ℚ) * (6305039478318694 / 4503599627370496)) =
        8418135900159999 / 8589934592 := by
      push_cast
      exact round_sample_product
    have e3 : truncRat (8418135900159999 / 8589934592 : ℚ) = 979999 := by
      unfold truncRat
      rw [if_pos (by norm_num), Int.floor_eq_iff]
      constructor <;> norm_num
    rw [e1] at hq hr0 hr
    rw [hgen, hlt]
    simp only [Bool.false_eq_true, if_false]
    rw [hq, binary64_product (fun _ => 0) 700000 _ (by decide) (by norm_num) hr0 hr
      (by rw [e2, e3]; norm_num), e2, e3]
    decide
  · have e : (700000 : ℚ) * ((700000 : ℚ) / (500000 : ℚ)) = ((980000 : Int) : ℚ) := by
      norm_num
    rw [e]
    unfold truncRat
    rw [if_pos (by norm_num), Int.floor_intCast]
    decide

/-- C13: for a non-empty history, a counts list of the same length and
any target size, `estimateNextTime` returns a duration that is at least the
latest entry of the history, whatever the arithmetic produces. -/
theorem C13_estimate_ge_last {F : Type} (ops : FloatOps F) (pre : List Int) (L : Int)
    (counts : List Int) (size : Int) (hlen : counts.length = (pre ++ [L]).length) :
    ∃ d, estimateNextTime ops (pre ++ [L]) counts size = .done d ∧ L ≤ d := by
  apply estimate_done_ge
  intro _ e
  rw [e] at hlen
  simp at hlen

/-- C13 at history `[10ms, 5ms]`, counts `[1000, 2000]`, size 4000, with
exact arithmetic. -/
theorem C13_estimate_ge_last_witness :
    ∃ d, estimateNextTime exactOps [10000000, 5000000] [1000, 2000] 4000 = .done d ∧
      5000000 ≤ d :=
  C13_estimate_ge_last exactOps [10000000] 5000000 [1000, 2000] 4000 (by decide)

/-- C19: for a history and a counts list of equal length and any target
size, whatever the arithmetic, `estimateNextTime` returns a duration (no
index is out of range); and when the history has at least two entries and
the second-latest is `0`, it returns the latest entry, so the quotient by the
second-latest entry is not used. -/
theorem C19_estimate_guarded {F : Type} (ops : FloatOps F) (points counts : List Int)
    (size : Int) (hlen : points.length = counts.length) :
    (∃ d, estimateNextTime ops points counts size = .done d) ∧
    (∀ pre L, points = pre ++ [0, L] → estimateNextTime ops points counts size = .done L) := by
  constructor
  · rcases list_snoc_cases points with e | ⟨pre, L, e⟩
    · subst e
      exact ⟨0, rfl⟩
    · subst e
      obtain ⟨d, hd, _⟩ := estimate_done_ge ops pre L counts size (by
        intro _ e
        rw [e] at hlen
        simp at hlen)
      exact ⟨d, hd⟩
  · intro pre L e
    subst e
    by_cases hL : L = 0
    · subst hL
      have := estimate_last_zero ops (pre ++ [0]) counts size
      simpa using this
    · rw [estimate_two ops pre 0 L hL counts size, if_pos rfl]

/-- C19 at history `[0, 7]` with counts `[1000, 2000]`. -/
theorem C19_estimate_guarded_witness :
    estimateNextTime exactOps [0, 7] [1000, 2000] 4000 = .done 7 :=
  (C19_estimate_guarded exactOps [0, 7] [1000, 2000] 4000 (by decide)).2 [] 7 rfl

/-- C20: for a history ending in `P, L` with `L ≥ P > 0`,
`estimateNextTime` returns the same result for every counts list and every
target size, in binary64 arithmetic (and in exact arithmetic); and since a
timed-out data point of `runBenchmarks` leaves the histories unchanged, two
successive timed-out sizes receive the same estimate in each phase whose
history ends so. -/
theorem C20_estimate_ignores_size (outOfRange : Float64 → Int) (pre : List Int) (P L : Int)
    (hP : 0 < P) (hPL : P ≤ L) :
    (∀ (counts counts2 : List Int) (size size2 : Int),
      estimateNextTime (binary64Ops outOfRange) (pre ++ [P, L]) counts size =
        estimateNextTime (binary64Ops outOfRange) (pre ++ [P, L]) counts2 size2 ∧
      estimateNextTime exactOps (pre ++ [P, L]) counts size =
        estimateNextTime exactOps (pre ++ [P, L]) counts2 size2) ∧
    (∀ (name : String) (h h1 h2 : History) (dp1 dp2 : Int) (runs1 runs2 : List RunTimes)
        (r1 r2 : benchmarkResult),
      (repeatLoop (runs1.take 10) (0, 0, 0)).2 = true →
      (repeatLoop (runs2.take 10) (0, 0, 0)).2 = true →
      benchPoint (binary64Ops outOfRange) name h dp1 runs1 = .done (h1, r1) →
      benchPoint (binary64Ops outOfRange) name h1 dp2 runs2 = .done (h2, r2) →
      h1 = h ∧ h2 = h ∧
      (h.insertHistory = pre ++ [P, L] → r1.insertAvg = r2.insertAvg) ∧
      (h.searchHistory = pre ++ [P, L] → r1.searchAvg = r2.searchAvg) ∧
      (h.sumHistory = pre ++ [P, L] → r1.sumAvg = r2.sumAvg)) := by
  have hb := binary64_ratio_ge_one outOfRange L P hP hPL
  have he := exact_ratio_ge_one L P hP hPL
  have hP0 : P ≠ 0 := by omega
  have hL0 : L ≠ 0 := by omega
  have hind : ∀ (counts counts2 : List Int) (size size2 : Int),
      estimateNextTime (binary64Ops outOfRange) (pre ++ [P, L]) counts size =
        estimateNextTime (binary64Ops outOfRange) (pre ++ [P, L]) counts2 size2 := by
    intro counts counts2 size size2
    rw [estimate_growing _ pre P L hP0 hL0 hb counts size,
      estimate_growing _ pre P L hP0 hL0 hb counts2 size2]
  constructor
  · intro counts counts2 size size2
    refine ⟨hind counts counts2 size size2, ?_⟩
    rw [estimate_growing _ pre P L hP0 hL0 he counts size,
      estimate_growing _ pre P L hP0 hL0 he counts2 size2]
  · intro name h h1 h2 dp1 dp2 runs1 runs2 r1 r2 ht1 ht2 hb1 hb2
    obtain ⟨e1, _, a1, s1, u1⟩ := benchPoint_timedOut _ name h dp1 runs1 ht1 h1 r1 hb1
    obtain ⟨e2, _, a2, s2, u2⟩ := benchPoint_timedOut _ name h1 dp2 runs2 ht2 h2 r2 hb2
    subst e1
    subst e2
    refine ⟨rfl, rfl, ?_, ?_, ?_⟩
    · intro hh
      rw [hh] at a1 a2
      rw [hind h2.insertCounts h2.insertCounts dp1 dp2] at a1
      exact Outcome.done.inj (a1.symm.trans a2)
    · intro hh
      rw [hh] at s1 s2
      rw [hind h2.insertCounts h2.insertCounts dp1 dp2] at s1
      exact Outcome.done.inj (s1.symm.trans s2)
    · intro hh
      rw [hh] at u1 u2
      rw [hind h2.insertCounts h2.insertCounts dp1 dp2] at u1
      exact Outcome.done.inj (u1.symm.trans u2)

/-- C20 at the history `[5ms, 10ms]`: counts `[1000, 2000]` with size
4000 and an empty counts list with size 99 give the same estimate. -/
theorem C20_estimate_ignores_size_witness :
    estimateNextTime (binary64Ops (fun _ => 0)) [5000000, 10000000] [1000, 2000] 4000 =
      estimateNextTime (binary64Ops (fun _ => 0)) [5000000, 10000000] [] 99 ∧
    estimateNextTime exactOps [5000000, 10000000] [1000, 2000] 4000 =
      estimateNextTime exactOps [5000000, 10000000] [] 99 :=
  (C20_estimate_ignores_size (fun _ => 0) [] 5000000 10000000 (by decide) (by decide)).1
    [1000, 2000] [] 4000 99

end Scores
